import Mathlib

/-!
Fast-path number parsing of `codec/float.go`.

A shallow embedding of `src/vendor/github.com/ugorji/go/codec/float.go`.

* A byte slice `[]byte` is a `List Nat`, each element a byte value `0..255`.
* `uint64` is a `Nat` reduced `% 2^64` at every operation that can overflow;
  `int8` and `int64` are `Int`s reduced by `wrap8` and `wrap64`.
* A Go run-time panic (index out of range) is the result `none`.
* Go's multiple results `(value, err)` are pairs; a `nil` error is `none`.
* The arithmetic of `float32` / `float64` and the library parser
  `strconv.ParseFloat` are not part of the file; every function that uses them
  takes them as the parameter `FloatOps`. Where a statement needs the arithmetic
  itself, `binary64` and `binary32` give it: rationals rounded to 53 and 24 bits.
* `readFloatW` is `readFloat` with a record of whether an `int8` counter wrapped.
-/

namespace Codec

/-! ## Machine integers -/

/-- Two's-complement reduction to the `int8` range `-128 .. 127`. -/
def wrap8 (x : Int) : Int := (x + 128) % 256 - 128

/-- Two's-complement reduction to the `int64` range `-2^63 .. 2^63 - 1`. -/
def wrap64 (x : Int) : Int := (x + 9223372036854775808) % 18446744073709551616 - 9223372036854775808

/-- The conversion `uint8(x)` of an `int8`. -/
def toUint8 (x : Int) : Nat := (x % 256).toNat

/-- The number of `uint64` values, `2^64`. -/
def uint64Size : Nat := 18446744073709551616

/-! ## Constants (float.go lines 71-131) -/

/-- `const fUint64Cutoff = (1<<64-1)/10 + 1`. -/
def fUint64Cutoff : Nat := (2 ^ 64 - 1) / 10 + 1

/-- `const fUint32Cutoff = (1<<32-1)/10 + 1`. -/
def fUint32Cutoff : Nat := (2 ^ 32 - 1) / 10 + 1

/-- `const fBase = 10`. -/
def fBase : Nat := 10

/-- `var uint64pow10 = [...]uint64{1, 10, ..., 10 * quintillion}`: twenty entries. -/
def uint64pow10 : List Nat :=
  [1, 10, 100,
   1000, 10000, 100000,
   1000000, 10000000, 100000000,
   1000000000, 10000000000, 100000000000,
   1000000000000, 10000000000000, 100000000000000,
   1000000000000000, 10000000000000000, 100000000000000000,
   1000000000000000000, 10000000000000000000]

/-! ## Bytes -/

/-- The byte `'0'`. -/
def ch0 : Nat := 48
/-- The byte `'1'`. -/
def ch1 : Nat := 49
/-- The byte `'9'`. -/
def ch9 : Nat := 57
/-- The byte `'-'`. -/
def chMinus : Nat := 45
/-- The byte `'+'`. -/
def chPlus : Nat := 43
/-- The byte `'.'`. -/
def chDot : Nat := 46
/-- The byte `'e'`. -/
def chLowerE : Nat := 101
/-- The byte `'E'`. -/
def chUpperE : Nat := 69

/-! ## The integer accumulator (float.go lines 222-248) -/

/-- The `LOOP:` of `parseUint64_simple`, on the bytes `b[i:]` with the accumulator `n`.
Every `return` gives back the named result `n` as it stands at that point. -/
def parseUint64_loop : List Nat → Nat → Nat × Bool
  | [], n => (n, true)
  | c :: cs, n =>
    if c < ch0 ∨ c > ch9 then (n, false)
    else if n ≥ fUint64Cutoff then (n, false)
    else
      let n' := (n * fBase) % uint64Size
      let n1 := (n' + (c - ch0)) % uint64Size
      if n1 < n' then (n', false) else parseUint64_loop cs n1

/-- `func parseUint64_simple(b []byte) (n uint64, ok bool)`. -/
def parseUint64_simple (b : List Nat) : Nat × Bool := parseUint64_loop b 0

/-! ## The decimal scanner (float.go lines 99-123 and 335-482) -/

/-- `type floatinfo struct`: `mantbits uint8`, `is32bit bool`, `exactPow10 int8`,
`exactInts int8`. -/
structure floatinfo where
  mantbits : Nat
  is32bit : Bool
  exactPow10 : Int
  exactInts : Int
  deriving DecidableEq, Repr

/-- `var fi32 = floatinfo{23, true, 10, 7}`. -/
def fi32 : floatinfo := ⟨23, true, 10, 7⟩
/-- `var fi64 = floatinfo{52, false, 22, 15}`. -/
def fi64 : floatinfo := ⟨52, false, 22, 15⟩
/-- `var fi64u = floatinfo{0, false, 19, 0}`. -/
def fi64u : floatinfo := ⟨0, false, 19, 0⟩
/-- `var fi64i = floatinfo{0, false, 19, 0}`. -/
def fi64i : floatinfo := ⟨0, false, 19, 0⟩

/-- `type readFloatResult struct`: `mantissa uint64`, `exp int8` and the flags. -/
structure readFloatResult where
  mantissa : Nat
  exp : Int
  neg : Bool
  sawdot : Bool
  sawexp : Bool
  trunc : Bool
  bad : Bool
  ok : Bool
  deriving DecidableEq, Repr

/-- The local variables of `readFloat` that live across its loop: the named result `r`
and the `int8` counters `nd`, `ndMant`, `dp`. -/
structure scanVars where
  r : readFloatResult
  nd : Int
  ndMant : Int
  dp : Int
  deriving DecidableEq, Repr

/-- How a part of `readFloat` is left: by a `return` of the result as it stands, or by
falling through to the next statement, with the bytes `s[i:]` not yet consumed. -/
inductive scanFlow where
  | ret (r : readFloatResult)
  | next (v : scanVars) (rest : List Nat)
  deriving DecidableEq, Repr

/-- The mantissa loop `for ; i < slen; i++` (lines 378-424) on the bytes `s[i:]`.
After `break` the rest still starts with the exponent marker. -/
def scanLoop (mantCutoffIsUint64Cutoff : Bool) (mantCutoff : Nat) :
    List Nat → scanVars → scanFlow
  | [], v => .next v []
  | c :: cs, v =>
    if c = chDot then
      if v.r.sawdot then .ret { v.r with bad := true }
      else scanLoop mantCutoffIsUint64Cutoff mantCutoff cs
        { v with r := { v.r with sawdot := true }, dp := v.nd }
    else if c = chLowerE ∨ c = chUpperE then
      .next { v with r := { v.r with sawexp := true } } (c :: cs)
    else if c = ch0 then
      if v.nd = 0 then
        scanLoop mantCutoffIsUint64Cutoff mantCutoff cs { v with dp := wrap8 (v.dp - 1) }
      else if v.r.mantissa < mantCutoff then
        scanLoop mantCutoffIsUint64Cutoff mantCutoff cs
          { v with nd := wrap8 (v.nd + 1),
                   r := { v.r with mantissa := v.r.mantissa * fBase % uint64Size },
                   ndMant := wrap8 (v.ndMant + 1) }
      else
        scanLoop mantCutoffIsUint64Cutoff mantCutoff cs { v with nd := wrap8 (v.nd + 1) }
    else if c ≥ ch1 ∧ c ≤ ch9 then
      if mantCutoffIsUint64Cutoff = true ∧ v.r.mantissa < fUint64Cutoff then
        let m := v.r.mantissa * fBase % uint64Size
        let xu := (m + (c - ch0)) % uint64Size
        if xu < m then .ret { v.r with mantissa := m, trunc := true }
        else scanLoop mantCutoffIsUint64Cutoff mantCutoff cs
          { v with nd := wrap8 (v.nd + 1),
                   r := { v.r with mantissa := xu },
                   ndMant := wrap8 (v.ndMant + 1) }
      else if v.r.mantissa < mantCutoff then
        scanLoop mantCutoffIsUint64Cutoff mantCutoff cs
          { v with nd := wrap8 (v.nd + 1),
                   r := { v.r with
                     mantissa := (v.r.mantissa * fBase % uint64Size + (c - ch0)) % uint64Size },
                   ndMant := wrap8 (v.ndMant + 1) }
      else .ret { v.r with trunc := true }
    else .ret { v.r with bad := true }

/-- The optional sign of the exponent (lines 433-439), at `s[i:] = c :: cs`: the flag
`eneg` and the bytes left once a sign is skipped. -/
def expSign (c : Nat) (cs : List Nat) : Bool × List Nat :=
  if c = chPlus then (false, cs)
  else if c = chMinus then (true, cs)
  else (false, c :: cs)

/-- The exponent part `if r.sawexp { ... }` (lines 430-468); `rest` is `s[i:]` as the loop
left it, starting with the marker when there is one. -/
def scanExponent (rest : List Nat) (v : scanVars) : scanFlow :=
  if v.r.sawexp then
    match rest.drop 1 with
    | [] => .next v []
    | c :: cs =>
      let eneg : Bool := (expSign c cs).1
      match (expSign c cs).2 with
      | [] => .next v []
      | d1 :: ds =>
        if 2 < (d1 :: ds).length then .ret v.r
        else if d1 < ch0 ∨ d1 > ch9 then .ret { v.r with bad := true }
        else
          let e1 : Int := wrap8 ((d1 - ch0 : Nat) : Int)
          match ds with
          | [] =>
            .next { v with dp := if eneg then wrap8 (v.dp - e1) else wrap8 (v.dp + e1) } []
          | d2 :: ds2 =>
            if d2 < ch0 ∨ d2 > ch9 then .ret { v.r with bad := true }
            else
              let e2 : Int := wrap8 (wrap8 (e1 * 10) + wrap8 ((d2 - ch0 : Nat) : Int))
              .next { v with dp := if eneg then wrap8 (v.dp - e2) else wrap8 (v.dp + e2) } ds2
  else .next v rest

/-- The closing check (lines 470-481): the scale exponent and the range tests. -/
def scanFinish (y : floatinfo) (v : scanVars) : readFloatResult :=
  if v.r.mantissa ≠ 0 then
    let r : readFloatResult := { v.r with exp := wrap8 (v.dp - v.ndMant) }
    if r.exp < wrap8 (-y.exactPow10) ∨ r.exp > wrap8 (y.exactInts + y.exactPow10) ∨
        (y.mantbits ≠ 0 ∧ r.mantissa >>> y.mantbits ≠ 0) then r
    else { r with ok := true }
  else { v.r with ok := true }

/-- The `mantCutoff` chosen at lines 362-372; `1<<y.mantbits - 1` is computed in `uint64`. -/
def mantCutoffOf (y : floatinfo) : Nat :=
  if y.mantbits ≠ 0 then ((1 <<< y.mantbits) % uint64Size + uint64Size - 1) % uint64Size
  else if y.is32bit then fUint32Cutoff
  else fUint64Cutoff

/-- The flag `mantCutoffIsUint64Cutoff` set at lines 362-372. -/
def mantCutoffIsUint64CutoffOf (y : floatinfo) : Bool :=
  decide (y.mantbits = 0) && !y.is32bit

/-- The zero value of `readFloatResult`, the named result on entry. -/
def readFloatResult.zero : readFloatResult := ⟨0, 0, false, false, false, false, false, false⟩

/-- `func readFloat(s []byte, y floatinfo) (r readFloatResult)`. -/
def readFloat (s : List Nat) (y : floatinfo) : readFloatResult :=
  match s with
  | [] => { readFloatResult.zero with ok := true }
  | c0 :: cs =>
    let r0 : readFloatResult :=
      if c0 = chMinus then { readFloatResult.zero with neg := true } else readFloatResult.zero
    let body : List Nat := if c0 = chMinus then cs else c0 :: cs
    match scanLoop (mantCutoffIsUint64CutoffOf y) (mantCutoffOf y) body ⟨r0, 0, 0, 0⟩ with
    | .ret r => r
    | .next v rest =>
      let v1 : scanVars := if v.r.sawdot then v else { v with dp := v.nd }
      match scanExponent rest v1 with
      | .ret r => r
      | .next v2 _ => scanFinish y v2

/-- What holds of the result while `readFloat` runs: `ok` is unset, and `exp` is still
zero where the scan goes on. -/
def scanFlow.pending : scanFlow → Prop
  | .ret r => r.ok = false
  | .next v _ => v.r.ok = false ∧ v.r.exp = 0

/-! ## Errors, floating point and the library parser -/

/-- The two sentinel errors of package `strconv`. -/
inductive strconvErr where
  | ErrSyntax
  | ErrRange
  deriving DecidableEq, Repr

/-- `strconv.NumError`. -/
structure NumError where
  Func : String
  Num : List Nat
  Err : strconvErr
  deriving DecidableEq, Repr

/-- `func strconvParseErr(b []byte, fn string) error`. -/
def strconvParseErr (b : List Nat) (fn : String) : NumError :=
  { Func := fn, Num := b, Err := strconvErr.ErrSyntax }

/-- What float.go uses of one floating-point width and does not define: the type `T`
(`float64` or `float32`), the constant `0`, the conversion from `uint64`, the constants
`1e0, 1e1, ...` (`pow10 k` is the constant written `1ek`), `*`, `/`, unary `-`, `>`, and
the library parser behind `parseFloat64_strconv` / `parseFloat32_strconv`, which gives
a value and an error. -/
structure FloatOps where
  T : Type
  zero : T
  ofUint64 : Nat → T
  pow10 : Nat → T
  mul : T → T → T
  div : T → T → T
  neg : T → T
  gt : T → T → Bool
  strconv : List Nat → T × Option NumError

/-- `var float64pow10 = [...]float64{1e0, ..., 1e22}`: twenty-three entries. -/
def float64pow10 (E : FloatOps) : List E.T := (List.range 23).map E.pow10

/-- `var float32pow10 = [...]float32{1e0, ..., 1e10}`: eleven entries. -/
def float32pow10 (E : FloatOps) : List E.T := (List.range 11).map E.pow10

/-- `const fMaxMultiplierForExactPow10_64 = 1e15`. -/
def fMaxMultiplierForExactPow10_64 (E : FloatOps) : E.T := E.pow10 15

/-- `const fMaxMultiplierForExactPow10_32 = 1e7`. -/
def fMaxMultiplierForExactPow10_32 (E : FloatOps) : E.T := E.pow10 7

/-- An index expression `tab[i]` with a signed index: a negative or too large index
panics. -/
def indexInt {α : Type} (tab : List α) (i : Int) : Option α :=
  if i < 0 then none else tab[i.toNat]?

/-- The negation `-x` of a `uint8`. -/
def negUint8 (x : Nat) : Nat := (256 - x % 256) % 256

/-! ## The float reconstructors (float.go lines 141-220) -/

/-- `func parseFloat32_reader(r readFloatResult) (f float32, fail bool)`. -/
def parseFloat32_reader (E : FloatOps) (r : readFloatResult) : Option (E.T × Bool) :=
  let f : E.T := E.ofUint64 r.mantissa
  let signed : E.T → E.T × Bool := fun g => (if r.neg then E.neg g else g, false)
  if r.exp ≠ 0 then
    if r.exp < 0 then
      ((float32pow10 E)[toUint8 (wrap8 (-r.exp))]?).map fun p => signed (E.div f p)
    else if r.exp > fi32.exactPow10 then
      (indexInt (float32pow10 E) (wrap8 (r.exp - fi32.exactPow10))).bind fun p1 =>
        let f1 : E.T := E.mul f p1
        if E.gt f1 (fMaxMultiplierForExactPow10_32 E) then some (f1, true)
        else (indexInt (float32pow10 E) fi32.exactPow10).map fun p2 => signed (E.mul f1 p2)
    else
      ((float32pow10 E)[toUint8 r.exp]?).map fun p => signed (E.mul f p)
  else some (signed f)

/-- `func parseFloat32_custom(b []byte) (f float32, err error)`. -/
def parseFloat32_custom (E : FloatOps) (b : List Nat) : Option (E.T × Option NumError) :=
  let r := readFloat b fi32
  if r.bad then some (E.zero, some (strconvParseErr b "ParseFloat"))
  else if r.ok then
    (parseFloat32_reader E r).map fun res => if res.2 then E.strconv b else (res.1, none)
  else some (E.strconv b)

/-- `func parseFloat64_reader(r readFloatResult) (f float64, fail bool)`. -/
def parseFloat64_reader (E : FloatOps) (r : readFloatResult) : Option (E.T × Bool) :=
  let f : E.T := E.ofUint64 r.mantissa
  let signed : E.T → E.T × Bool := fun g => (if r.neg then E.neg g else g, false)
  if r.exp ≠ 0 then
    if r.exp < 0 then
      ((float64pow10 E)[negUint8 (toUint8 r.exp)]?).map fun p => signed (E.div f p)
    else if r.exp > fi64.exactPow10 then
      (indexInt (float64pow10 E) (wrap8 (r.exp - fi64.exactPow10))).bind fun p1 =>
        let f1 : E.T := E.mul f p1
        if E.gt f1 (fMaxMultiplierForExactPow10_64 E) then some (f1, true)
        else (indexInt (float64pow10 E) fi64.exactPow10).map fun p2 => signed (E.mul f1 p2)
    else
      ((float64pow10 E)[toUint8 r.exp]?).map fun p => signed (E.mul f p)
  else some (signed f)

/-- `func parseFloat64_custom(b []byte) (f float64, err error)`. -/
def parseFloat64_custom (E : FloatOps) (b : List Nat) : Option (E.T × Option NumError) :=
  let r := readFloat b fi64
  if r.bad then some (E.zero, some (strconvParseErr b "ParseFloat"))
  else if r.ok then
    (parseFloat64_reader E r).map fun res => if res.2 then E.strconv b else (res.1, none)
  else some (E.strconv b)

/-! ## The integer reconstructors (float.go lines 250-286) -/

/-- Modelled from the spec: `chkOvf.Uint2Int(v, neg)`, declared outside float.go, reports
overflow exactly when `v >= 2^63` for `neg = false` and exactly when `v > 2^63` for
`neg = true` (the signed-overflow check before sign application). -/
def Uint2Int (v : Nat) (neg : Bool) : Bool :=
  if neg then decide (v > 9223372036854775808) else decide (v ≥ 9223372036854775808)

/-- `func parseUint64_reader(r readFloatResult) (f uint64, fail bool)`. -/
def parseUint64_reader (r : readFloatResult) : Option (Nat × Bool) :=
  let f : Nat := r.mantissa
  if r.exp ≠ 0 then
    if r.exp < 0 then
      (uint64pow10[toUint8 (wrap8 (-r.exp))]?).bind fun p =>
        if f % p ≠ 0 then some (f, true)
        else (uint64pow10[toUint8 (wrap8 (-r.exp))]?).map fun q => (f / q, false)
    else
      (uint64pow10[toUint8 r.exp]?).map fun p => (f * p % uint64Size, false)
  else some (f, false)

/-- The tail of `parseInt64_reader` (lines 278-285) on the scaled mantissa. -/
def parseInt64_sign (mantissa : Nat) (neg : Bool) : Int × Bool :=
  if Uint2Int mantissa neg then (0, true)
  else if neg then (wrap64 (-wrap64 (mantissa : Int)), false)
  else (wrap64 (mantissa : Int), false)

/-- `func parseInt64_reader(r readFloatResult) (v int64, fail bool)`. -/
def parseInt64_reader (r : readFloatResult) : Option (Int × Bool) :=
  if r.exp = 0 then some (parseInt64_sign r.mantissa r.neg)
  else if r.exp < 0 then
    (uint64pow10[toUint8 (wrap8 (-r.exp))]?).bind fun p =>
      if r.mantissa % p ≠ 0 then some (0, true)
      else (uint64pow10[toUint8 (wrap8 (-r.exp))]?).map fun q =>
        parseInt64_sign (r.mantissa / q) r.neg
  else
    (uint64pow10[toUint8 r.exp]?).map fun p =>
      parseInt64_sign (r.mantissa * p % uint64Size) r.neg

/-! ## The dispatcher (float.go lines 288-333) -/

/-- Modelled from the spec: the tag of a `ParsedValue`, "a tagged union over {signed
integer, unsigned integer, float64}"; the type `valueType` is declared outside float.go.
`valueTypeUnset` stands for a tag not yet written. -/
inductive valueType where
  | valueTypeUnset
  | valueTypeInt
  | valueTypeUint
  | valueTypeFloat
  deriving DecidableEq, Repr

/-- Modelled from the spec: the fields of `fauxUnion` (declared outside float.go) that
`parseNumber` writes: the tag `v`, the `int64` slot `i`, the `uint64` slot `u` and the
`float64` slot `f`. -/
structure fauxUnion (T : Type) where
  v : valueType
  i : Int
  u : Nat
  f : T

/-- `func parseNumber(b []byte, z *fauxUnion, preferSignedInt bool) (err error)`: the
result is `z` after the call and the error. `b[0]` panics on an empty `b`. -/
def parseNumber (E : FloatOps) (b : List Nat) (z : fauxUnion E.T) (preferSignedInt : Bool) :
    Option (fauxUnion E.T × Option NumError) :=
  match b with
  | [] => none
  | c0 :: cs =>
    let neg : Bool := decide (c0 = chMinus)
    let fo : Nat × Bool := if neg then parseUint64_simple cs else parseUint64_simple (c0 :: cs)
    if fo.2 then
      if neg then
        if Uint2Int fo.1 neg then
          some ({ z with v := valueType.valueTypeInt }, some (strconvParseErr b "ParseInt"))
        else
          some ({ z with v := valueType.valueTypeInt, i := wrap64 (-wrap64 (fo.1 : Int)) }, none)
      else if preferSignedInt then
        if Uint2Int fo.1 neg then
          some ({ z with v := valueType.valueTypeInt }, some (strconvParseErr b "ParseInt"))
        else
          some ({ z with v := valueType.valueTypeInt, i := wrap64 (fo.1 : Int) }, none)
      else
        some ({ z with v := valueType.valueTypeUint, u := fo.1 }, none)
    else
      (parseFloat64_custom E b).map fun res =>
        ({ z with v := valueType.valueTypeFloat, f := res.1 }, res.2)

/-- The bytes of a string literal. -/
def bytes (s : String) : List Nat := s.toList.map Char.toNat

/-- The rational `(-1)^neg * mantissa * 10^exp` a scan record stands for. -/
def scanValue (r : readFloatResult) : ℚ :=
  (if r.neg then -1 else 1) * (r.mantissa : ℚ) * (10 : ℚ) ^ r.exp

/-! ## What a digit string denotes -/

/-- Every byte is an ASCII digit `'0'..'9'`. -/
def allDigits (b : List Nat) : Prop := ∀ c ∈ b, ch0 ≤ c ∧ c ≤ ch9

instance (b : List Nat) : Decidable (allDigits b) := by
  unfold allDigits; infer_instance

/-- The decimal value of the digit bytes `b` read after the digits worth `acc`. -/
def decFrom (acc : Nat) (b : List Nat) : Nat := b.foldl (fun a c => 10 * a + (c - ch0)) acc

/-- The decimal value of a string of digit bytes. -/
def decVal (b : List Nat) : Nat := decFrom 0 b

/-! ## The input grammar -/

/-- The exponent of a literal: the marker byte, the optional sign (`some true` for `'-'`,
`some false` for `'+'`) and the digits. -/
structure ExpPart where
  marker : Nat
  sign : Option Bool
  digits : List Nat
  deriving DecidableEq, Repr

/-- A token of the input grammar
`'-'? digit+ ('.' digit+)? (('e'|'E') ('+'|'-')? digit{1,2})?`, by its parts. -/
structure Literal where
  neg : Bool
  intDigits : List Nat
  fracDigits : Option (List Nat)
  exponent : Option ExpPart
  deriving DecidableEq, Repr

/-- The exponent part is `('e'|'E') ('+'|'-')? digit{1,2}`. -/
def ExpPart.wf (e : ExpPart) : Prop :=
  (e.marker = chLowerE ∨ e.marker = chUpperE) ∧ allDigits e.digits ∧
  1 ≤ e.digits.length ∧ e.digits.length ≤ 2

/-- The parts are as the grammar asks: digit runs are non-empty runs of digits. -/
def Literal.wf (L : Literal) : Prop :=
  (allDigits L.intDigits ∧ L.intDigits ≠ []) ∧
  (∀ f, L.fracDigits = some f → allDigits f ∧ f ≠ []) ∧
  (∀ e, L.exponent = some e → e.wf)

/-- The bytes of the exponent part. -/
def ExpPart.bytes (e : ExpPart) : List Nat :=
  e.marker :: ((match e.sign with
    | none => []
    | some true => [chMinus]
    | some false => [chPlus]) ++ e.digits)

/-- The bytes of the token. -/
def Literal.bytes (L : Literal) : List Nat :=
  (if L.neg then [chMinus] else []) ++ L.intDigits ++
  (match L.fracDigits with
    | none => []
    | some f => chDot :: f) ++
  (match L.exponent with
    | none => []
    | some e => e.bytes)

/-- The signed decimal exponent written in the token, `0` when there is none. -/
def Literal.expValue (L : Literal) : Int :=
  match L.exponent with
  | none => 0
  | some e => if e.sign = some true then -(decVal e.digits : Int) else (decVal e.digits : Int)

/-- The exact rational the literal denotes. -/
def Literal.value (L : Literal) : ℚ :=
  (if L.neg then -1 else 1) *
  ((decVal (L.intDigits ++ L.fracDigits.getD []) : ℚ) / (10 : ℚ) ^ (L.fracDigits.getD []).length) *
  (10 : ℚ) ^ L.expValue

/-- A byte sequence matches the input grammar. -/
def matchesGrammar (s : List Nat) : Prop := ∃ L : Literal, L.wf ∧ L.bytes = s

/-- The literal `0.00…05` with `k` zeros between the point and the `5`. -/
def smallLiteral (k : Nat) : Literal :=
  { neg := false, intDigits := [ch0], fracDigits := some (List.replicate k ch0 ++ [53]),
    exponent := none }

/-! ## Binary floating point

A concrete `FloatOps`: the numbers are rationals, and every operation rounds its exact
result to the nearest number with a binary significand of `p` bits (`p = 53` for
`float64`, `p = 24` for `float32`), ties to even. The exponent range is not bounded and
zero has no sign: the reconstructors only divide or multiply a converted `uint64` by
table entries `1e0 .. 1e22`, which stays inside the normal range of either format and
never divides by zero. The library parser stays a parameter. -/

/-- The integer nearest to `x`, and of two nearest ones the even one. -/
def roundHalfEven (x : ℚ) : ℤ :=
  if x - ⌊x⌋ < 1 / 2 then ⌊x⌋
  else if 1 / 2 < x - ⌊x⌋ then ⌊x⌋ + 1
  else if ⌊x⌋ % 2 = 0 then ⌊x⌋ else ⌊x⌋ + 1

/-- The binary exponent of the unit in the last place of `x` at `p` bits of significand:
`2^(p-1) <= |x| / 2^(ulpExp p x) < 2^p`. -/
def ulpExp (p : Nat) (x : ℚ) : Int := Int.log 2 |x| - ((p : Int) - 1)

/-- Rounding to the nearest number with a binary significand of `p` bits, ties to even. -/
def roundBinary (p : Nat) (x : ℚ) : ℚ :=
  if x = 0 then 0
  else (roundHalfEven (x / (2 : ℚ) ^ ulpExp p x) : ℚ) * (2 : ℚ) ^ ulpExp p x

/-- The floating-point arithmetic of a binary format with `p` bits of significand, with
the library parser `sc`. -/
@[reducible]
def binaryOps (p : Nat) (sc : List Nat → ℚ × Option NumError) : FloatOps :=
  { T := ℚ
    zero := 0
    ofUint64 := fun n => roundBinary p (n : ℚ)
    pow10 := fun k => roundBinary p ((10 : ℚ) ^ k)
    mul := fun a b => roundBinary p (a * b)
    div := fun a b => roundBinary p (a / b)
    neg := fun a => -a
    gt := fun a b => decide (b < a)
    strconv := sc }

/-- The arithmetic of `float64`. -/
@[reducible]
def binary64 (sc : List Nat → ℚ × Option NumError) : FloatOps := binaryOps 53 sc

/-- The arithmetic of `float32`. -/
@[reducible]
def binary32 (sc : List Nat → ℚ × Option NumError) : FloatOps := binaryOps 24 sc

/-! ## Auxiliary definitions for the proofs -/

/-- The scan goes on with `k` unless it has returned. -/
def scanFlow.andThen (f : scanFlow) (k : scanVars → scanFlow) : scanFlow :=
  match f with
  | .ret r => .ret r
  | .next v _ => k v

/-- What `readFloat` does once the mantissa loop is left (lines 426-481). -/
def scanAfterLoop (y : floatinfo) (f : scanFlow) : readFloatResult :=
  match f with
  | .ret r => r
  | .next v rest =>
    match scanExponent rest (if v.r.sawdot then v else { v with dp := v.nd }) with
    | .ret r => r
    | .next v2 _ => scanFinish y v2

/-- The bytes of a token after its sign. -/
def tokenBody (s : List Nat) : List Nat :=
  match s with
  | [] => []
  | c :: cs => if c = chMinus then cs else c :: cs

/-- The state in which the mantissa loop of `readFloat` starts. -/
def scanStart (s : List Nat) : scanVars :=
  ⟨if s.head? = some chMinus then { readFloatResult.zero with neg := true }
    else readFloatResult.zero, 0, 0, 0⟩


/-- The canonical decimal string of an unsigned integer: its digits, most significant
first, without leading zero, and `"0"` for zero. -/
def decimalBytes (n : Nat) : List Nat :=
  if n = 0 then [ch0] else (Nat.digits 10 n).reverse.map (fun d => ch0 + d)

/-- The canonical decimal string of a signed integer: `'-'` and the magnitude when it is
negative. -/
def decimalBytesInt (v : Int) : List Nat :=
  if v < 0 then chMinus :: decimalBytes v.natAbs else decimalBytes v.natAbs

/-- The point and the fraction digits of a literal, when it has them. -/
def Literal.fracBytes (L : Literal) : List Nat :=
  match L.fracDigits with
  | none => []
  | some f => chDot :: f

/-- The exponent bytes of a literal, when it has them. -/
def Literal.expBytes (L : Literal) : List Nat :=
  match L.exponent with
  | none => []
  | some e => e.bytes

/-- The counters and flags after the exponent part of the literal `L`, from the state `v`
in which the mantissa loop ended. -/
def afterExponent (L : Literal) (v : scanVars) : scanVars :=
  match L.exponent with
  | none => { v with dp := if v.r.sawdot then v.dp else v.nd }
  | some e =>
    { v with
      r := { v.r with sawexp := true }
      dp := if e.sign = some true
        then wrap8 ((if v.r.sawdot then v.dp else v.nd) - (decVal e.digits : Int))
        else wrap8 ((if v.r.sawdot then v.dp else v.nd) + (decVal e.digits : Int)) }

/-- Some digit of `l` past the first `skip` ones is not `'0'`. -/
def lateNonzero (skip : Nat) (l : List Nat) : Prop := ∃ d ∈ l.drop skip, d ≠ ch0

/-- Where a scan under `fi64` stands with respect to digits still to come, `rem`, whose
significant part is too long: the mantissa has left the 52 bits, or it has reached the
cutoff and a non-zero digit is still to come, or `k` digits are in and a non-zero digit
comes at the seventeenth place or later, or no significant digit has been read. -/
def tooLong (v : scanVars) (rem : List Nat) : Prop :=
  (4503599627370495 ≤ v.r.mantissa ∧ (4503599627370496 ≤ v.r.mantissa ∨ lateNonzero 0 rem)) ∨
  (∃ k : Nat, 1 ≤ k ∧ k ≤ 16 ∧ v.nd = k ∧ 10 ^ (k - 1) ≤ v.r.mantissa ∧
    v.r.mantissa < 4503599627370495 ∧ lateNonzero (16 - k) rem) ∨
  (v.nd = 0 ∧ v.r.mantissa = 0 ∧ lateNonzero 16 (rem.dropWhile (· = ch0)))

/-- The digits of a literal without its point. -/
def Literal.digits (L : Literal) : List Nat := L.intDigits ++ L.fracDigits.getD []

/-- The digits from the first non-zero one through the last non-zero one. -/
def significand (ds : List Nat) : List Nat :=
  ((ds.dropWhile (· = ch0)).reverse.dropWhile (· = ch0)).reverse

/-! ## The scanner with a record of wraparound

`readFloatW` takes the steps of `readFloat` and keeps, next to the result, a flag that is
set once an `int8` operation on `nd`, `ndMant`, `dp`, `e` or `exp` leaves `-128 .. 127`. -/

/-- Whether an `int8` operation whose exact result is `x` wraps around. -/
def wraps8 (x : Int) : Bool := decide (wrap8 x ≠ x)

/-- The mantissa loop with a record of wraparound: the same steps as `scanLoop`, and a
flag that is set once an update of `nd`, `ndMant` or `dp` wraps around. -/
def scanLoopW (mantCutoffIsUint64Cutoff : Bool) (mantCutoff : Nat) :
    List Nat → scanVars → Bool → scanFlow × Bool
  | [], v, w => (.next v [], w)
  | c :: cs, v, w =>
    if c = chDot then
      if v.r.sawdot then (.ret { v.r with bad := true }, w)
      else scanLoopW mantCutoffIsUint64Cutoff mantCutoff cs
        { v with r := { v.r with sawdot := true }, dp := v.nd } w
    else if c = chLowerE ∨ c = chUpperE then
      (.next { v with r := { v.r with sawexp := true } } (c :: cs), w)
    else if c = ch0 then
      if v.nd = 0 then
        scanLoopW mantCutoffIsUint64Cutoff mantCutoff cs { v with dp := wrap8 (v.dp - 1) }
          (w || wraps8 (v.dp - 1))
      else if v.r.mantissa < mantCutoff then
        scanLoopW mantCutoffIsUint64Cutoff mantCutoff cs
          { v with nd := wrap8 (v.nd + 1),
                   r := { v.r with mantissa := v.r.mantissa * fBase % uint64Size },
                   ndMant := wrap8 (v.ndMant + 1) }
          (w || wraps8 (v.nd + 1) || wraps8 (v.ndMant + 1))
      else
        scanLoopW mantCutoffIsUint64Cutoff mantCutoff cs { v with nd := wrap8 (v.nd + 1) }
          (w || wraps8 (v.nd + 1))
    else if c ≥ ch1 ∧ c ≤ ch9 then
      if mantCutoffIsUint64Cutoff = true ∧ v.r.mantissa < fUint64Cutoff then
        let m := v.r.mantissa * fBase % uint64Size
        let xu := (m + (c - ch0)) % uint64Size
        if xu < m then (.ret { v.r with mantissa := m, trunc := true }, w || wraps8 (v.nd + 1))
        else scanLoopW mantCutoffIsUint64Cutoff mantCutoff cs
          { v with nd := wrap8 (v.nd + 1),
                   r := { v.r with mantissa := xu },
                   ndMant := wrap8 (v.ndMant + 1) }
          (w || wraps8 (v.nd + 1) || wraps8 (v.ndMant + 1))
      else if v.r.mantissa < mantCutoff then
        scanLoopW mantCutoffIsUint64Cutoff mantCutoff cs
          { v with nd := wrap8 (v.nd + 1),
                   r := { v.r with
                     mantissa := (v.r.mantissa * fBase % uint64Size + (c - ch0)) % uint64Size },
                   ndMant := wrap8 (v.ndMant + 1) }
          (w || wraps8 (v.nd + 1) || wraps8 (v.ndMant + 1))
      else (.ret { v.r with trunc := true }, w || wraps8 (v.nd + 1))
    else (.ret { v.r with bad := true }, w)

/-- The exponent part with a record of wraparound: the same steps as `scanExponent`, and
the flag is set once the computation of `e` or the update of `dp` wraps around. -/
def scanExponentW (rest : List Nat) (v : scanVars) (w : Bool) : scanFlow × Bool :=
  if v.r.sawexp then
    match rest.drop 1 with
    | [] => (.next v [], w)
    | c :: cs =>
      let eneg : Bool := (expSign c cs).1
      match (expSign c cs).2 with
      | [] => (.next v [], w)
      | d1 :: ds =>
        if 2 < (d1 :: ds).length then (.ret v.r, w)
        else if d1 < ch0 ∨ d1 > ch9 then (.ret { v.r with bad := true }, w)
        else
          let e1 : Int := wrap8 ((d1 - ch0 : Nat) : Int)
          let w1 : Bool := w || wraps8 ((d1 - ch0 : Nat) : Int)
          match ds with
          | [] =>
            (.next { v with dp := if eneg then wrap8 (v.dp - e1) else wrap8 (v.dp + e1) } [],
              w1 || (if eneg then wraps8 (v.dp - e1) else wraps8 (v.dp + e1)))
          | d2 :: ds2 =>
            if d2 < ch0 ∨ d2 > ch9 then (.ret { v.r with bad := true }, w1)
            else
              let e2 : Int := wrap8 (wrap8 (e1 * 10) + wrap8 ((d2 - ch0 : Nat) : Int))
              let w2 : Bool := w1 || wraps8 (e1 * 10) || wraps8 ((d2 - ch0 : Nat) : Int) ||
                wraps8 (wrap8 (e1 * 10) + wrap8 ((d2 - ch0 : Nat) : Int))
              (.next { v with dp := if eneg then wrap8 (v.dp - e2) else wrap8 (v.dp + e2) } ds2,
                w2 || (if eneg then wraps8 (v.dp - e2) else wraps8 (v.dp + e2)))
  else (.next v rest, w)

/-- The closing check with a record of wraparound: the same as `scanFinish`, and the flag
is set when the computation of `exp` wraps around. -/
def scanFinishW (y : floatinfo) (v : scanVars) (w : Bool) : readFloatResult × Bool :=
  (scanFinish y v, w || (decide (v.r.mantissa ≠ 0) && wraps8 (v.dp - v.ndMant)))

/-- What `readFloatW` does once the mantissa loop is left. -/
def scanAfterLoopW (y : floatinfo) (f : scanFlow × Bool) : readFloatResult × Bool :=
  match f with
  | (.ret r, w) => (r, w)
  | (.next v rest, w) =>
    match scanExponentW rest (if v.r.sawdot then v else { v with dp := v.nd }) w with
    | (.ret r, w2) => (r, w2)
    | (.next v2 _, w2) => scanFinishW y v2 w2

/-- `readFloat` with a record of wraparound: its result, and whether one of the `int8`
counters `nd`, `ndMant`, `dp`, `e` or the result `exp` wrapped around on the way. -/
def readFloatW (s : List Nat) (y : floatinfo) : readFloatResult × Bool :=
  match s with
  | [] => ({ readFloatResult.zero with ok := true }, false)
  | c0 :: cs =>
    scanAfterLoopW y
      (scanLoopW (mantCutoffIsUint64CutoffOf y) (mantCutoffOf y)
        (if c0 = chMinus then cs else c0 :: cs)
        ⟨if c0 = chMinus then { readFloatResult.zero with neg := true }
          else readFloatResult.zero, 0, 0, 0⟩ false)

/-! ## Invariants of the scan and sample literals -/

/-- The invariant of the mantissa loop while no counter has wrapped: the digits kept in the
mantissa are among the digits counted, no digit is counted before the first non-zero one,
and digits are only left out once the mantissa has reached the cutoff `m`. -/
def scanInv (m : Nat) (v : scanVars) : Prop :=
  0 ≤ v.ndMant ∧ v.ndMant ≤ v.nd ∧ (v.nd = 0 → v.r.mantissa = 0) ∧
  (v.ndMant < v.nd → m ≤ v.r.mantissa)

/-- The number the digits counted so far stand for: the mantissa, and a zero for every
digit counted but left out of it. -/
def scanDigits (v : scanVars) : Nat := v.r.mantissa * 10 ^ (v.nd - v.ndMant).toNat

/-- The cutoff keeps the accumulation inside `uint64`: it is the overflow cutoff and the
wraparound test is on, or ten times the cutoff still fits. -/
def cutoffSafe (u : Bool) (m : Nat) : Prop :=
  (u = true → m = fUint64Cutoff) ∧ (u = false → m * 10 ≤ uint64Size)

/-- The literal `-12.50e3`. -/
def sampleLiteral : Literal :=
  { neg := true, intDigits := bytes "12", fracDigits := some (bytes "50"),
    exponent := some { marker := chLowerE, sign := none, digits := bytes "3" } }

/-- The literal `12345678901234567`, of seventeen significant digits. -/
def longLiteral : Literal :=
  { neg := false, intDigits := bytes "12345678901234567", fracDigits := none, exponent := none }

/-! ## Lemmas on the integer accumulator -/

theorem decFrom_ge (b : List Nat) (acc : Nat) : acc ≤ decFrom acc b := by
  induction b generalizing acc with
  | nil => simp [decFrom]
  | cons c cs ih =>
    have h := ih (10 * acc + (c - ch0))
    simp only [decFrom, List.foldl_cons] at h ⊢
    omega

theorem allDigits_cons (c : Nat) (cs : List Nat) :
    allDigits (c :: cs) ↔ (ch0 ≤ c ∧ c ≤ ch9) ∧ allDigits cs := by
  simp [allDigits]

theorem parseUint64_loop_spec (b : List Nat) (n : Nat) (hn : n < uint64Size) :
    ((parseUint64_loop b n).2 = true ↔ (allDigits b ∧ decFrom n b < uint64Size)) ∧
    ((parseUint64_loop b n).2 = true → (parseUint64_loop b n).1 = decFrom n b) := by
  induction b generalizing n with
  | nil => simp [parseUint64_loop, allDigits, decFrom, hn]
  | cons c cs ih =>
    rw [allDigits_cons]
    have hstep : decFrom n (c :: cs) = decFrom (10 * n + (c - ch0)) cs := by
      simp [decFrom]
    have hge := decFrom_ge cs (10 * n + (c - ch0))
    rw [hstep]
    unfold parseUint64_loop
    simp only [ch0, ch9, fUint64Cutoff, fBase, uint64Size] at *
    by_cases hc : c < 48 ∨ c > 57
    · rw [if_pos hc]
      constructor
      · constructor
        · intro h; cases h
        · intro h; omega
      · intro h; cases h
    · rw [if_neg hc]
      by_cases hcut : n ≥ (2 ^ 64 - 1) / 10 + 1
      · rw [if_pos hcut]
        constructor
        · constructor
          · intro h; cases h
          · intro h; norm_num at hcut; omega
        · intro h; cases h
      · rw [if_neg hcut]
        norm_num at hcut
        have hmul : n * 10 % 18446744073709551616 = n * 10 := by omega
        simp only [hmul]
        by_cases hov : n * 10 + (c - 48) < 18446744073709551616
        · have hadd : (n * 10 + (c - 48)) % 18446744073709551616 = n * 10 + (c - 48) := by
            omega
          simp only [hadd]
          have hnl : ¬ (n * 10 + (c - 48) < n * 10) := by omega
          rw [if_neg hnl]
          have hres := ih (n * 10 + (c - 48)) hov
          have heq : 10 * n + (c - 48) = n * 10 + (c - 48) := by omega
          rw [heq]
          constructor
          · constructor
            · intro h
              have h2 := hres.1.mp h
              exact ⟨⟨by omega, h2.1⟩, h2.2⟩
            · intro h
              exact hres.1.mpr ⟨h.1.2, h.2⟩
          · exact hres.2
        · have hlt : (n * 10 + (c - 48)) % 18446744073709551616 < n * 10 := by omega
          rw [if_pos hlt]
          constructor
          · constructor
            · intro h; cases h
            · intro h; omega
          · intro h; cases h


theorem wrap8_step (x : Int) (k : Nat) :
    wrap8 (wrap8 (x - 1) - (k : Int)) = wrap8 (x - ((k + 1 : Nat) : Int)) := by
  unfold wrap8
  push_cast
  omega

theorem wrap8_id (x : Int) (h1 : -128 ≤ x) (h2 : x ≤ 127) : wrap8 x = x := by
  unfold wrap8
  omega

theorem wrap8_range (x : Int) : -128 ≤ wrap8 x ∧ wrap8 x ≤ 127 := by
  unfold wrap8
  omega

/-- Zeros read while no significant digit has been seen only move `dp`, one `int8`
decrement each. -/
theorem scanLoop_leading_zeros (u : Bool) (m : Nat) (rest : List Nat) (k : Nat) (v : scanVars)
    (hnd : v.nd = 0) (hlo : -128 ≤ v.dp) (hhi : v.dp ≤ 127) :
    scanLoop u m (List.replicate k ch0 ++ rest) v =
      scanLoop u m rest { v with dp := wrap8 (v.dp - (k : Int)) } := by
  obtain ⟨r, nd, ndMant, dp⟩ := v
  simp only at hnd hlo hhi
  subst hnd
  induction k generalizing dp with
  | zero => simp [wrap8_id dp hlo hhi]
  | succ k ih =>
    have hr := wrap8_range (dp - 1)
    have h := ih (wrap8 (dp - 1)) hr.1 hr.2
    simp only [List.replicate_succ, List.cons_append]
    rw [scanLoop]
    simp only [ch0, chDot, chLowerE, chUpperE] at h ⊢
    norm_num
    rw [h, wrap8_step]
    push_cast
    rfl

/-- The scan of `0.00…05` under `fi64`, up to the closing check: `dp` is `-k` reduced to
`int8`. -/
theorem readFloat_smallLiteral (k : Nat) : readFloat (smallLiteral k).bytes fi64 =
    scanFinish fi64 ⟨⟨5, 0, false, true, false, false, false, false⟩, 1, 1, wrap8 (-(k : Int))⟩ := by
  have hb : (smallLiteral k).bytes = 48 :: 46 :: (List.replicate k ch0 ++ [53]) := by
    simp [smallLiteral, Literal.bytes, ch0, chDot]
  rw [hb]
  have hz := scanLoop_leading_zeros false (mantCutoffOf fi64) [53] k
    ⟨⟨0, 0, false, true, false, false, false, false⟩, 0, 0, 0⟩ rfl (by decide) (by decide)
  have h1 : ∀ X : List Nat, scanLoop false (mantCutoffOf fi64) (48 :: 46 :: X)
      ⟨readFloatResult.zero, 0, 0, 0⟩ = scanLoop false (mantCutoffOf fi64) X
      ⟨⟨0, 0, false, true, false, false, false, false⟩, 0, 0, 0⟩ := by
    intro X
    simp [scanLoop, ch0, chDot, chLowerE, chUpperE, readFloatResult.zero]
  have h3 : ∀ d : Int, scanLoop false (mantCutoffOf fi64) [53]
      ⟨⟨0, 0, false, true, false, false, false, false⟩, 0, 0, d⟩ =
      .next ⟨⟨5, 0, false, true, false, false, false, false⟩, 1, 1, d⟩ [] := by
    intro d
    simp [scanLoop, ch0, ch1, ch9, chDot, chLowerE, chUpperE, mantCutoffOf, fi64, fBase,
      uint64Size, wrap8]
  have hu : mantCutoffIsUint64CutoffOf fi64 = false := by decide
  simp only [readFloat, chMinus, hu]
  norm_num
  rw [h1, hz, h3]
  simp [scanExponent]

/-! ## Lemmas on the scanner -/

theorem scanLoop_pending (u : Bool) (m : Nat) (l : List Nat) (v : scanVars)
    (hok : v.r.ok = false) (hexp : v.r.exp = 0) : (scanLoop u m l v).pending := by
  induction l generalizing v with
  | nil => simp [scanLoop, scanFlow.pending, hok, hexp]
  | cons c cs ih =>
    rw [scanLoop]
    dsimp only
    split_ifs <;> first
      | exact ih _ hok hexp
      | simp [scanFlow.pending, hok, hexp]

theorem scanExponent_pending (rest : List Nat) (v : scanVars)
    (hok : v.r.ok = false) (hexp : v.r.exp = 0) : (scanExponent rest v).pending := by
  unfold scanExponent
  split_ifs
  · split
    · simp [scanFlow.pending, hok, hexp]
    · split
      · simp [scanFlow.pending, hok, hexp]
      · split_ifs
        · simp [scanFlow.pending, hok]
        · simp [scanFlow.pending, hok]
        · split
          · simp [scanFlow.pending, hok, hexp]
          · split_ifs <;> simp [scanFlow.pending, hok, hexp]
  · simp [scanFlow.pending, hok, hexp]

/-- The exponent of an accepted scan: zero with a zero mantissa, and otherwise within the
range the profile allows, with a mantissa that fits `mantbits`. -/
theorem scanFinish_ok (y : floatinfo) (v : scanVars) (hok : v.r.ok = false)
    (hexp : v.r.exp = 0)
    (h : (scanFinish y v).ok = true) :
    ((scanFinish y v).mantissa = 0 ∧ (scanFinish y v).exp = 0) ∨
    (wrap8 (-y.exactPow10) ≤ (scanFinish y v).exp ∧
      (scanFinish y v).exp ≤ wrap8 (y.exactInts + y.exactPow10) ∧
      (y.mantbits ≠ 0 → (scanFinish y v).mantissa >>> y.mantbits = 0)) := by
  unfold scanFinish at h ⊢
  by_cases hm : v.r.mantissa ≠ 0
  · rw [if_pos hm] at h ⊢
    simp only at h ⊢
    by_cases hc : wrap8 (v.dp - v.ndMant) < wrap8 (-y.exactPow10) ∨
        wrap8 (v.dp - v.ndMant) > wrap8 (y.exactInts + y.exactPow10) ∨
        (y.mantbits ≠ 0 ∧ v.r.mantissa >>> y.mantbits ≠ 0)
    · rw [if_pos hc] at h
      simp [hok] at h
    · rw [if_neg hc]
      right
      simp only [not_or, not_lt, not_and, not_not] at hc
      exact ⟨hc.1, hc.2.1, hc.2.2⟩
  · rw [if_neg hm]
    left
    simp at hm
    simp [hm, hexp]

theorem readFloat_ok_exp (s : List Nat) (y : floatinfo) (h : (readFloat s y).ok = true) :
    ((readFloat s y).mantissa = 0 ∧ (readFloat s y).exp = 0) ∨
    (wrap8 (-y.exactPow10) ≤ (readFloat s y).exp ∧
      (readFloat s y).exp ≤ wrap8 (y.exactInts + y.exactPow10) ∧
      (y.mantbits ≠ 0 → (readFloat s y).mantissa >>> y.mantbits = 0)) := by
  unfold readFloat at h ⊢
  cases s with
  | nil => left; simp [readFloatResult.zero]
  | cons c0 cs =>
    simp only at h ⊢
    have hp := scanLoop_pending (mantCutoffIsUint64CutoffOf y) (mantCutoffOf y)
      (if c0 = chMinus then cs else c0 :: cs)
      ⟨if c0 = chMinus then { readFloatResult.zero with neg := true } else readFloatResult.zero,
        0, 0, 0⟩ (by split_ifs <;> rfl) (by split_ifs <;> rfl)
    revert h hp
    cases scanLoop (mantCutoffIsUint64CutoffOf y) (mantCutoffOf y)
      (if c0 = chMinus then cs else c0 :: cs)
      ⟨if c0 = chMinus then { readFloatResult.zero with neg := true } else readFloatResult.zero,
        0, 0, 0⟩ with
    | ret r =>
      intro h hp
      simp only [scanFlow.pending] at hp
      simp [hp] at h
    | next v rest =>
      intro h hp
      simp only [scanFlow.pending] at hp
      simp only at h ⊢
      have hp2 := scanExponent_pending rest (if v.r.sawdot then v else { v with dp := v.nd })
        (by split_ifs <;> exact hp.1) (by split_ifs <;> exact hp.2)
      revert h hp2
      cases scanExponent rest (if v.r.sawdot then v else { v with dp := v.nd }) with
      | ret r =>
        intro h hp2
        simp only [scanFlow.pending] at hp2
        simp [hp2] at h
      | next v2 rest2 =>
        intro h hp2
        simp only [scanFlow.pending] at hp2
        exact scanFinish_ok y v2 hp2.1 hp2.2 h

/-! ## Lemmas on the table lookups -/

theorem float64pow10_get (E : FloatOps) (n : Nat) (h : n < 23) :
    (float64pow10 E)[n]? = some (E.pow10 n) := by
  simp [float64pow10, List.getElem?_map, List.getElem?_range h]

theorem float32pow10_get (E : FloatOps) (n : Nat) (h : n < 11) :
    (float32pow10 E)[n]? = some (E.pow10 n) := by
  simp [float32pow10, List.getElem?_map, List.getElem?_range h]

theorem uint64pow10_get (n : Nat) (h : n < 20) : uint64pow10[n]? = some (10 ^ n) := by
  interval_cases n <;> rfl

theorem indexInt_float64pow10 (E : FloatOps) (i : Int) (h0 : 0 ≤ i) (h1 : i ≤ 22) :
    indexInt (float64pow10 E) i = some (E.pow10 i.toNat) := by
  unfold indexInt
  rw [if_neg (by omega), float64pow10_get E _ (by omega)]

theorem indexInt_float32pow10 (E : FloatOps) (i : Int) (h0 : 0 ≤ i) (h1 : i ≤ 10) :
    indexInt (float32pow10 E) i = some (E.pow10 i.toNat) := by
  unfold indexInt
  rw [if_neg (by omega), float32pow10_get E _ (by omega)]

/-- With the scale exponent in `-22 .. 37` no lookup of `parseFloat64_reader` leaves
`float64pow10`. -/
theorem parseFloat64_reader_isSome (E : FloatOps) (r : readFloatResult)
    (h1 : -22 ≤ r.exp) (h2 : r.exp ≤ 37) : (parseFloat64_reader E r).isSome = true := by
  unfold parseFloat64_reader
  simp only [fi64]
  by_cases ha : r.exp ≠ 0
  · rw [if_pos ha]
    by_cases hb : r.exp < 0
    · have hi : negUint8 (toUint8 r.exp) < 23 := by unfold negUint8 toUint8; omega
      rw [if_pos hb, float64pow10_get E _ hi]; rfl
    · rw [if_neg hb]
      by_cases hc : r.exp > 22
      · have hw : wrap8 (r.exp - 22) = r.exp - 22 := wrap8_id _ (by omega) (by omega)
        have h22 : indexInt (float64pow10 E) 22 = some (E.pow10 22) :=
          indexInt_float64pow10 E 22 (by omega) (by omega)
        rw [if_pos hc, hw, indexInt_float64pow10 E _ (by omega) (by omega)]
        simp only [Option.some_bind, h22]
        split_ifs <;> rfl
      · have hi : toUint8 r.exp < 23 := by unfold toUint8; omega
        rw [if_neg hc, float64pow10_get E _ hi]; rfl
  · rw [if_neg ha]; rfl

/-- With the scale exponent in `-10 .. 17` no lookup of `parseFloat32_reader` leaves
`float32pow10`. -/
theorem parseFloat32_reader_isSome (E : FloatOps) (r : readFloatResult)
    (h1 : -10 ≤ r.exp) (h2 : r.exp ≤ 17) : (parseFloat32_reader E r).isSome = true := by
  unfold parseFloat32_reader
  simp only [fi32]
  by_cases ha : r.exp ≠ 0
  · rw [if_pos ha]
    by_cases hb : r.exp < 0
    · have hi : toUint8 (wrap8 (-r.exp)) < 11 := by unfold toUint8 wrap8; omega
      rw [if_pos hb, float32pow10_get E _ hi]; rfl
    · rw [if_neg hb]
      by_cases hc : r.exp > 10
      · have hw : wrap8 (r.exp - 10) = r.exp - 10 := wrap8_id _ (by omega) (by omega)
        have h22 : indexInt (float32pow10 E) 10 = some (E.pow10 10) :=
          indexInt_float32pow10 E 10 (by omega) (by omega)
        rw [if_pos hc, hw, indexInt_float32pow10 E _ (by omega) (by omega)]
        simp only [Option.some_bind, h22]
        split_ifs <;> rfl
      · have hi : toUint8 r.exp < 11 := by unfold toUint8; omega
        rw [if_neg hc, float32pow10_get E _ hi]; rfl
  · rw [if_neg ha]; rfl

/-- With the scale exponent in `-19 .. 19` no lookup of `parseUint64_reader` leaves
`uint64pow10`. -/
theorem parseUint64_reader_isSome (r : readFloatResult)
    (h1 : -19 ≤ r.exp) (h2 : r.exp ≤ 19) : (parseUint64_reader r).isSome = true := by
  unfold parseUint64_reader
  split_ifs with ha hb
  · have hi : toUint8 (wrap8 (-r.exp)) < 20 := by unfold toUint8 wrap8; omega
    rw [uint64pow10_get _ hi]
    simp only [Option.some_bind]
    split_ifs <;> rfl
  · have hi : toUint8 r.exp < 20 := by unfold toUint8; omega
    rw [uint64pow10_get _ hi]; rfl
  · rfl

/-- With the scale exponent in `-19 .. 19` no lookup of `parseInt64_reader` leaves
`uint64pow10`. -/
theorem parseInt64_reader_isSome (r : readFloatResult)
    (h1 : -19 ≤ r.exp) (h2 : r.exp ≤ 19) : (parseInt64_reader r).isSome = true := by
  unfold parseInt64_reader
  split_ifs with ha hb
  · rfl
  · have hi : toUint8 (wrap8 (-r.exp)) < 20 := by unfold toUint8 wrap8; omega
    rw [uint64pow10_get _ hi]
    simp only [Option.some_bind]
    split_ifs <;> rfl
  · have hi : toUint8 r.exp < 20 := by unfold toUint8; omega
    rw [uint64pow10_get _ hi]; rfl

/-- The exponent of a scan accepted under a profile lies in the profile's range. -/
theorem readFloat_ok_range (s : List Nat) (y : floatinfo) (h : (readFloat s y).ok = true)
    (hp : 0 ≤ y.exactPow10) (hq : 0 ≤ y.exactInts) (hr : y.exactInts + y.exactPow10 ≤ 127) :
    -y.exactPow10 ≤ (readFloat s y).exp ∧ (readFloat s y).exp ≤ y.exactInts + y.exactPow10 := by
  have hw1 : wrap8 (-y.exactPow10) = -y.exactPow10 := wrap8_id _ (by omega) (by omega)
  have hw2 : wrap8 (y.exactInts + y.exactPow10) = y.exactInts + y.exactPow10 :=
    wrap8_id _ (by omega) (by omega)
  rcases readFloat_ok_exp s y h with h0 | h1
  · rw [h0.2]; omega
  · rw [hw1, hw2] at h1; exact ⟨h1.1, h1.2.1⟩

/-! ## Lemmas on the literals -/

theorem decFrom_zeros (k : Nat) (rest : List Nat) :
    decFrom 0 (List.replicate k ch0 ++ rest) = decFrom 0 rest := by
  induction k with
  | zero => simp
  | succ k ih =>
    simp only [List.replicate_succ, List.cons_append]
    simpa [decFrom, ch0] using ih

theorem smallLiteral_value (k : Nat) : (smallLiteral k).value = 5 / (10 : ℚ) ^ (k + 1) := by
  have h1 : decVal ((smallLiteral k).intDigits ++ (smallLiteral k).fracDigits.getD []) = 5 := by
    have h := decFrom_zeros (k + 1) [53]
    simp only [List.replicate_succ, List.cons_append] at h
    simpa [smallLiteral, decVal, decFrom, ch0] using h
  have h2 : ((smallLiteral k).fracDigits.getD []).length = k + 1 := by
    simp [smallLiteral]
  have h3 : (smallLiteral k).expValue = 0 := rfl
  have h4 : (smallLiteral k).neg = false := rfl
  rw [Literal.value, h1, h2, h3, h4]
  norm_num

theorem smallLiteral_wf (k : Nat) : (smallLiteral k).wf := by
  refine ⟨⟨?_, ?_⟩, ?_, ?_⟩
  · simp [smallLiteral, allDigits, ch0, ch9]
  · simp [smallLiteral]
  · intro f hf
    simp only [smallLiteral, Option.some.injEq] at hf
    subst hf
    constructor
    · intro c hc
      simp only [List.mem_append, List.mem_replicate, List.mem_singleton] at hc
      rcases hc with ⟨_, rfl⟩ | rfl <;> simp [ch0, ch9]
    · simp
  · intro e he
    simp [smallLiteral] at he

/-! ## Lemmas on the dispatcher -/

theorem parseUint64_simple_spec (b : List Nat) :
    ((parseUint64_simple b).2 = true ↔ (allDigits b ∧ decVal b < uint64Size)) ∧
    ((parseUint64_simple b).2 = true → (parseUint64_simple b).1 = decVal b) :=
  parseUint64_loop_spec b 0 (by decide)

theorem parseUint64_simple_eq (b : List Nat) (hd : allDigits b) (hv : decVal b < uint64Size) :
    parseUint64_simple b = (decVal b, true) := by
  have h := parseUint64_simple_spec b
  have hok := h.1.mpr ⟨hd, hv⟩
  exact Prod.ext (h.2 hok) hok

theorem parseUint64_simple_not_ok (b : List Nat) (h : ¬ (allDigits b ∧ decVal b < uint64Size)) :
    (parseUint64_simple b).2 = false := by
  have hs := (parseUint64_simple_spec b).1
  cases hb : (parseUint64_simple b).2 with
  | false => rfl
  | true => exact absurd (hs.mp hb) h

/-- The fast path never panics: an accepted scan has its exponent in the table range. -/
theorem parseFloat64_custom_isSome (E : FloatOps) (b : List Nat) :
    ∃ res, parseFloat64_custom E b = some res := by
  unfold parseFloat64_custom
  simp only
  split_ifs with hbad hok
  · exact ⟨_, rfl⟩
  · have hr := readFloat_ok_range b fi64 hok (by decide) (by decide) (by decide)
    have hs := parseFloat64_reader_isSome E (readFloat b fi64)
      (by simpa [fi64] using hr.1) (by simpa [fi64] using hr.2)
    obtain ⟨x, hx⟩ := Option.isSome_iff_exists.mp hs
    rw [hx]
    exact ⟨_, rfl⟩
  · exact ⟨_, rfl⟩

/-- A token that starts with a digit and is all digits, of value below `2^64`. -/
theorem parseNumber_digits (E : FloatOps) (b : List Nat) (z : fauxUnion E.T) (p : Bool)
    (hb : b ≠ []) (hd : allDigits b) (hv : decVal b < uint64Size) :
    parseNumber E b z p =
      if p then
        if Uint2Int (decVal b) false then
          some ({ z with v := valueType.valueTypeInt }, some (strconvParseErr b "ParseInt"))
        else some ({ z with v := valueType.valueTypeInt, i := wrap64 (decVal b : Int) }, none)
      else some ({ z with v := valueType.valueTypeUint, u := decVal b }, none) := by
  cases b with
  | nil => exact absurd rfl hb
  | cons c0 cs =>
    have hc : ¬ c0 = chMinus := by
      have := hd c0 (List.mem_cons_self _ _)
      simp only [ch0, ch9, chMinus] at *
      omega
    have he := parseUint64_simple_eq (c0 :: cs) hd hv
    simp only [parseNumber, hc, decide_False, he]
    cases p <;> simp

/-- A token `'-'` followed by digits of value below `2^64`. -/
theorem parseNumber_minus_digits (E : FloatOps) (d : List Nat) (z : fauxUnion E.T) (p : Bool)
    (hd : allDigits d) (hv : decVal d < uint64Size) :
    parseNumber E (chMinus :: d) z p =
      if Uint2Int (decVal d) true then
        some ({ z with v := valueType.valueTypeInt },
          some (strconvParseErr (chMinus :: d) "ParseInt"))
      else
        some ({ z with v := valueType.valueTypeInt, i := wrap64 (-wrap64 (decVal d : Int)) },
          none) := by
  have he := parseUint64_simple_eq d hd hv
  simp [parseNumber, he]

/-- Where the accumulator declines, the token goes to the float path. -/
theorem parseNumber_float_path (E : FloatOps) (c0 : Nat) (cs : List Nat) (z : fauxUnion E.T)
    (p : Bool)
    (h : (if c0 = chMinus then parseUint64_simple cs else parseUint64_simple (c0 :: cs)).2
      = false) :
    ∃ res, parseFloat64_custom E (c0 :: cs) = some res ∧
      parseNumber E (c0 :: cs) z p =
        some ({ z with v := valueType.valueTypeFloat, f := res.1 }, res.2) := by
  obtain ⟨res, hres⟩ := parseFloat64_custom_isSome E (c0 :: cs)
  refine ⟨res, hres, ?_⟩
  unfold parseNumber
  by_cases hc : c0 = chMinus
  · subst hc
    simp only [if_true] at h
    simp [h, hres]
  · simp only [hc, if_false] at h
    simp [hc, h, hres]

/-- A run of digits worth more than `2^64 - 1`, with or without a leading `'-'`, goes to
the float path. -/
theorem parseNumber_overflow_float (E : FloatOps) (d : List Nat) (z : fauxUnion E.T) (p : Bool)
    (hd : allDigits d) (hv : uint64Size ≤ decVal d) (b : List Nat)
    (hb : b = d ∨ b = chMinus :: d) :
    ∃ res, parseFloat64_custom E b = some res ∧
      parseNumber E b z p =
        some ({ z with v := valueType.valueTypeFloat, f := res.1 }, res.2) := by
  have hno : (parseUint64_simple d).2 = false :=
    parseUint64_simple_not_ok d (fun h => absurd h.2 (by omega))
  rcases hb with rfl | rfl
  · cases hb : b with
    | nil =>
      subst hb
      simp [decVal, decFrom, uint64Size] at hv
    | cons c0 cs =>
      subst hb
      have hc : ¬ c0 = chMinus := by
        have := hd c0 (List.mem_cons_self _ _)
        simp only [ch0, ch9, chMinus] at *
        omega
      exact parseNumber_float_path E c0 cs z p (by rw [if_neg hc]; exact hno)
  · exact parseNumber_float_path E chMinus d z p (by rw [if_pos rfl]; exact hno)

/-! ## Lemmas on binary floating point -/

theorem roundHalfEven_intCast (n : ℤ) : roundHalfEven (n : ℚ) = n := by
  simp [roundHalfEven]

theorem floor_le_roundHalfEven (x : ℚ) : ⌊x⌋ ≤ roundHalfEven x := by
  unfold roundHalfEven
  split_ifs <;> omega

theorem roundHalfEven_le_floor_succ (x : ℚ) : roundHalfEven x ≤ ⌊x⌋ + 1 := by
  unfold roundHalfEven
  split_ifs <;> omega

/-- A number whose quotient by its unit in the last place is an integer rounds to itself. -/
theorem roundBinary_exact (p : Nat) (x : ℚ) (z : ℤ) (h : x / (2 : ℚ) ^ ulpExp p x = z) :
    roundBinary p x = x := by
  unfold roundBinary
  split_ifs with h0
  · exact h0.symm
  · rw [h, roundHalfEven_intCast, ← h]
    have h2 : (2 : ℚ) ^ ulpExp p x ≠ 0 := zpow_ne_zero _ (by norm_num)
    field_simp

/-- Natural numbers below `2^p` are representable. -/
theorem roundBinary_natCast (p : Nat) (n : Nat) (hn : n < 2 ^ p) :
    roundBinary p (n : ℚ) = n := by
  rcases Nat.eq_zero_or_pos n with rfl | hpos
  · simp [roundBinary]
  have hlog : Nat.log 2 n < p := Nat.log_lt_of_lt_pow (by omega) hn
  have hl : Int.log 2 |(n : ℚ)| = Nat.log 2 n := by
    rw [abs_of_nonneg (by positivity)]
    exact Int.log_natCast 2 n
  have he : ulpExp p (n : ℚ) = -((p - 1 - Nat.log 2 n : ℕ) : ℤ) := by
    unfold ulpExp
    rw [hl]
    omega
  apply roundBinary_exact p _ ((n : ℤ) * 2 ^ (p - 1 - Nat.log 2 n))
  rw [he, zpow_neg, zpow_natCast]
  push_cast
  field_simp

theorem roundBinary_zpow (p : Nat) (hp : 1 ≤ p) (z : ℤ) :
    roundBinary p ((2 : ℚ) ^ z) = (2 : ℚ) ^ z := by
  have hl : Int.log 2 |(2 : ℚ) ^ z| = z := by
    rw [abs_of_pos (zpow_pos (by norm_num) z)]
    exact_mod_cast Int.log_zpow (R := ℚ) (b := 2) (by norm_num) z
  have he : ulpExp p ((2 : ℚ) ^ z) = z - ((p : ℤ) - 1) := by
    unfold ulpExp
    rw [hl]
  apply roundBinary_exact p _ ((2 : ℤ) ^ (p - 1))
  rw [he, zpow_sub₀ (by norm_num)]
  have : ((p : ℤ) - 1) = ((p - 1 : ℕ) : ℤ) := by omega
  rw [this, zpow_natCast]
  push_cast
  field_simp

/-- Rounding does not go below a power of two the number has reached. -/
theorem le_roundBinary (p : Nat) (hp : 1 ≤ p) (x : ℚ) (hx : (2 : ℚ) ^ p ≤ x) :
    (2 : ℚ) ^ p ≤ roundBinary p x := by
  have hpos : 0 < x := lt_of_lt_of_le (by positivity) hx
  have habs : |x| = x := abs_of_pos hpos
  have hl : (p : ℤ) ≤ Int.log 2 x := by
    have := (Int.zpow_le_iff_le_log (R := ℚ) (b := 2) (by norm_num) (x := (p : ℤ)) hpos).mp
      (by simpa using hx)
    exact this
  have hle : (2 : ℚ) ^ Int.log 2 x ≤ x := by
    simpa using Int.zpow_log_le_self (R := ℚ) (b := 2) (by norm_num) hpos
  unfold roundBinary
  rw [if_neg (ne_of_gt hpos)]
  have he : ulpExp p x = Int.log 2 x - ((p : ℤ) - 1) := by unfold ulpExp; rw [habs]
  have h2pos : (0 : ℚ) < (2 : ℚ) ^ ulpExp p x := zpow_pos (by norm_num) _
  -- the scaled number is at least 2^(p-1)
  have hsc : (((2 : ℤ) ^ (p - 1) : ℤ) : ℚ) ≤ x / (2 : ℚ) ^ ulpExp p x := by
    rw [le_div_iff₀ h2pos]
    push_cast
    rw [← zpow_natCast, ← zpow_add₀ (by norm_num : (2 : ℚ) ≠ 0)]
    have : ((p - 1 : ℕ) : ℤ) + ulpExp p x = Int.log 2 x := by rw [he]; omega
    rw [this]
    exact hle
  have hfl : ((2 : ℤ) ^ (p - 1) : ℤ) ≤ roundHalfEven (x / (2 : ℚ) ^ ulpExp p x) :=
    le_trans (Int.le_floor.mpr hsc) (floor_le_roundHalfEven _)
  have hfl' : (((2 : ℤ) ^ (p - 1) : ℤ) : ℚ) ≤ (roundHalfEven (x / (2 : ℚ) ^ ulpExp p x) : ℚ) := by
    exact_mod_cast hfl
  calc (2 : ℚ) ^ p ≤ (2 : ℚ) ^ Int.log 2 x := by
        rw [← zpow_natCast]
        exact zpow_le_zpow_right₀ (by norm_num) hl
    _ = (((2 : ℤ) ^ (p - 1) : ℤ) : ℚ) * (2 : ℚ) ^ ulpExp p x := by
        push_cast
        rw [← zpow_natCast, ← zpow_add₀ (by norm_num : (2 : ℚ) ≠ 0)]
        congr 1
        rw [he]; omega
    _ ≤ _ := by
        exact mul_le_mul_of_nonneg_right hfl' (le_of_lt h2pos)

/-- Rounding a positive number does not pass the next power of two. -/
theorem roundBinary_le (p : Nat) (x : ℚ) (hpos : 0 < x) :
    roundBinary p x ≤ (2 : ℚ) ^ (Int.log 2 x + 1) := by
  have habs : |x| = x := abs_of_pos hpos
  have hlt : x < (2 : ℚ) ^ (Int.log 2 x + 1) := by
    simpa using Int.lt_zpow_succ_log_self (R := ℚ) (b := 2) (by norm_num) x
  unfold roundBinary
  rw [if_neg (ne_of_gt hpos)]
  have he : ulpExp p x = Int.log 2 x - ((p : ℤ) - 1) := by unfold ulpExp; rw [habs]
  have h2pos : (0 : ℚ) < (2 : ℚ) ^ ulpExp p x := zpow_pos (by norm_num) _
  have hsc : x / (2 : ℚ) ^ ulpExp p x < (((2 : ℤ) ^ p : ℤ) : ℚ) := by
    rw [div_lt_iff₀ h2pos]
    push_cast
    rw [← zpow_natCast, ← zpow_add₀ (by norm_num : (2 : ℚ) ≠ 0)]
    have : (p : ℤ) + ulpExp p x = Int.log 2 x + 1 := by rw [he]; omega
    rw [this]
    exact hlt
  have hfl : ⌊x / (2 : ℚ) ^ ulpExp p x⌋ < (2 : ℤ) ^ p := Int.floor_lt.mpr hsc
  have hr : roundHalfEven (x / (2 : ℚ) ^ ulpExp p x) ≤ (2 : ℤ) ^ p := by
    have := roundHalfEven_le_floor_succ (x / (2 : ℚ) ^ ulpExp p x)
    omega
  have hr' : (roundHalfEven (x / (2 : ℚ) ^ ulpExp p x) : ℚ) ≤ (((2 : ℤ) ^ p : ℤ) : ℚ) := by
    exact_mod_cast hr
  calc (roundHalfEven (x / (2 : ℚ) ^ ulpExp p x) : ℚ) * (2 : ℚ) ^ ulpExp p x
      ≤ (((2 : ℤ) ^ p : ℤ) : ℚ) * (2 : ℚ) ^ ulpExp p x :=
        mul_le_mul_of_nonneg_right hr' (le_of_lt h2pos)
    _ = (2 : ℚ) ^ (Int.log 2 x + 1) := by
        push_cast
        rw [← zpow_natCast, ← zpow_add₀ (by norm_num : (2 : ℚ) ≠ 0)]
        congr 1
        rw [he]; omega


theorem binaryOps_pow10 (p : Nat) (sc : List Nat → ℚ × Option NumError) (k : Nat)
    (h : 10 ^ k < 2 ^ p) : (binaryOps p sc).pow10 k = ((10 ^ k : ℕ) : ℚ) := by
  have := roundBinary_natCast p (10 ^ k) h
  simp only [binaryOps]
  push_cast at this ⊢
  exact this

/-- The product the reconstructors compare with their ceiling `10^c`: it passes the ceiling
exactly when the exact product does, and is exact when it does not. -/
theorem binaryOps_scaled (p : Nat) (hp : 1 ≤ p) (sc : List Nat → ℚ × Option NumError)
    (m k c : Nat) (_hm0 : 0 < m) (hm : m < 2 ^ p) (hk : 10 ^ k < 2 ^ p) (hc : 10 ^ c < 2 ^ p) :
    ((binaryOps p sc).gt ((binaryOps p sc).mul ((binaryOps p sc).ofUint64 m)
        ((binaryOps p sc).pow10 k)) ((binaryOps p sc).pow10 c) = true ↔ 10 ^ c < m * 10 ^ k) ∧
    (m * 10 ^ k ≤ 10 ^ c → (binaryOps p sc).mul ((binaryOps p sc).ofUint64 m)
        ((binaryOps p sc).pow10 k) = ((m * 10 ^ k : ℕ) : ℚ)) := by
  have hk' := binaryOps_pow10 p sc k hk
  have hc' := binaryOps_pow10 p sc c hc
  have hm' : (binaryOps p sc).ofUint64 m = (m : ℚ) := roundBinary_natCast p m hm
  have hmul : (binaryOps p sc).mul ((binaryOps p sc).ofUint64 m) ((binaryOps p sc).pow10 k) =
      roundBinary p ((m * 10 ^ k : ℕ) : ℚ) := by
    rw [hm', hk']
    simp only [binaryOps]
    push_cast
    rfl
  rw [hmul, hc']
  have hgt : ∀ a b : ℚ, ((binaryOps p sc).gt a b = true ↔ b < a) := by
    intro a b; simp [binaryOps]
  rw [hgt]
  by_cases hlt : m * 10 ^ k < 2 ^ p
  · rw [roundBinary_natCast p _ hlt]
    constructor
    · exact_mod_cast Iff.rfl
    · intro _; rfl
  · have hge : (2 : ℚ) ^ p ≤ ((m * 10 ^ k : ℕ) : ℚ) := by
      exact_mod_cast (not_lt.mp hlt)
    have hr := le_roundBinary p hp _ hge
    have hcq : ((10 ^ c : ℕ) : ℚ) < (2 : ℚ) ^ p := by exact_mod_cast hc
    constructor
    · constructor
      · intro _; omega
      · intro _; exact lt_of_lt_of_le hcq hr
    · intro hle; omega


/-- When `parseFloat64_reader` fails, for any arithmetic: only on the upper branch, and
there exactly when the scaled mantissa passes the ceiling. -/
theorem parseFloat64_reader_fail (E : FloatOps) (r : readFloatResult)
    (h1 : -22 ≤ r.exp) (h2 : r.exp ≤ 37) :
    ∃ f fail, parseFloat64_reader E r = some (f, fail) ∧
      (fail = true ↔ (22 < r.exp ∧
        E.gt (E.mul (E.ofUint64 r.mantissa) (E.pow10 (r.exp - 22).toNat))
          (fMaxMultiplierForExactPow10_64 E) = true)) := by
  unfold parseFloat64_reader
  simp only [fi64]
  by_cases ha : r.exp ≠ 0
  · rw [if_pos ha]
    by_cases hb : r.exp < 0
    · have hi : negUint8 (toUint8 r.exp) < 23 := by unfold negUint8 toUint8; omega
      rw [if_pos hb, float64pow10_get _ _ hi]
      refine ⟨_, false, rfl, ?_⟩
      constructor
      · intro h; cases h
      · intro h; exact absurd h.1 (by omega)
    · rw [if_neg hb]
      by_cases hc : r.exp > 22
      · have hw : wrap8 (r.exp - 22) = r.exp - 22 := wrap8_id _ (by omega) (by omega)
        have h22 := indexInt_float64pow10 E 22 (by omega) (by omega)
        have hidx := indexInt_float64pow10 E (r.exp - 22) (by omega) (by omega)
        rw [if_pos hc, hw, hidx]
        simp only [Option.some_bind, h22]
        by_cases hg : E.gt (E.mul (E.ofUint64 r.mantissa) (E.pow10 (r.exp - 22).toNat))
            (fMaxMultiplierForExactPow10_64 E) = true
        · rw [if_pos hg]
          exact ⟨_, true, rfl, fun _ => ⟨hc, hg⟩, fun _ => rfl⟩
        · rw [if_neg hg]
          refine ⟨_, false, rfl, ?_⟩
          constructor
          · intro h; cases h
          · intro h; exact absurd h.2 hg
      · have hi : toUint8 r.exp < 23 := by unfold toUint8; omega
        rw [if_neg hc, float64pow10_get _ _ hi]
        refine ⟨_, false, rfl, ?_⟩
        constructor
        · intro h; cases h
        · intro h; exact absurd h.1 (by omega)
  · rw [if_neg ha]
    refine ⟨_, false, rfl, ?_⟩
    constructor
    · intro h; cases h
    · intro h; exact absurd h.1 (by omega)

/-- When `parseFloat32_reader` fails, for any arithmetic. -/
theorem parseFloat32_reader_fail (E : FloatOps) (r : readFloatResult)
    (h1 : -10 ≤ r.exp) (h2 : r.exp ≤ 17) :
    ∃ f fail, parseFloat32_reader E r = some (f, fail) ∧
      (fail = true ↔ (10 < r.exp ∧
        E.gt (E.mul (E.ofUint64 r.mantissa) (E.pow10 (r.exp - 10).toNat))
          (fMaxMultiplierForExactPow10_32 E) = true)) := by
  unfold parseFloat32_reader
  simp only [fi32]
  by_cases ha : r.exp ≠ 0
  · rw [if_pos ha]
    by_cases hb : r.exp < 0
    · have hi : toUint8 (wrap8 (-r.exp)) < 11 := by unfold toUint8 wrap8; omega
      rw [if_pos hb, float32pow10_get _ _ hi]
      refine ⟨_, false, rfl, ?_⟩
      constructor
      · intro h; cases h
      · intro h; exact absurd h.1 (by omega)
    · rw [if_neg hb]
      by_cases hc : r.exp > 10
      · have hw : wrap8 (r.exp - 10) = r.exp - 10 := wrap8_id _ (by omega) (by omega)
        have h22 := indexInt_float32pow10 E 10 (by omega) (by omega)
        have hidx := indexInt_float32pow10 E (r.exp - 10) (by omega) (by omega)
        rw [if_pos hc, hw, hidx]
        simp only [Option.some_bind, h22]
        by_cases hg : E.gt (E.mul (E.ofUint64 r.mantissa) (E.pow10 (r.exp - 10).toNat))
            (fMaxMultiplierForExactPow10_32 E) = true
        · rw [if_pos hg]
          exact ⟨_, true, rfl, fun _ => ⟨hc, hg⟩, fun _ => rfl⟩
        · rw [if_neg hg]
          refine ⟨_, false, rfl, ?_⟩
          constructor
          · intro h; cases h
          · intro h; exact absurd h.2 hg
      · have hi : toUint8 r.exp < 11 := by unfold toUint8; omega
        rw [if_neg hc, float32pow10_get _ _ hi]
        refine ⟨_, false, rfl, ?_⟩
        constructor
        · intro h; cases h
        · intro h; exact absurd h.1 (by omega)
  · rw [if_neg ha]
    refine ⟨_, false, rfl, ?_⟩
    constructor
    · intro h; cases h
    · intro h; exact absurd h.1 (by omega)

theorem readFloat_smallLiteral_256 :
    readFloat (smallLiteral 256).bytes fi64 = ⟨5, -1, false, true, false, false, false, true⟩ := by
  rw [readFloat_smallLiteral]
  decide

theorem parseFloat64_custom_smallLiteral_256 (E : FloatOps) :
    parseFloat64_custom E (smallLiteral 256).bytes =
      some (E.div (E.ofUint64 5) (E.pow10 1), none) := by
  have h1 : (float64pow10 E)[negUint8 (toUint8 (-1))]? = some (E.pow10 1) :=
    float64pow10_get E 1 (by decide)
  simp [parseFloat64_custom, readFloat_smallLiteral_256, parseFloat64_reader, h1]

theorem binaryOps_five_tenths (p : Nat) (hp : 4 ≤ p) (sc : List Nat → ℚ × Option NumError) :
    (binaryOps p sc).div ((binaryOps p sc).ofUint64 5) ((binaryOps p sc).pow10 1) = 1 / 2 := by
  have h16 : 2 ^ 4 ≤ 2 ^ p := Nat.pow_le_pow_right (by norm_num) hp
  have h5 : (binaryOps p sc).ofUint64 5 = 5 := by
    have := roundBinary_natCast p 5 (by omega)
    simpa [binaryOps] using this
  have h10 : (binaryOps p sc).pow10 1 = 10 := by
    have := binaryOps_pow10 p sc 1 (by omega)
    simpa using this
  rw [h5, h10]
  have hz := roundBinary_zpow p (by omega) (-1)
  have he : (5 : ℚ) / 10 = (2 : ℚ) ^ (-1 : ℤ) := by norm_num
  show roundBinary p (5 / 10) = 1 / 2
  rw [he, hz]
  norm_num

/-! ## Lemmas on the structure of a scan -/

theorem readFloat_eq_scan (s : List Nat) (y : floatinfo) (hs : s ≠ []) :
    readFloat s y = scanAfterLoop y
      (scanLoop (mantCutoffIsUint64CutoffOf y) (mantCutoffOf y) (tokenBody s) (scanStart s)) := by
  cases s with
  | nil => exact absurd rfl hs
  | cons c0 cs =>
    unfold readFloat scanAfterLoop tokenBody scanStart
    by_cases hc : c0 = chMinus
    · subst hc
      simp only [List.head?_cons, if_true]
      try rfl
    · have hne : ¬ (some c0 = some chMinus) := by simpa using hc
      simp only [List.head?_cons, if_neg hc, if_neg hne]
      try rfl

theorem scanLoop_append (u : Bool) (m : Nat) (pre rest : List Nat) (v : scanVars)
    (hpre : ∀ c ∈ pre, c ≠ chLowerE ∧ c ≠ chUpperE) :
    scanLoop u m (pre ++ rest) v =
      (scanLoop u m pre v).andThen (fun v' => scanLoop u m rest v') := by
  induction pre generalizing v with
  | nil => simp [scanLoop, scanFlow.andThen]
  | cons c cs ih =>
    have hc := hpre c (List.mem_cons_self _ _)
    have hcs : ∀ c ∈ cs, c ≠ chLowerE ∧ c ≠ chUpperE :=
      fun x hx => hpre x (List.mem_cons_of_mem _ hx)
    have hm : ¬ (c = chLowerE ∨ c = chUpperE) := by
      intro h; rcases h with h | h
      · exact hc.1 h
      · exact hc.2 h
    simp only [List.cons_append]
    rw [scanLoop, scanLoop]
    dsimp only
    split_ifs <;> first
      | exact ih _ hcs
      | rfl


/-- A mantissa scan without exponent marker either returns, with `bad` or `trunc` set, or
runs to the end of its bytes, with the flags `bad`, `trunc`, `ok`, `sawexp` as before. -/
theorem scanLoop_no_marker (u : Bool) (m : Nat) (pre : List Nat) (v : scanVars)
    (hpre : ∀ c ∈ pre, c ≠ chLowerE ∧ c ≠ chUpperE) :
    (∃ r, scanLoop u m pre v = .ret r ∧ (r.bad = true ∨ r.trunc = true)) ∨
    (∃ v', scanLoop u m pre v = .next v' [] ∧ v'.r.bad = v.r.bad ∧ v'.r.trunc = v.r.trunc ∧
      v'.r.ok = v.r.ok ∧ v'.r.sawexp = v.r.sawexp ∧ v'.r.neg = v.r.neg ∧
      v'.r.exp = v.r.exp) := by
  induction pre generalizing v with
  | nil => right; exact ⟨v, rfl, rfl, rfl, rfl, rfl, rfl, rfl⟩
  | cons c cs ih =>
    have hc := hpre c (List.mem_cons_self _ _)
    have hcs : ∀ c ∈ cs, c ≠ chLowerE ∧ c ≠ chUpperE :=
      fun x hx => hpre x (List.mem_cons_of_mem _ hx)
    have hm : ¬ (c = chLowerE ∨ c = chUpperE) := by
      intro h; rcases h with h | h
      · exact hc.1 h
      · exact hc.2 h
    rw [scanLoop]
    dsimp only
    split_ifs <;> first
      | exact ih _ hcs
      | (left; exact ⟨_, rfl, Or.inl rfl⟩)
      | (left; exact ⟨_, rfl, Or.inr rfl⟩)

/-- Before the decimal point is seen, the value of `dp` has no bearing on the result. -/
theorem scanAfterLoop_dp (y : floatinfo) (u : Bool) (m : Nat) (l : List Nat)
    (r : readFloatResult) (nd ndMant dp dp' : Int) (h : r.sawdot = true → dp = dp') :
    scanAfterLoop y (scanLoop u m l ⟨r, nd, ndMant, dp⟩) =
      scanAfterLoop y (scanLoop u m l ⟨r, nd, ndMant, dp'⟩) := by
  induction l generalizing r nd ndMant dp dp' with
  | nil =>
    simp only [scanLoop, scanAfterLoop]
    by_cases hs : r.sawdot = true
    · rw [h hs]
    · simp [hs]
  | cons c cs ih =>
    rw [scanLoop, scanLoop]
    dsimp only
    split_ifs with h1 h2 h3 h4 h5 h6 h7 h8 h9 h10
    · rfl
    · exact ih _ _ _ _ _ (fun _ => rfl)
    · simp only [scanAfterLoop]
      by_cases hs : r.sawdot = true
      · rw [h hs]
      · simp [hs]
    · exact ih _ _ _ _ _ (fun hs => by rw [h hs])
    · exact ih _ _ _ _ _ h
    · exact ih _ _ _ _ _ h
    · rfl
    · exact ih _ _ _ _ _ h
    · exact ih _ _ _ _ _ h
    · rfl
    · rfl

theorem parseUint64_loop_zeros (k : Nat) (s : List Nat) :
    parseUint64_loop (List.replicate k ch0 ++ s) 0 = parseUint64_loop s 0 := by
  induction k with
  | zero => rfl
  | succ k ih =>
    simp only [List.replicate_succ, List.cons_append]
    rw [parseUint64_loop]
    simpa [ch0, ch9, fUint64Cutoff, fBase, uint64Size] using ih

/-! ## Lemmas on decimal strings -/

theorem decFrom_append (acc : Nat) (a b : List Nat) :
    decFrom acc (a ++ b) = decFrom (decFrom acc a) b := by
  simp [decFrom, List.foldl_append]

theorem decVal_reverse_digits (l : List Nat) :
    decVal (l.reverse.map (fun d => ch0 + d)) = Nat.ofDigits 10 l := by
  induction l with
  | nil => simp [decVal, decFrom]
  | cons d t ih =>
    simp only [List.reverse_cons, List.map_append, List.map_cons, List.map_nil]
    unfold decVal at ih ⊢
    rw [decFrom_append, ih, Nat.ofDigits_cons]
    simp [decFrom, ch0]
    omega

theorem decimalBytes_spec (n : Nat) :
    decimalBytes n ≠ [] ∧ allDigits (decimalBytes n) ∧ decVal (decimalBytes n) = n := by
  unfold decimalBytes
  split_ifs with h
  · subst h
    exact ⟨by simp, by simp [allDigits, ch0, ch9], by simp [decVal, decFrom]⟩
  · refine ⟨?_, ?_, ?_⟩
    · simp [Nat.digits_ne_nil_iff_ne_zero, h]
    · intro c hc
      simp only [List.mem_map, List.mem_reverse] at hc
      obtain ⟨d, hd, rfl⟩ := hc
      have := Nat.digits_lt_base (by norm_num : 1 < 10) hd
      simp only [ch0, ch9]
      omega
    · rw [decVal_reverse_digits, Nat.ofDigits_digits]

/-! ## Lemmas on the scan of a literal -/

theorem Literal.bytes_eq (L : Literal) :
    L.bytes = (if L.neg then [chMinus] else []) ++
      (L.intDigits ++ (L.fracBytes ++ L.expBytes)) := by
  obtain ⟨neg, i, f, e⟩ := L
  cases f <;> cases e <;>
    simp [Literal.bytes, Literal.fracBytes, Literal.expBytes, List.append_assoc]

theorem digit_ne (c : Nat) (hc : ch0 ≤ c ∧ c ≤ ch9) :
    c ≠ chDot ∧ c ≠ chLowerE ∧ c ≠ chUpperE ∧ c ≠ chMinus ∧ c ≠ chPlus := by
  simp only [ch0, ch9, chDot, chLowerE, chUpperE, chMinus, chPlus] at *
  omega

theorem allDigits_no_marker (ds : List Nat) (hd : allDigits ds) :
    ∀ c ∈ ds, c ≠ chLowerE ∧ c ≠ chUpperE := by
  intro c hc
  have := digit_ne c (hd c hc)
  exact ⟨this.2.1, this.2.2.1⟩

/-- The scan of a literal starts its mantissa loop on the bytes after the sign. -/
theorem readFloat_literal (L : Literal) (hwf : L.wf) (y : floatinfo) :
    readFloat L.bytes y = scanAfterLoop y
      (scanLoop (mantCutoffIsUint64CutoffOf y) (mantCutoffOf y)
        (L.intDigits ++ (L.fracBytes ++ L.expBytes))
        ⟨{ readFloatResult.zero with neg := L.neg }, 0, 0, 0⟩) := by
  obtain ⟨⟨hint, hne⟩, _, _⟩ := hwf
  obtain ⟨d, ds, hds⟩ := List.exists_cons_of_ne_nil hne
  have hd : d ≠ chMinus := by
    have h := hint d (by rw [hds]; exact List.mem_cons_self _ _)
    exact (digit_ne d h).2.2.2.1
  rw [L.bytes_eq]
  cases hn : L.neg with
  | true =>
    simp only [if_true, List.singleton_append]
    rw [readFloat_eq_scan _ y (by simp)]
    simp [tokenBody, scanStart]
  | false =>
    rw [readFloat_eq_scan _ y (by simp [hne])]
    simp only [Bool.false_eq_true, if_false, List.nil_append]
    rw [hds]
    simp [tokenBody, scanStart, hd, readFloatResult.zero]

/-- One step of the mantissa loop on a digit. -/
theorem scanLoop_cons_digit (u : Bool) (m : Nat) (c : Nat) (cs : List Nat) (v : scanVars)
    (hc : ch0 ≤ c ∧ c ≤ ch9) :
    scanLoop u m (c :: cs) v =
      if c = ch0 then
        if v.nd = 0 then scanLoop u m cs { v with dp := wrap8 (v.dp - 1) }
        else if v.r.mantissa < m then
          scanLoop u m cs
            { v with nd := wrap8 (v.nd + 1),
                     r := { v.r with mantissa := v.r.mantissa * fBase % uint64Size },
                     ndMant := wrap8 (v.ndMant + 1) }
        else scanLoop u m cs { v with nd := wrap8 (v.nd + 1) }
      else if u = true ∧ v.r.mantissa < fUint64Cutoff then
        if (v.r.mantissa * fBase % uint64Size + (c - ch0)) % uint64Size <
            v.r.mantissa * fBase % uint64Size then
          .ret { v.r with mantissa := v.r.mantissa * fBase % uint64Size, trunc := true }
        else scanLoop u m cs
          { v with nd := wrap8 (v.nd + 1),
                   r := { v.r with
                     mantissa := (v.r.mantissa * fBase % uint64Size + (c - ch0)) % uint64Size },
                   ndMant := wrap8 (v.ndMant + 1) }
      else if v.r.mantissa < m then
        scanLoop u m cs
          { v with nd := wrap8 (v.nd + 1),
                   r := { v.r with
                     mantissa := (v.r.mantissa * fBase % uint64Size + (c - ch0)) % uint64Size },
                   ndMant := wrap8 (v.ndMant + 1) }
      else .ret { v.r with trunc := true } := by
  have h := digit_ne c hc
  have hm : ¬ (c = chLowerE ∨ c = chUpperE) := by
    intro h'; rcases h' with h' | h'
    · exact h.2.1 h'
    · exact h.2.2.1 h'
  rw [scanLoop]
  rw [if_neg h.1, if_neg hm]
  by_cases h0 : c = ch0
  · rw [if_pos h0, if_pos h0]
  · have h19 : c ≥ ch1 ∧ c ≤ ch9 := by
      simp only [ch0, ch1, ch9] at *
      omega
    rw [if_neg h0, if_pos h19, if_neg h0]

/-- A run of digits never sets `bad`, and leaves the flags as they are. -/
theorem scanLoop_digits_flags (u : Bool) (m : Nat) (ds : List Nat) (v : scanVars)
    (hd : allDigits ds) :
    (∃ r, scanLoop u m ds v = .ret r ∧ r.bad = v.r.bad ∧ r.ok = v.r.ok) ∨
    (∃ v', scanLoop u m ds v = .next v' [] ∧ v'.r.bad = v.r.bad ∧ v'.r.ok = v.r.ok ∧
      v'.r.sawdot = v.r.sawdot ∧ v'.r.sawexp = v.r.sawexp ∧ v'.r.exp = v.r.exp) := by
  induction ds generalizing v with
  | nil => right; exact ⟨v, rfl, rfl, rfl, rfl, rfl, rfl⟩
  | cons c cs ih =>
    have hc := hd c (List.mem_cons_self _ _)
    have hcs : allDigits cs := fun x hx => hd x (List.mem_cons_of_mem _ hx)
    rw [scanLoop_cons_digit u m c cs v hc]
    split_ifs <;> first
      | exact ih _ hcs
      | (left; exact ⟨_, rfl, rfl, rfl⟩)

theorem wrap8_digit (d : Nat) (hd : ch0 ≤ d ∧ d ≤ ch9) :
    wrap8 ((d - ch0 : Nat) : Int) = ((d - ch0 : Nat) : Int) := by
  apply wrap8_id <;> simp only [ch0, ch9] at * <;> omega

/-- The exponent part of a literal: both digits are read and `dp` moves by the written
exponent. -/
theorem scanExponent_wf (e : ExpPart) (he : e.wf) (v : scanVars) (hs : v.r.sawexp = true) :
    scanExponent e.bytes v =
      .next { v with dp := if e.sign = some true then wrap8 (v.dp - (decVal e.digits : Int))
                            else wrap8 (v.dp + (decVal e.digits : Int)) } [] := by
  obtain ⟨mk, sign, digits⟩ := e
  obtain ⟨_, hd, h1, h2⟩ := he
  simp only at hd h1 h2
  -- one or two digits
  have hshape : (∃ d1, digits = [d1]) ∨ (∃ d1 d2, digits = [d1, d2]) := by
    match digits, h1, h2 with
    | [d1], _, _ => exact Or.inl ⟨d1, rfl⟩
    | [d1, d2], _, _ => exact Or.inr ⟨d1, d2, rfl⟩
  have key : ∀ (eneg : Bool), scanExponent (mk :: ((if eneg then [chMinus] else
      if sign = none then [] else [chPlus]) ++ digits)) v =
      .next { v with dp := if eneg then wrap8 (v.dp - (decVal digits : Int))
                            else wrap8 (v.dp + (decVal digits : Int)) } [] := by
    intro eneg
    unfold scanExponent
    rw [if_pos hs]
    rcases hshape with ⟨d1, rfl⟩ | ⟨d1, d2, rfl⟩
    · have hd1 := hd d1 (by simp)
      have hn1 := digit_ne d1 hd1
      have hw1 := wrap8_digit d1 hd1
      have hnot : ¬ (d1 < ch0 ∨ d1 > ch9) := by omega
      cases eneg
      · by_cases hsg : sign = none
        · simp [hsg, expSign, hn1.2.2.2.1, hn1.2.2.2.2, hnot, hw1, decVal, decFrom]
        · simp [hsg, expSign, chPlus, chMinus, hnot, hw1, decVal, decFrom]
      · simp [expSign, chPlus, chMinus, hnot, hw1, decVal, decFrom]
    · have hd1 := hd d1 (by simp)
      have hd2 := hd d2 (by simp)
      have hn1 := digit_ne d1 hd1
      have hw1 := wrap8_digit d1 hd1
      have hnot1 : ¬ (d1 < ch0 ∨ d1 > ch9) := by omega
      have hnot2 : ¬ (d2 < ch0 ∨ d2 > ch9) := by omega
      have hw2 : wrap8 (wrap8 (wrap8 ((d1 - ch0 : Nat) : Int) * 10) +
          wrap8 ((d2 - ch0 : Nat) : Int)) = ((decVal [d1, d2] : Nat) : Int) := by
        simp only [decVal, decFrom, List.foldl_cons, List.foldl_nil, ch0, ch9, wrap8] at *
        omega
      cases eneg
      · by_cases hsg : sign = none
        · simp [hsg, expSign, hn1.2.2.2.1, hn1.2.2.2.2, hnot1, hnot2, hw2]
        · simp [hsg, expSign, chPlus, chMinus, hnot1, hnot2, hw2]
      · simp [expSign, chPlus, chMinus, hnot1, hnot2, hw2]
  cases sign with
  | none => simpa [ExpPart.bytes] using key false
  | some b =>
    cases b
    · simpa [ExpPart.bytes] using key false
    · simpa [ExpPart.bytes] using key true

theorem scanFinish_bad (y : floatinfo) (v : scanVars) : (scanFinish y v).bad = v.r.bad := by
  unfold scanFinish
  dsimp only
  split_ifs <;> rfl

theorem afterExponent_bad (L : Literal) (v : scanVars) :
    (afterExponent L v).r.bad = v.r.bad := by
  unfold afterExponent
  cases L.exponent <;> rfl

/-- The scan of the exponent bytes of a literal, from the end of its mantissa. -/
theorem scanLoop_expBytes (u : Bool) (m : Nat) (L : Literal) (hwf : L.wf) (y : floatinfo)
    (v : scanVars) (hse : v.r.sawexp = false) :
    scanAfterLoop y (scanLoop u m L.expBytes v) = scanFinish y (afterExponent L v) := by
  obtain ⟨_, _, hexp⟩ := hwf
  unfold afterExponent
  cases he : L.exponent with
  | none =>
    have hse' : ¬ ((if v.r.sawdot = true then v else { v with dp := v.nd }).r.sawexp = true) := by
      split_ifs <;> simp [hse]
    simp only [Literal.expBytes, he, scanLoop, scanAfterLoop, scanExponent, if_neg hse']
    congr 1
    by_cases hsd : v.r.sawdot = true <;> simp [hsd]
  | some e =>
    have hwe := hexp e he
    obtain ⟨mk, t, hb⟩ : ∃ mk t, e.bytes = mk :: t := ⟨_, _, rfl⟩
    have hmk : mk = chLowerE ∨ mk = chUpperE := by
      have : mk = e.marker := by
        simp only [ExpPart.bytes, List.cons.injEq] at hb
        exact hb.1.symm
      rw [this]; exact hwe.1
    have hnd : mk ≠ chDot := by
      rcases hmk with h | h <;> rw [h] <;> decide
    simp only [Literal.expBytes, he]
    rw [hb, scanLoop, if_neg hnd, if_pos hmk, ← hb]
    simp only [scanAfterLoop]
    rw [scanExponent_wf e hwe _ (by split_ifs <;> rfl)]
    simp only
    congr 1
    by_cases hsd : v.r.sawdot = true <;> simp [hsd]

/-- On a token of the input grammar `readFloat` never sets `bad`. -/
theorem readFloat_literal_bad (L : Literal) (hwf : L.wf) (y : floatinfo) :
    (readFloat L.bytes y).bad = false := by
  rw [readFloat_literal L hwf y]
  have hint := hwf.1.1
  have hfrac := hwf.2.1
  rw [scanLoop_append _ _ _ _ _ (allDigits_no_marker _ hint)]
  rcases scanLoop_digits_flags (mantCutoffIsUint64CutoffOf y) (mantCutoffOf y) L.intDigits
    ⟨{ readFloatResult.zero with neg := L.neg }, 0, 0, 0⟩ hint with
    ⟨r, hr, hb, _⟩ | ⟨v1, hv1, hb1, _, hsd1, hse1, _⟩
  · rw [hr]
    simp only [scanFlow.andThen, scanAfterLoop]
    rw [hb]; rfl
  · rw [hv1]
    simp only [scanFlow.andThen]
    cases hf : L.fracDigits with
    | none =>
      simp only [Literal.fracBytes, hf, List.nil_append]
      rw [scanLoop_expBytes _ _ L hwf y v1 (by rw [hse1]; rfl), scanFinish_bad,
        afterExponent_bad, hb1]
      rfl
    | some f =>
      have hfd := (hfrac f hf).1
      have hsd : ¬ (v1.r.sawdot = true) := by rw [hsd1]; simp [readFloatResult.zero]
      simp only [Literal.fracBytes, hf, List.cons_append]
      rw [scanLoop, if_pos rfl, if_neg hsd,
        scanLoop_append _ _ _ _ _ (allDigits_no_marker _ hfd)]
      rcases scanLoop_digits_flags (mantCutoffIsUint64CutoffOf y) (mantCutoffOf y) f
        { v1 with r := { v1.r with sawdot := true }, dp := v1.nd } hfd with
        ⟨r, hr, hb, _⟩ | ⟨v2, hv2, hb2, _, _, hse2, _⟩
      · rw [hr]
        simp only [scanFlow.andThen, scanAfterLoop]
        rw [hb]; exact hb1.trans rfl
      · rw [hv2]
        simp only [scanFlow.andThen]
        rw [scanLoop_expBytes _ _ L hwf y v2 (by rw [hse2]; exact hse1.trans rfl),
          scanFinish_bad, afterExponent_bad, hb2]
        exact hb1.trans rfl

theorem lateNonzero_succ_cons (j : Nat) (c : Nat) (l : List Nat) :
    lateNonzero (j + 1) (c :: l) ↔ lateNonzero j l := by
  simp [lateNonzero]

theorem lateNonzero_zero_cons (c : Nat) (l : List Nat) (hc : c = ch0)
    (h : lateNonzero 0 (c :: l)) : lateNonzero 0 l := by
  obtain ⟨d, hd, hne⟩ := h
  simp only [List.drop_zero, List.mem_cons] at hd
  rcases hd with rfl | hd
  · exact absurd hc hne
  · exact ⟨d, by simpa using hd, hne⟩

theorem lateNonzero_mono (j : Nat) (l : List Nat) (h : lateNonzero (j + 1) l) :
    lateNonzero j l := by
  obtain ⟨d, hd, hne⟩ := h
  refine ⟨d, ?_, hne⟩
  have : l.drop (j + 1) = (l.drop j).drop 1 := by simp [List.drop_drop, Nat.add_comm]
  rw [this] at hd
  exact List.mem_of_mem_drop hd

theorem lateNonzero_zero_of (j : Nat) (l : List Nat) (h : lateNonzero j l) :
    lateNonzero 0 l := by
  induction j with
  | zero => exact h
  | succ j ih => exact ih (lateNonzero_mono j l h)

theorem lateNonzero_nil (j : Nat) : ¬ lateNonzero j [] := by
  simp [lateNonzero]

/-- The state `tooLong` after one more digit is taken into a mantissa still below the
cutoff. -/
theorem tooLong_push (v : scanVars) (c : Nat) (rest : List Nat) (r' : readFloatResult)
    (dp' ndMant' : Int) (d : Nat) (hd : d ≤ 9)
    (hlt : v.r.mantissa < 4503599627370495)
    (hr : r'.mantissa = v.r.mantissa * 10 + d)
    (k : Nat) (hk1 : 1 ≤ k) (hk16 : k ≤ 16) (hnd : v.nd = k)
    (hlo : 10 ^ (k - 1) ≤ v.r.mantissa) (hl : lateNonzero (16 - k) (c :: rest)) :
    tooLong ⟨r', wrap8 (v.nd + 1), ndMant', dp'⟩ rest := by
  have hw : wrap8 (v.nd + 1) = ((k + 1 : Nat) : Int) := by
    rw [hnd, wrap8_id _ (by omega) (by omega)]
    push_cast; rfl
  have hpow : 10 ^ k = 10 ^ (k - 1) * 10 := by
    rw [← pow_succ]; congr 1; omega
  by_cases hk : k = 16
  · subst hk
    left
    simp only [hr]
    norm_num at hlo
    constructor
    · omega
    · left; omega
  · have hl' : lateNonzero (16 - (k + 1)) rest := by
      have : 16 - k = (16 - (k + 1)) + 1 := by omega
      rw [this] at hl
      exact (lateNonzero_succ_cons _ c rest).mp hl
    by_cases hc : r'.mantissa < 4503599627370495
    · right; left
      refine ⟨k + 1, by omega, by omega, hw, ?_, hc, hl'⟩
      simp only [Nat.add_sub_cancel, hr, hpow]
      omega
    · left
      exact ⟨Nat.le_of_not_lt hc, Or.inr (lateNonzero_zero_of _ _ hl')⟩

/-- Under `fi64`, a run of digits of a token whose significant digits are too many either
returns (with `trunc`) or ends in a state that is still `tooLong`. -/
theorem scanLoop_digits_tooLong (ds fut : List Nat) (v : scanVars) (hd : allDigits ds)
    (h : tooLong v (ds ++ fut)) :
    (∃ r, scanLoop false 4503599627370495 ds v = .ret r) ∨
    (∃ v', scanLoop false 4503599627370495 ds v = .next v' [] ∧ tooLong v' fut) := by
  induction ds generalizing v with
  | nil => right; exact ⟨v, rfl, h⟩
  | cons c cs ih =>
    have hc := hd c (List.mem_cons_self _ _)
    have hcs : allDigits cs := fun x hx => hd x (List.mem_cons_of_mem _ hx)
    rw [scanLoop_cons_digit false _ c cs v hc]
    simp only [Bool.false_eq_true, false_and, if_false, List.cons_append] at h ⊢
    have hmod : ∀ d : Nat, d ≤ 9 → v.r.mantissa < 4503599627370495 →
        (v.r.mantissa * fBase % uint64Size + d) % uint64Size = v.r.mantissa * 10 + d := by
      intro d hd hlt
      simp only [fBase, uint64Size]
      omega
    by_cases h0 : c = ch0
    · rw [if_pos h0]
      by_cases hnd : v.nd = 0
      · rw [if_pos hnd]
        apply ih _ hcs
        rcases h with ⟨hm, hA | hB⟩ | ⟨k, hk1, _, hk, _⟩ | ⟨hn, hm, hl⟩
        · exact Or.inl ⟨hm, Or.inl hA⟩
        · exact Or.inl ⟨hm, Or.inr (lateNonzero_zero_cons c _ h0 hB)⟩
        · exfalso; omega
        · right; right
          refine ⟨hn, hm, ?_⟩
          simpa [List.dropWhile, h0] using hl
      · rw [if_neg hnd]
        by_cases hlt : v.r.mantissa < 4503599627370495
        · rw [if_pos hlt]
          apply ih _ hcs
          rcases h with ⟨hm, _⟩ | ⟨k, hk1, hk16, hk, hlo, _, hl⟩ | ⟨hn, _, _⟩
          · exfalso; omega
          · have hm0 := hmod 0 (by omega) hlt
            simp only [Nat.add_zero, Nat.mod_mod] at hm0
            exact tooLong_push v c _ _ _ _ 0 (by omega) hlt (by simpa using hm0)
              k hk1 hk16 hk hlo hl
          · exact absurd hn hnd
        · rw [if_neg hlt]
          apply ih _ hcs
          rcases h with ⟨hm, hA | hB⟩ | ⟨k, _, _, _, _, hlt', _⟩ | ⟨hn, _, _⟩
          · exact Or.inl ⟨hm, Or.inl hA⟩
          · exact Or.inl ⟨hm, Or.inr (lateNonzero_zero_cons c _ h0 hB)⟩
          · exact absurd hlt' hlt
          · exact absurd hn hnd
    · rw [if_neg h0]
      by_cases hlt : v.r.mantissa < 4503599627370495
      · rw [if_pos hlt]
        apply ih _ hcs
        have hdig : c - ch0 ≤ 9 ∧ 1 ≤ c - ch0 := by
          simp only [ch0, ch9] at *
          omega
        rcases h with ⟨hm, _⟩ | ⟨k, hk1, hk16, hk, hlo, _, hl⟩ | ⟨hn, hm, hl⟩
        · exfalso; omega
        · exact tooLong_push v c _ _ _ _ (c - ch0) hdig.1 hlt (hmod _ hdig.1 hlt)
            k hk1 hk16 hk hlo hl
        · right; left
          refine ⟨1, le_refl _, by norm_num, ?_, ?_, ?_, ?_⟩
          · simp only [hn]; decide
          · simp only [hmod _ hdig.1 hlt]; norm_num; omega
          · simp only [hmod _ hdig.1 hlt]; omega
          · have hdw : List.dropWhile (· = ch0) (c :: (cs ++ fut)) = c :: (cs ++ fut) := by
              simp [List.dropWhile, h0]
            rw [hdw] at hl
            exact (lateNonzero_succ_cons 15 c _).mp hl
      · rw [if_neg hlt]
        left; exact ⟨_, rfl⟩

theorem lateNonzero_of_significand (ds : List Nat) (n : Nat)
    (h : n + 1 ≤ (significand ds).length) :
    lateNonzero n (ds.dropWhile (· = ch0)) := by
  unfold significand at h
  set T := ds.dropWhile (· = ch0) with hT
  set R' := T.reverse.dropWhile (· = ch0) with hR'
  have hlen : n + 1 ≤ R'.length := by simpa using h
  have hne : R' ≠ [] := by
    intro h0; rw [h0] at hlen; simp at hlen
  have hsplit : T = R'.reverse ++ (T.reverse.takeWhile (· = ch0)).reverse := by
    have := List.takeWhile_append_dropWhile (· = ch0) T.reverse
    have h2 := congrArg List.reverse this
    simp only [List.reverse_append, List.reverse_reverse] at h2
    exact h2.symm
  have hhead := List.head_dropWhile_not (· = ch0) T.reverse hne
  have hdne : (R'.reverse).drop n ≠ [] := by
    intro h0
    have := congrArg List.length h0
    simp at this
    omega
  refine ⟨(R'.reverse.drop n).getLast hdne, ?_, ?_⟩
  · rw [hsplit, List.drop_append_of_le_length (by simp; omega)]
    exact List.mem_append_left _ (List.getLast_mem hdne)
  · rw [List.getLast_drop hdne]
    have : R'.reverse.getLast (by simpa using hne) = R'.head hne := by
      simp [List.getLast_reverse]
    rw [this]
    simpa using hhead

theorem tooLong_nil (v : scanVars) (h : tooLong v []) : 4503599627370496 ≤ v.r.mantissa := by
  rcases h with ⟨_, hA | hB⟩ | ⟨k, _, _, _, _, _, hl⟩ | ⟨_, _, hl⟩
  · exact hA
  · exact absurd hB (lateNonzero_nil 0)
  · exact absurd hl (lateNonzero_nil _)
  · exact absurd hl (by simpa using lateNonzero_nil 16)

theorem scanFinish_big (v : scanVars) (h : 4503599627370496 ≤ v.r.mantissa) :
    (scanFinish fi64 v).ok = v.r.ok := by
  have hne : v.r.mantissa ≠ 0 := by omega
  have hsh : v.r.mantissa >>> 52 ≠ 0 := by
    rw [Nat.shiftRight_eq_div_pow]
    have : 1 ≤ v.r.mantissa / 2 ^ 52 := by
      rw [Nat.le_div_iff_mul_le (by norm_num)]
      norm_num
      exact h
    omega
  unfold scanFinish
  rw [if_pos hne]
  dsimp only
  rw [if_pos (Or.inr (Or.inr ⟨by decide, hsh⟩))]

theorem afterExponent_mantissa (L : Literal) (v : scanVars) :
    (afterExponent L v).r.mantissa = v.r.mantissa ∧ (afterExponent L v).r.ok = v.r.ok := by
  unfold afterExponent
  cases L.exponent <;> exact ⟨rfl, rfl⟩

/-- On a token whose significant digits are seventeen or more, `readFloat` under `fi64`
does not report `ok`. -/
theorem readFloat_tooLong (L : Literal) (hwf : L.wf)
    (h17 : 17 ≤ (significand L.digits).length) : (readFloat L.bytes fi64).ok = false := by
  rw [readFloat_literal L hwf fi64]
  have hU : mantCutoffIsUint64CutoffOf fi64 = false := by decide
  have hM : mantCutoffOf fi64 = 4503599627370495 := by decide
  rw [hU, hM]
  have hint := hwf.1.1
  have hfrac := hwf.2.1
  have hstart : tooLong ⟨{ readFloatResult.zero with neg := L.neg }, 0, 0, 0⟩
      (L.intDigits ++ L.fracDigits.getD []) :=
    Or.inr (Or.inr ⟨rfl, rfl, lateNonzero_of_significand L.digits 16 h17⟩)
  rw [scanLoop_append _ _ _ _ _ (allDigits_no_marker _ hint)]
  have hfl := scanLoop_digits_flags false 4503599627370495 L.intDigits
    ⟨{ readFloatResult.zero with neg := L.neg }, 0, 0, 0⟩ hint
  rcases scanLoop_digits_tooLong L.intDigits (L.fracDigits.getD [])
    ⟨{ readFloatResult.zero with neg := L.neg }, 0, 0, 0⟩ hint hstart with
    ⟨r, hr⟩ | ⟨v1, hv1, ht1⟩
  · rw [hr] at hfl ⊢
    rcases hfl with ⟨r2, hr2, _, hok2⟩ | ⟨v', hv', _⟩
    · cases hr2
      simp only [scanFlow.andThen, scanAfterLoop]
      rw [hok2]; rfl
    · cases hv'
  · rw [hv1] at hfl ⊢
    rcases hfl with ⟨r2, hr2, _⟩ | ⟨v', hv', _, hok1, hsd1, hse1, _⟩
    · cases hr2
    · cases hv'
      simp only [scanFlow.andThen]
      cases hf : L.fracDigits with
      | none =>
        rw [hf] at ht1
        simp only [Literal.fracBytes, hf, List.nil_append]
        rw [scanLoop_expBytes _ _ L hwf fi64 v1 (by rw [hse1]; rfl),
          scanFinish_big _ (by rw [(afterExponent_mantissa L v1).1]; exact tooLong_nil v1 ht1),
          (afterExponent_mantissa L v1).2, hok1]
        rfl
      | some f =>
        rw [hf] at ht1
        have hfd := (hfrac f hf).1
        have hsd : ¬ (v1.r.sawdot = true) := by rw [hsd1]; simp [readFloatResult.zero]
        simp only [Literal.fracBytes, hf, List.cons_append]
        rw [scanLoop, if_pos rfl, if_neg hsd,
          scanLoop_append _ _ _ _ _ (allDigits_no_marker _ hfd)]
        have ht1' : tooLong { v1 with r := { v1.r with sawdot := true }, dp := v1.nd }
            (f ++ []) := by
          simpa [tooLong] using ht1
        have hfl2 := scanLoop_digits_flags false 4503599627370495 f
          { v1 with r := { v1.r with sawdot := true }, dp := v1.nd } hfd
        rcases scanLoop_digits_tooLong f []
          { v1 with r := { v1.r with sawdot := true }, dp := v1.nd } hfd ht1' with
          ⟨r, hr⟩ | ⟨v2, hv2, ht2⟩
        · rw [hr] at hfl2 ⊢
          rcases hfl2 with ⟨r2, hr2, _, hok2⟩ | ⟨v', hv', _⟩
          · cases hr2
            simp only [scanFlow.andThen, scanAfterLoop]
            rw [hok2]; exact hok1.trans rfl
          · cases hv'
        · rw [hv2] at hfl2 ⊢
          rcases hfl2 with ⟨r2, hr2, _⟩ | ⟨v', hv', _, hok2, _, hse2, _⟩
          · cases hr2
          · cases hv'
            simp only [scanFlow.andThen]
            rw [scanLoop_expBytes _ _ L hwf fi64 v2 (by rw [hse2]; exact hse1.trans rfl),
              scanFinish_big _
                (by rw [(afterExponent_mantissa L v2).1]; exact tooLong_nil v2 ht2),
              (afterExponent_mantissa L v2).2, hok2]
            exact hok1.trans rfl

/-! ## Lemmas on the scanner with a record of wraparound -/

theorem scanLoopW_fst (u : Bool) (m : Nat) (l : List Nat) (v : scanVars) (w : Bool) :
    (scanLoopW u m l v w).1 = scanLoop u m l v := by
  induction l generalizing v w with
  | nil => rfl
  | cons c cs ih =>
    rw [scanLoopW, scanLoop]
    dsimp only
    split_ifs <;> first
      | exact ih _ _
      | rfl

theorem scanExponentW_fst (rest : List Nat) (v : scanVars) (w : Bool) :
    (scanExponentW rest v w).1 = scanExponent rest v := by
  unfold scanExponentW scanExponent
  split_ifs
  · generalize rest.drop 1 = l
    cases l with
    | nil => rfl
    | cons c cs =>
      dsimp only
      generalize (expSign c cs).2 = l2
      generalize (expSign c cs).1 = b
      cases l2 with
      | nil => rfl
      | cons d1 ds =>
        cases ds with
        | nil => dsimp only; split_ifs <;> rfl
        | cons d2 ds2 => dsimp only; split_ifs <;> rfl
  · rfl

theorem scanAfterLoopW_fst (y : floatinfo) (f : scanFlow × Bool) :
    (scanAfterLoopW y f).1 = scanAfterLoop y f.1 := by
  obtain ⟨f, w⟩ := f
  cases f with
  | ret r => rfl
  | next v rest =>
    simp only [scanAfterLoopW, scanAfterLoop]
    have h := scanExponentW_fst rest (if v.r.sawdot then v else { v with dp := v.nd }) w
    revert h
    cases scanExponentW rest (if v.r.sawdot then v else { v with dp := v.nd }) w with
    | mk f2 w2 =>
      intro h
      simp only at h
      rw [← h]
      cases f2 <;> rfl

/-- The record changes nothing: the first component of `readFloatW` is `readFloat`. -/
theorem readFloatW_fst (s : List Nat) (y : floatinfo) : (readFloatW s y).1 = readFloat s y := by
  cases s with
  | nil => rfl
  | cons c0 cs =>
    rw [readFloat_eq_scan _ y (by simp)]
    unfold readFloatW
    rw [scanAfterLoopW_fst, scanLoopW_fst]
    congr 1
    unfold tokenBody scanStart
    by_cases hc : c0 = chMinus
    · subst hc; simp
    · simp [hc]

theorem wraps8_id (x : Int) (h1 : -128 ≤ x) (h2 : x ≤ 127) : wraps8 x = false := by
  simp [wraps8, wrap8_id x h1 h2]

/-- One step of the recording mantissa loop on a digit. -/
theorem scanLoopW_cons_digit (u : Bool) (m : Nat) (c : Nat) (cs : List Nat) (v : scanVars)
    (w : Bool) (hc : ch0 ≤ c ∧ c ≤ ch9) :
    scanLoopW u m (c :: cs) v w =
      if c = ch0 then
        if v.nd = 0 then scanLoopW u m cs { v with dp := wrap8 (v.dp - 1) }
          (w || wraps8 (v.dp - 1))
        else if v.r.mantissa < m then
          scanLoopW u m cs
            { v with nd := wrap8 (v.nd + 1),
                     r := { v.r with mantissa := v.r.mantissa * fBase % uint64Size },
                     ndMant := wrap8 (v.ndMant + 1) }
            (w || wraps8 (v.nd + 1) || wraps8 (v.ndMant + 1))
        else scanLoopW u m cs { v with nd := wrap8 (v.nd + 1) } (w || wraps8 (v.nd + 1))
      else if u = true ∧ v.r.mantissa < fUint64Cutoff then
        if (v.r.mantissa * fBase % uint64Size + (c - ch0)) % uint64Size <
            v.r.mantissa * fBase % uint64Size then
          (.ret { v.r with mantissa := v.r.mantissa * fBase % uint64Size, trunc := true },
            w || wraps8 (v.nd + 1))
        else scanLoopW u m cs
          { v with nd := wrap8 (v.nd + 1),
                   r := { v.r with
                     mantissa := (v.r.mantissa * fBase % uint64Size + (c - ch0)) % uint64Size },
                   ndMant := wrap8 (v.ndMant + 1) }
          (w || wraps8 (v.nd + 1) || wraps8 (v.ndMant + 1))
      else if v.r.mantissa < m then
        scanLoopW u m cs
          { v with nd := wrap8 (v.nd + 1),
                   r := { v.r with
                     mantissa := (v.r.mantissa * fBase % uint64Size + (c - ch0)) % uint64Size },
                   ndMant := wrap8 (v.ndMant + 1) }
          (w || wraps8 (v.nd + 1) || wraps8 (v.ndMant + 1))
      else (.ret { v.r with trunc := true }, w || wraps8 (v.nd + 1)) := by
  have h := digit_ne c hc
  have hm : ¬ (c = chLowerE ∨ c = chUpperE) := by
    intro h'; rcases h' with h' | h'
    · exact h.2.1 h'
    · exact h.2.2.1 h'
  rw [scanLoopW]
  rw [if_neg h.1, if_neg hm]
  by_cases h0 : c = ch0
  · rw [if_pos h0, if_pos h0]
  · have h19 : c ≥ ch1 ∧ c ≤ ch9 := by
      simp only [ch0, ch1, ch9] at *
      omega
    rw [if_neg h0, if_pos h19, if_neg h0]

theorem scanDigits_same (v : scanVars) (h : v.ndMant = v.nd) : scanDigits v = v.r.mantissa := by
  simp [scanDigits, h]

theorem toNat_succ_sub (a b : Int) (h : b ≤ a) : (a + 1 - b).toNat = (a - b).toNat + 1 := by
  omega

/-- A run of digits within the bounds of the counters: the scan stops without `ok`, or it
goes on with the digits read exactly and no counter wrapped. -/
theorem scanLoopW_digits (u : Bool) (m : Nat) (hum : cutoffSafe u m) (ds rest : List Nat)
    (v : scanVars) (w : Bool) (hd : allDigits ds) (hinv : scanInv m v)
    (hnd : v.nd + ds.length ≤ 127) (hdp : -128 ≤ v.dp - ds.length) (hdp2 : v.dp ≤ 127) :
    (∃ r, scanLoopW u m (ds ++ rest) v w = (.ret r, w) ∧ r.ok = v.r.ok) ∨
    (∃ v', scanLoopW u m (ds ++ rest) v w = scanLoopW u m rest v' w ∧ scanInv m v' ∧
      scanDigits v' = decFrom (scanDigits v) ds ∧
      v'.nd - v'.dp = v.nd - v.dp + ds.length ∧ v.nd ≤ v'.nd ∧ v'.nd ≤ v.nd + ds.length ∧
      v'.r.neg = v.r.neg ∧ v'.r.sawdot = v.r.sawdot ∧ v'.r.sawexp = v.r.sawexp ∧
      v'.r.ok = v.r.ok ∧ v'.r.exp = v.r.exp) := by
  induction ds generalizing v with
  | nil =>
    right
    exact ⟨v, rfl, hinv, rfl, by simp, le_refl _, by simp, rfl, rfl, rfl, rfl, rfl⟩
  | cons c cs ih =>
    have hc := hd c (List.mem_cons_self _ _)
    have hcs : allDigits cs := fun x hx => hd x (List.mem_cons_of_mem _ hx)
    have hlen : ((c :: cs).length : Int) = (cs.length : Int) + 1 := by simp
    rw [hlen] at hnd hdp
    obtain ⟨hi1, hi2, hi3, hi4⟩ := hinv
    have hcut : fUint64Cutoff = 1844674407370955162 := by norm_num [fUint64Cutoff]
    have hsz : uint64Size = 18446744073709551616 := rfl
    have step : ∀ v1 : scanVars, scanInv m v1 →
        scanDigits v1 = 10 * scanDigits v + (c - ch0) →
        v1.nd - v1.dp = v.nd - v.dp + 1 → v.nd ≤ v1.nd → v1.nd ≤ v.nd + 1 → v1.dp ≤ v.dp →
        v1.r.neg = v.r.neg → v1.r.sawdot = v.r.sawdot → v1.r.sawexp = v.r.sawexp →
        v1.r.ok = v.r.ok → v1.r.exp = v.r.exp →
        ((∃ r, scanLoopW u m (cs ++ rest) v1 w = (.ret r, w) ∧ r.ok = v.r.ok) ∨
        (∃ v', scanLoopW u m (cs ++ rest) v1 w = scanLoopW u m rest v' w ∧ scanInv m v' ∧
          scanDigits v' = decFrom (scanDigits v) (c :: cs) ∧
          v'.nd - v'.dp = v.nd - v.dp + (c :: cs).length ∧ v.nd ≤ v'.nd ∧
          v'.nd ≤ v.nd + (c :: cs).length ∧
          v'.r.neg = v.r.neg ∧ v'.r.sawdot = v.r.sawdot ∧ v'.r.sawexp = v.r.sawexp ∧
          v'.r.ok = v.r.ok ∧ v'.r.exp = v.r.exp)) := by
      intro v1 hinv1 hN hnddp hnd1 hnd2 hdp1 hneg hsd hse hok hexp
      rcases ih v1 hcs hinv1 (by omega) (by omega) (by omega) with
        ⟨r, hr, hrok⟩ | ⟨v', hv', hinv', hN', hd', hn1', hn2', hneg', hsd', hse', hok', hexp'⟩
      · left; exact ⟨r, hr, hrok.trans hok⟩
      · right
        refine ⟨v', hv', hinv', ?_, ?_, by omega, ?_, hneg'.trans hneg, hsd'.trans hsd,
          hse'.trans hse, hok'.trans hok, hexp'.trans hexp⟩
        · rw [hN', hN]; rfl
        · rw [hlen]; omega
        · rw [hlen]; omega
    have hwnd : wraps8 (v.nd + 1) = false := wraps8_id _ (by omega) (by omega)
    have hwndM : wraps8 (v.ndMant + 1) = false := wraps8_id _ (by omega) (by omega)
    have hwdp : wraps8 (v.dp - 1) = false := wraps8_id _ (by omega) (by omega)
    have hnd8 : wrap8 (v.nd + 1) = v.nd + 1 := wrap8_id _ (by omega) (by omega)
    have hndM8 : wrap8 (v.ndMant + 1) = v.ndMant + 1 := wrap8_id _ (by omega) (by omega)
    have hdp8 : wrap8 (v.dp - 1) = v.dp - 1 := wrap8_id _ (by omega) (by omega)
    rw [List.cons_append, scanLoopW_cons_digit u m c _ v w hc]
    simp only [hwnd, hwndM, hwdp, hnd8, hndM8, hdp8, Bool.or_false, fBase]
    by_cases h0 : c = ch0
    · rw [if_pos h0]
      by_cases hz : v.nd = 0
      · rw [if_pos hz]
        refine step _ ⟨hi1, hi2, hi3, hi4⟩ ?_ (by first | omega | (simp only; omega)) (le_refl _) (by first | omega | (simp only; omega))
          (by first | omega | (simp only; omega)) rfl rfl rfl rfl rfl
        simp only [scanDigits, hi3 hz, h0]
        simp
      · rw [if_neg hz]
        by_cases hlt : v.r.mantissa < m
        · rw [if_pos hlt]
          have hmul : v.r.mantissa * 10 % uint64Size = v.r.mantissa * 10 := by
            apply Nat.mod_eq_of_lt
            rcases Bool.eq_false_or_eq_true u with hu | hu
            · have := hum.1 hu
              omega
            · have := hum.2 hu
              omega
          rw [hmul]
          refine step _ ⟨by first | omega | (simp only; omega), by first | omega | (simp only; omega), by first | omega | (simp only; omega),
            by first | omega | (simp only; omega)⟩ ?_ (by first | omega | (simp only; omega)) (by first | omega | (simp only; omega))
            (by first | omega | (simp only; omega)) (le_refl _) rfl rfl rfl rfl rfl
          simp only [scanDigits, h0]
          have : v.nd + 1 - (v.ndMant + 1) = v.nd - v.ndMant := by omega
          rw [this]
          simp only [Nat.sub_self, Nat.add_zero]
          ring
        · rw [if_neg hlt]
          refine step _ ⟨hi1, by first | omega | (simp only; omega), by first | omega | (simp only; omega),
            fun _ => Nat.le_of_not_lt hlt⟩ ?_ (by first | omega | (simp only; omega)) (by first | omega | (simp only; omega))
            (by first | omega | (simp only; omega)) (le_refl _) rfl rfl rfl rfl rfl
          simp only [scanDigits, h0]
          rw [toNat_succ_sub _ _ hi2, pow_succ]
          simp only [Nat.sub_self, Nat.add_zero]
          ring
    · rw [if_neg h0]
      have hcd : 1 ≤ c - ch0 ∧ c - ch0 ≤ 9 := by
        simp only [ch0, ch9] at *
        omega
      by_cases hu1 : u = true ∧ v.r.mantissa < fUint64Cutoff
      · rw [if_pos hu1]
        have hmul : v.r.mantissa * 10 % uint64Size = v.r.mantissa * 10 := by
          apply Nat.mod_eq_of_lt
          omega
        rw [hmul]
        by_cases hov : (v.r.mantissa * 10 + (c - ch0)) % uint64Size < v.r.mantissa * 10
        · rw [if_pos hov]
          left
          exact ⟨_, rfl, rfl⟩
        · rw [if_neg hov]
          have hadd : (v.r.mantissa * 10 + (c - ch0)) % uint64Size =
              v.r.mantissa * 10 + (c - ch0) := by
            apply Nat.mod_eq_of_lt
            by_contra hge
            apply hov
            rw [hsz] at hge ⊢
            omega
          rw [hadd]
          have hsame : v.ndMant = v.nd := by
            by_contra hne
            have := hi4 (by omega)
            have := hum.1 hu1.1
            omega
          refine step _ ⟨by first | omega | (simp only; omega), by first | omega | (simp only; omega), by first | omega | (simp only; omega),
            by first | omega | (simp only; omega)⟩ ?_ (by first | omega | (simp only; omega)) (by first | omega | (simp only; omega))
            (by first | omega | (simp only; omega)) (le_refl _) rfl rfl rfl rfl rfl
          rw [scanDigits_same _ (by first | omega | (simp only; omega)), scanDigits_same v hsame]
          simp only
          ring
      · rw [if_neg hu1]
        by_cases hlt : v.r.mantissa < m
        · rw [if_pos hlt]
          have hu : u = false := by
            rcases Bool.eq_false_or_eq_true u with hu | hu
            · exfalso
              apply hu1
              refine ⟨hu, ?_⟩
              rw [← hum.1 hu]
              exact hlt
            · exact hu
          have hm10 := hum.2 hu
          have hmul : v.r.mantissa * 10 % uint64Size = v.r.mantissa * 10 := by
            apply Nat.mod_eq_of_lt
            omega
          rw [hmul]
          have hadd : (v.r.mantissa * 10 + (c - ch0)) % uint64Size =
              v.r.mantissa * 10 + (c - ch0) := by
            apply Nat.mod_eq_of_lt
            omega
          rw [hadd]
          have hsame : v.ndMant = v.nd := by
            by_contra hne
            have := hi4 (by omega)
            omega
          refine step _ ⟨by first | omega | (simp only; omega), by first | omega | (simp only; omega), by first | omega | (simp only; omega),
            by first | omega | (simp only; omega)⟩ ?_ (by first | omega | (simp only; omega)) (by first | omega | (simp only; omega))
            (by first | omega | (simp only; omega)) (le_refl _) rfl rfl rfl rfl rfl
          rw [scanDigits_same _ (by first | omega | (simp only; omega)), scanDigits_same v hsame]
          simp only
          ring
        · rw [if_neg hlt]
          left
          exact ⟨_, rfl, rfl⟩

/-- The recording scan of a literal starts its mantissa loop on the bytes after the sign. -/
theorem readFloatW_literal (L : Literal) (hwf : L.wf) (y : floatinfo) :
    readFloatW L.bytes y = scanAfterLoopW y
      (scanLoopW (mantCutoffIsUint64CutoffOf y) (mantCutoffOf y)
        (L.intDigits ++ (L.fracBytes ++ L.expBytes))
        ⟨{ readFloatResult.zero with neg := L.neg }, 0, 0, 0⟩ false) := by
  obtain ⟨⟨hint, hne⟩, _, _⟩ := hwf
  obtain ⟨d, ds, hds⟩ := List.exists_cons_of_ne_nil hne
  have hd : d ≠ chMinus := by
    have h := hint d (by rw [hds]; exact List.mem_cons_self _ _)
    exact (digit_ne d h).2.2.2.1
  rw [L.bytes_eq]
  cases hn : L.neg with
  | true =>
    simp only [if_true, List.singleton_append]
    simp [readFloatW]
  | false =>
    simp only [Bool.false_eq_true, if_false, List.nil_append]
    rw [hds]
    simp [readFloatW, hd, readFloatResult.zero]

theorem decVal_le_99 (ds : List Nat) (hd : allDigits ds) (h2 : ds.length ≤ 2) :
    decVal ds ≤ 99 := by
  match ds, h2 with
  | [], _ => simp [decVal, decFrom]
  | [d1], _ =>
    have := hd d1 (by simp)
    simp only [decVal, decFrom, List.foldl_cons, List.foldl_nil, ch0, ch9] at *
    omega
  | [d1, d2], _ =>
    have h1 := hd d1 (by simp)
    have h2 := hd d2 (by simp)
    simp only [decVal, decFrom, List.foldl_cons, List.foldl_nil, ch0, ch9] at *
    omega

/-- The exponent part of a literal under the record: both digits are read, `dp` moves by
the written exponent, and nothing wraps while `dp` is within 28 of zero. -/
theorem scanExponentW_wf (e : ExpPart) (he : e.wf) (v : scanVars) (w : Bool)
    (hs : v.r.sawexp = true) (h1 : -28 ≤ v.dp) (h2 : v.dp ≤ 28) :
    scanExponentW e.bytes v w =
      (.next { v with dp := if e.sign = some true then wrap8 (v.dp - (decVal e.digits : Int))
                            else wrap8 (v.dp + (decVal e.digits : Int)) } [], w) := by
  have hfst := scanExponentW_fst e.bytes v w
  rw [scanExponent_wf e he v hs] at hfst
  have h99 := decVal_le_99 e.digits he.2.1 he.2.2.2
  obtain ⟨mk, sign, digits⟩ := e
  obtain ⟨_, hd, hl1, hl2⟩ := he
  simp only at hd hl1 hl2 h99 hfst
  refine Prod.ext hfst ?_
  have hshape : (∃ d1, digits = [d1]) ∨ (∃ d1 d2, digits = [d1, d2]) := by
    match digits, hl1, hl2 with
    | [d1], _, _ => exact Or.inl ⟨d1, rfl⟩
    | [d1, d2], _, _ => exact Or.inr ⟨d1, d2, rfl⟩
  have key : ∀ (eneg : Bool), (scanExponentW (mk :: ((if eneg then [chMinus] else
      if sign = none then [] else [chPlus]) ++ digits)) v w).2 = w := by
    intro eneg
    unfold scanExponentW
    rw [if_pos hs]
    rcases hshape with ⟨d1, rfl⟩ | ⟨d1, d2, rfl⟩
    · have hd1 := hd d1 (by simp)
      have hn1 := digit_ne d1 hd1
      have hw1 := wrap8_digit d1 hd1
      have hnot : ¬ (d1 < ch0 ∨ d1 > ch9) := by omega
      have hv : ((d1 - ch0 : Nat) : Int) ≤ 99 := by
        simp only [decVal, decFrom, List.foldl_cons, List.foldl_nil] at h99
        omega
      have hq1 : wraps8 ((d1 - ch0 : Nat) : Int) = false := by
        simp [wraps8, hw1]
      have hq2 : wraps8 (v.dp - ((d1 - ch0 : Nat) : Int)) = false :=
        wraps8_id _ (by omega) (by omega)
      have hq3 : wraps8 (v.dp + ((d1 - ch0 : Nat) : Int)) = false :=
        wraps8_id _ (by omega) (by omega)
      cases eneg
      · by_cases hsg : sign = none
        · simp [hsg, expSign, hn1.2.2.2.1, hn1.2.2.2.2, hnot, hw1, hq1, hq2, hq3]
        · simp [hsg, expSign, chPlus, chMinus, hnot, hw1, hq1, hq2, hq3]
      · simp [expSign, chPlus, chMinus, hnot, hw1, hq1, hq2, hq3]
    · have hd1 := hd d1 (by simp)
      have hd2 := hd d2 (by simp)
      have hn1 := digit_ne d1 hd1
      have hw1 := wrap8_digit d1 hd1
      have hw2 := wrap8_digit d2 hd2
      have hnot1 : ¬ (d1 < ch0 ∨ d1 > ch9) := by omega
      have hnot2 : ¬ (d2 < ch0 ∨ d2 > ch9) := by omega
      have hq1 : wraps8 ((d1 - ch0 : Nat) : Int) = false := by
        simp [wraps8, hw1]
      have hq2 : wraps8 ((d2 - ch0 : Nat) : Int) = false := by
        simp [wraps8, hw2]
      have hr1 : (0 : Int) ≤ ((d1 - ch0 : Nat) : Int) ∧ ((d1 - ch0 : Nat) : Int) ≤ 9 := by
        simp only [ch0, ch9] at hd1 ⊢
        omega
      have hr2 : (0 : Int) ≤ ((d2 - ch0 : Nat) : Int) ∧ ((d2 - ch0 : Nat) : Int) ≤ 9 := by
        simp only [ch0, ch9] at hd2 ⊢
        omega
      have hw3 : wrap8 (((d1 - ch0 : Nat) : Int) * 10) = ((d1 - ch0 : Nat) : Int) * 10 :=
        wrap8_id _ (by omega) (by omega)
      have hq3 : wraps8 (((d1 - ch0 : Nat) : Int) * 10) = false :=
        wraps8_id _ (by omega) (by omega)
      have hw4 : wrap8 (((d1 - ch0 : Nat) : Int) * 10 + ((d2 - ch0 : Nat) : Int)) =
          ((d1 - ch0 : Nat) : Int) * 10 + ((d2 - ch0 : Nat) : Int) :=
        wrap8_id _ (by omega) (by omega)
      have hq4 : wraps8 (((d1 - ch0 : Nat) : Int) * 10 + ((d2 - ch0 : Nat) : Int)) = false :=
        wraps8_id _ (by omega) (by omega)
      have hq5 : wraps8 (v.dp - (((d1 - ch0 : Nat) : Int) * 10 + ((d2 - ch0 : Nat) : Int))) =
          false := wraps8_id _ (by omega) (by omega)
      have hq6 : wraps8 (v.dp + (((d1 - ch0 : Nat) : Int) * 10 + ((d2 - ch0 : Nat) : Int))) =
          false := wraps8_id _ (by omega) (by omega)
      cases eneg
      · by_cases hsg : sign = none
        · simp [hsg, expSign, hn1.2.2.2.1, hn1.2.2.2.2, hnot1, hnot2, hw1, hw2, hw3, hw4,
            hq1, hq2, hq3, hq4, hq5, hq6]
        · simp [hsg, expSign, chPlus, chMinus, hnot1, hnot2, hw1, hw2, hw3, hw4,
            hq1, hq2, hq3, hq4, hq5, hq6]
      · simp [expSign, chPlus, chMinus, hnot1, hnot2, hw1, hw2, hw3, hw4,
          hq1, hq2, hq3, hq4, hq5, hq6]
  cases sign with
  | none => simpa [ExpPart.bytes] using key false
  | some b =>
    cases b
    · simpa [ExpPart.bytes] using key false
    · simpa [ExpPart.bytes] using key true

/-- The recording scan of the exponent bytes of a literal, from the end of its mantissa. -/
theorem scanLoopW_expBytes (u : Bool) (m : Nat) (L : Literal) (hwf : L.wf) (y : floatinfo)
    (v : scanVars) (w : Bool) (hse : v.r.sawexp = false)
    (h1 : -28 ≤ (if v.r.sawdot then v.dp else v.nd))
    (h2 : (if v.r.sawdot then v.dp else v.nd) ≤ 28) :
    scanAfterLoopW y (scanLoopW u m L.expBytes v w) = scanFinishW y (afterExponent L v) w := by
  obtain ⟨_, _, hexp⟩ := hwf
  unfold afterExponent
  cases he : L.exponent with
  | none =>
    have hse' : ¬ ((if v.r.sawdot = true then v else { v with dp := v.nd }).r.sawexp = true) := by
      split_ifs <;> simp [hse]
    simp only [Literal.expBytes, he, scanLoopW, scanAfterLoopW, scanExponentW, if_neg hse']
    congr 1
    by_cases hsd : v.r.sawdot = true <;> simp [hsd]
  | some e =>
    have hwe := hexp e he
    obtain ⟨mk, t, hb⟩ : ∃ mk t, e.bytes = mk :: t := ⟨_, _, rfl⟩
    have hmk : mk = chLowerE ∨ mk = chUpperE := by
      have : mk = e.marker := by
        simp only [ExpPart.bytes, List.cons.injEq] at hb
        exact hb.1.symm
      rw [this]; exact hwe.1
    have hnd : mk ≠ chDot := by
      rcases hmk with h | h <;> rw [h] <;> decide
    simp only [Literal.expBytes, he]
    rw [hb, scanLoopW, if_neg hnd, if_pos hmk, ← hb]
    simp only [scanAfterLoopW]
    have hv : (if v.r.sawdot = true then { v with r := { v.r with sawexp := true } }
        else { v with r := { v.r with sawexp := true }, dp := v.nd }) =
        { v with r := { v.r with sawexp := true }, dp := if v.r.sawdot then v.dp else v.nd } := by
      by_cases hsd : v.r.sawdot = true <;> simp [hsd]
    rw [hv, scanExponentW_wf e hwe _ w rfl h1 h2]

/-- The mantissa part of a literal with at most 28 digits: the scan stops without `ok`, or
it reaches the exponent with the digits read exactly and no counter wrapped. -/
theorem scanLoopW_mantissa (u : Bool) (m : Nat) (hum : cutoffSafe u m) (L : Literal)
    (hwf : L.wf) (rest : List Nat)
    (hlen : L.intDigits.length + (L.fracDigits.getD []).length ≤ 28) :
    (∃ r, scanLoopW u m (L.intDigits ++ (L.fracBytes ++ rest))
        ⟨{ readFloatResult.zero with neg := L.neg }, 0, 0, 0⟩ false = (.ret r, false) ∧
      r.ok = false) ∨
    (∃ v, scanLoopW u m (L.intDigits ++ (L.fracBytes ++ rest))
        ⟨{ readFloatResult.zero with neg := L.neg }, 0, 0, 0⟩ false =
          scanLoopW u m rest v false ∧ scanInv m v ∧
      scanDigits v = decVal (L.intDigits ++ L.fracDigits.getD []) ∧
      (if v.r.sawdot then v.dp else v.nd) = v.nd - ((L.fracDigits.getD []).length : Int) ∧
      v.nd ≤ (L.intDigits.length : Int) + ((L.fracDigits.getD []).length : Int) ∧
      v.r.neg = L.neg ∧ v.r.sawexp = false ∧ v.r.ok = false ∧ v.r.exp = 0) := by
  have hint := hwf.1.1
  have hfrac := hwf.2.1
  have hinv0 : scanInv m ⟨{ readFloatResult.zero with neg := L.neg }, 0, 0, 0⟩ :=
    ⟨le_refl _, le_refl _, fun _ => rfl, fun h => absurd h (lt_irrefl (0 : Int))⟩
  rcases scanLoopW_digits u m hum L.intDigits (L.fracBytes ++ rest)
    ⟨{ readFloatResult.zero with neg := L.neg }, 0, 0, 0⟩ false hint hinv0
    (by simp only; omega) (by simp only; omega) (by simp only; omega) with
    ⟨r, hr, hrok⟩ | ⟨v1, hv1, hinv1, hN1, hd1, hn1, hn1', hneg1, hsd1, hse1, hok1, hexp1⟩
  · left
    exact ⟨r, hr, hrok⟩
  · simp only at hd1 hn1 hn1' hneg1 hsd1 hse1 hok1 hexp1
    have hN0 : scanDigits ⟨{ readFloatResult.zero with neg := L.neg }, 0, 0, 0⟩ = 0 := by
      simp [scanDigits, readFloatResult.zero]
    rw [hN0] at hN1
    cases hf : L.fracDigits with
    | none =>
      right
      rw [hf] at hlen
      simp only [Option.getD_none, List.length_nil, List.append_nil, Nat.cast_zero] at hlen ⊢
      refine ⟨v1, ?_, hinv1, hN1, ?_, by omega, hneg1, hse1, hok1, hexp1⟩
      · rw [hv1]
        simp [Literal.fracBytes, hf]
      · rw [hsd1]
        simp [readFloatResult.zero]
    | some f =>
      have hfd := (hfrac f hf).1
      rw [hf] at hlen
      simp only [Option.getD_some] at hlen ⊢
      have hsd : ¬ (v1.r.sawdot = true) := by rw [hsd1]; simp [readFloatResult.zero]
      have hstep : scanLoopW u m (L.intDigits ++ (L.fracBytes ++ rest))
          ⟨{ readFloatResult.zero with neg := L.neg }, 0, 0, 0⟩ false =
          scanLoopW u m (f ++ rest)
            { v1 with r := { v1.r with sawdot := true }, dp := v1.nd } false := by
        rw [hv1]
        simp only [Literal.fracBytes, hf, List.cons_append]
        rw [scanLoopW, if_pos rfl, if_neg hsd]
      rcases scanLoopW_digits u m hum f rest
        { v1 with r := { v1.r with sawdot := true }, dp := v1.nd } false hfd hinv1
        (by simp only; omega) (by simp only; omega) (by simp only; omega) with
        ⟨r, hr, hrok⟩ | ⟨v2, hv2, hinv2, hN2, hd2, hn2, hn2', hneg2, hsd2, hse2, hok2, hexp2⟩
      · left
        exact ⟨r, hstep.trans hr, hrok.trans hok1⟩
      · right
        simp only at hd2 hn2 hn2' hneg2 hsd2 hse2 hok2 hexp2
        refine ⟨v2, hstep.trans hv2, hinv2, ?_, ?_, by omega, hneg2.trans hneg1,
          hse2.trans hse1, hok2.trans hok1, hexp2.trans hexp1⟩
        · rw [hN2, decVal, decFrom_append]
          congr 1
        · rw [hsd2]
          simp only [if_true]
          omega

theorem cutoffSafe_profile (y : floatinfo)
    (hy : y = fi32 ∨ y = fi64 ∨ y = fi64u ∨ y = fi64i) :
    cutoffSafe (mantCutoffIsUint64CutoffOf y) (mantCutoffOf y) := by
  rcases hy with rfl | rfl | rfl | rfl <;>
    (constructor <;> decide)

theorem scale_eq (M j F : Nat) (EV e : Int) (he : e = (j : Int) - F + EV) :
    (M : ℚ) * (10 : ℚ) ^ e = ((M * 10 ^ j : Nat) : ℚ) / (10 : ℚ) ^ F * (10 : ℚ) ^ EV := by
  subst he
  rw [zpow_add₀ (by norm_num), zpow_sub₀ (by norm_num), zpow_natCast, zpow_natCast]
  push_cast
  field_simp
  ring

theorem Literal.bytes_length (L : Literal) :
    L.bytes.length = (if L.neg then 1 else 0) +
      (L.intDigits.length + (L.fracBytes.length + L.expBytes.length)) := by
  rw [L.bytes_eq]
  cases L.neg
  · simp
  · simp; omega

theorem Literal.fracBytes_length (L : Literal) :
    (L.fracDigits.getD []).length ≤ L.fracBytes.length := by
  unfold Literal.fracBytes
  cases L.fracDigits <;> simp

/-- The exponent moves `dp` by the written exponent of at most 99 when the digits of the
literal leave room for it. -/
theorem afterExponent_dp (L : Literal) (hwf : L.wf) (v : scanVars)
    (h1 : -28 ≤ (if v.r.sawdot then v.dp else v.nd))
    (h2 : (if v.r.sawdot then v.dp else v.nd) ≤ 28) :
    (afterExponent L v).dp = (if v.r.sawdot then v.dp else v.nd) + L.expValue ∧
    (afterExponent L v).nd = v.nd ∧ (afterExponent L v).ndMant = v.ndMant ∧
    (afterExponent L v).r.mantissa = v.r.mantissa ∧ (afterExponent L v).r.neg = v.r.neg ∧
    (afterExponent L v).r.ok = v.r.ok ∧ (afterExponent L v).r.exp = v.r.exp ∧
    -99 ≤ L.expValue ∧ L.expValue ≤ 99 := by
  unfold afterExponent Literal.expValue
  cases he : L.exponent with
  | none => simp
  | some e =>
    have hwe := hwf.2.2 e he
    have h99 := decVal_le_99 e.digits hwe.2.1 hwe.2.2.2
    by_cases hs : e.sign = some true
    · simp only [hs, if_true]
      and_intros <;> first
        | trivial
        | omega
        | (rw [wrap8_id _ (by omega) (by omega)]; omega)
    · simp only [hs, if_false]
      and_intros <;> first
        | trivial
        | omega
        | (rw [wrap8_id _ (by omega) (by omega)])

/-- The scan of a literal of at most 28 bytes under a safe cutoff: no counter wraps, and an
`ok` result stands for the exact value of the literal. -/
theorem readFloatW_exact (L : Literal) (hwf : L.wf) (hlen : L.bytes.length ≤ 28)
    (y : floatinfo) (hum : cutoffSafe (mantCutoffIsUint64CutoffOf y) (mantCutoffOf y)) :
    (readFloatW L.bytes y).2 = false ∧
    ((readFloatW L.bytes y).1.ok = true → scanValue (readFloatW L.bytes y).1 = L.value) := by
  have hbl := L.bytes_length
  have hfl := L.fracBytes_length
  have hneg01 : (if L.neg = true then 1 else 0) ≥ 0 := Nat.zero_le _
  rw [readFloatW_literal L hwf y]
  rcases scanLoopW_mantissa _ _ hum L hwf L.expBytes (by omega) with
    ⟨r, hr, hrok⟩ | ⟨v, hv, hinv, hN, hdp, hnd, hneg, hse, hok, hexp⟩
  · rw [hr]
    simp only [scanAfterLoopW]
    refine ⟨trivial, fun h => ?_⟩
    rw [hrok] at h
    exact absurd h (by decide)
  · obtain ⟨hi1, hi2, hi3, hi4⟩ := hinv
    have h1 : -28 ≤ (if v.r.sawdot then v.dp else v.nd) := by rw [hdp]; omega
    have h2 : (if v.r.sawdot then v.dp else v.nd) ≤ 28 := by rw [hdp]; omega
    rw [hv, scanLoopW_expBytes _ _ L hwf y v false hse h1 h2]
    obtain ⟨hd3, hnd3, hndM3, hm3, hneg3, hok3, hexp3, hev1, hev2⟩ :=
      afterExponent_dp L hwf v h1 h2
    rw [hdp] at hd3
    generalize afterExponent L v = v3 at *
    have hw : wrap8 (v3.dp - v3.ndMant) = v3.dp - v3.ndMant :=
      wrap8_id _ (by omega) (by omega)
    have hj : ((v.nd - v.ndMant).toNat : Int) = v.nd - v.ndMant := Int.toNat_of_nonneg (by omega)
    simp only [scanFinishW]
    constructor
    · rw [wraps8_id _ (by omega) (by omega)]
      simp
    · intro hok'
      unfold scanFinish at hok' ⊢
      by_cases hm : v3.r.mantissa ≠ 0
      · rw [if_pos hm] at hok' ⊢
        dsimp only at hok' ⊢
        split_ifs at hok' ⊢ with hc
        · rw [hok3, hok] at hok'
          exact absurd hok' (by decide)
        · unfold scanValue Literal.value
          simp only
          rw [hw, hneg3, hneg, mul_assoc, mul_assoc, hm3,
            scale_eq v.r.mantissa (v.nd - v.ndMant).toNat (L.fracDigits.getD []).length
              L.expValue (v3.dp - v3.ndMant) (by omega)]
          unfold scanDigits at hN
          rw [hN]
      · have hm0 : v.r.mantissa = 0 := by
          rw [← hm3]
          exact not_not.mp hm
        rw [if_neg hm]
        unfold scanValue Literal.value
        simp only
        unfold scanDigits at hN
        rw [hm0, Nat.zero_mul] at hN
        rw [← hN, not_not.mp hm]
        simp

theorem sampleLiteral_wf : sampleLiteral.wf := by
  refine ⟨⟨by decide, by decide⟩, ?_, ?_⟩
  · intro f hf
    simp only [sampleLiteral, Option.some.injEq] at hf
    subst hf
    exact ⟨by decide, by decide⟩
  · intro e he
    simp only [sampleLiteral, Option.some.injEq] at he
    subst he
    exact ⟨Or.inl rfl, by decide, by decide, by decide⟩

theorem longLiteral_wf : longLiteral.wf := by
  refine ⟨⟨by decide, by decide⟩, ?_, ?_⟩
  · intro f hf
    simp [longLiteral] at hf
  · intro e he
    simp [longLiteral] at he

/-! ## The claims -/

/-- C1, where the code departs from the claim. The token `0.` followed by 256 zeros and a
`5` matches the input grammar and denotes `5 / 10^257`, yet `readFloat` under `fi64`
accepts it (`ok = true`) with mantissa `5` and exponent `-1`, which stands for `1/2`: the
`int8` counter `dp` has wrapped around after 256 decrements. `parseFloat64_custom` then
returns `float64(5) / 1e1` with no error, whatever the floating-point arithmetic is. -/
theorem readFloat_misreads_long_fraction :
    matchesGrammar (smallLiteral 256).bytes ∧
    (smallLiteral 256).value = 5 / (10 : ℚ) ^ 257 ∧
    readFloat (smallLiteral 256).bytes fi64 = ⟨5, -1, false, true, false, false, false, true⟩ ∧
    scanValue (readFloat (smallLiteral 256).bytes fi64) = 1 / 2 ∧
    scanValue (readFloat (smallLiteral 256).bytes fi64) ≠ (smallLiteral 256).value ∧
    ∀ E : FloatOps, parseFloat64_custom E (smallLiteral 256).bytes =
      some (E.div (E.ofUint64 5) (E.pow10 1), none) := by
  have hr : readFloat (smallLiteral 256).bytes fi64 =
      ⟨5, -1, false, true, false, false, false, true⟩ := by
    rw [readFloat_smallLiteral]
    decide
  have hv : (smallLiteral 256).value = 5 / (10 : ℚ) ^ 257 := by
    rw [smallLiteral_value]
  have hs : scanValue (readFloat (smallLiteral 256).bytes fi64) = 1 / 2 := by
    rw [hr]
    norm_num [scanValue]
  refine ⟨⟨smallLiteral 256, smallLiteral_wf 256, rfl⟩, hv, hr, hs, ?_, ?_⟩
  · rw [hs, hv]
    norm_num
  · intro E
    have h1 : (float64pow10 E)[negUint8 (toUint8 (-1))]? = some (E.pow10 1) :=
      float64pow10_get E 1 (by decide)
    simp [parseFloat64_custom, hr, parseFloat64_reader, h1]

/-- C2. For every non-empty byte sequence `b`, `parseUint64_simple b` is `ok` exactly when
every byte is an ASCII digit and the decimal value of `b` is at most `2^64 - 1`, and then
`n` is that value: no wrapped value is returned as `ok` and no value that fits is
rejected. -/
theorem parseUint64_simple_exact (b : List Nat) (_hb : b ≠ []) :
    ((parseUint64_simple b).2 = true ↔ (allDigits b ∧ decVal b ≤ 2 ^ 64 - 1)) ∧
    ((parseUint64_simple b).2 = true → (parseUint64_simple b).1 = decVal b) := by
  have h := parseUint64_simple_spec b
  have hle : decVal b ≤ 2 ^ 64 - 1 ↔ decVal b < uint64Size := by
    simp only [uint64Size]
    norm_num
    omega
  rw [hle]
  exact h

/-- C2 at the largest and the first rejected value: `"18446744073709551615"` is accepted
with `n = 2^64 - 1`, and `"18446744073709551616"` is not accepted. -/
theorem parseUint64_simple_exact_witness :
    bytes "18446744073709551615" ≠ [] ∧
    (parseUint64_simple (bytes "18446744073709551615")).2 = true ∧
    (parseUint64_simple (bytes "18446744073709551615")).1 = 18446744073709551615 ∧
    ¬ ((parseUint64_simple (bytes "18446744073709551616")).2 = true) := by
  have h := parseUint64_simple_exact (bytes "18446744073709551615") (by decide)
  have h2 := parseUint64_simple_exact (bytes "18446744073709551616") (by decide)
  have hok := h.1.mpr ⟨by decide, by decide⟩
  refine ⟨by decide, hok, ?_, ?_⟩
  · rw [h.2 hok]; decide
  · intro hc
    exact absurd (h2.1.mp hc).2 (by decide)

/-- C3 as stated fails: on the empty byte sequence `parseUint64_simple` does not return
`ok = false`. -/
theorem parseUint64_simple_empty_not_rejected : ¬ ((parseUint64_simple []).2 = false) := by
  decide

/-- C3, amended. On the empty byte sequence the loop body of `parseUint64_simple` never
runs: it returns `n = 0` with `ok = true`. -/
theorem parseUint64_simple_empty : parseUint64_simple [] = (0, true) := by
  decide

/-- C4, where the code departs from the claim. On `"1e"` and `"1e+"` the scanner reports
`ok = true` with mantissa `1` and exponent `0`, so `parseFloat64_custom` returns
`float64(1)` with no error, and so does `parseNumber`, tagged float. The other three
tokens, `"1.2.3"`, `"--1"` and `"1x"`, get the `ParseFloat` syntax error with value `0`. -/
theorem parseFloat64_custom_bare_exponent (E : FloatOps) :
    readFloat (bytes "1e") fi64 = ⟨1, 0, false, false, true, false, false, true⟩ ∧
    readFloat (bytes "1e+") fi64 = ⟨1, 0, false, false, true, false, false, true⟩ ∧
    parseFloat64_custom E (bytes "1e") = some (E.ofUint64 1, none) ∧
    parseFloat64_custom E (bytes "1e+") = some (E.ofUint64 1, none) ∧
    (∀ (z : fauxUnion E.T) (p : Bool), parseNumber E (bytes "1e") z p =
      some ({ z with v := valueType.valueTypeFloat, f := E.ofUint64 1 }, none)) ∧
    (∀ (z : fauxUnion E.T) (p : Bool), parseNumber E (bytes "1e+") z p =
      some ({ z with v := valueType.valueTypeFloat, f := E.ofUint64 1 }, none)) ∧
    parseFloat64_custom E (bytes "1.2.3") =
      some (E.zero, some (strconvParseErr (bytes "1.2.3") "ParseFloat")) ∧
    parseFloat64_custom E (bytes "--1") =
      some (E.zero, some (strconvParseErr (bytes "--1") "ParseFloat")) ∧
    parseFloat64_custom E (bytes "1x") =
      some (E.zero, some (strconvParseErr (bytes "1x") "ParseFloat")) := by
  have h1 : readFloat (bytes "1e") fi64 = ⟨1, 0, false, false, true, false, false, true⟩ := by
    decide
  have h2 : readFloat (bytes "1e+") fi64 = ⟨1, 0, false, false, true, false, false, true⟩ := by
    decide
  have h3 : (readFloat (bytes "1.2.3") fi64).bad = true := by decide
  have h4 : (readFloat (bytes "--1") fi64).bad = true := by decide
  have h5 : (readFloat (bytes "1x") fi64).bad = true := by decide
  have c1 : parseFloat64_custom E (bytes "1e") = some (E.ofUint64 1, none) := by
    simp [parseFloat64_custom, h1, parseFloat64_reader]
  have c2 : parseFloat64_custom E (bytes "1e+") = some (E.ofUint64 1, none) := by
    simp [parseFloat64_custom, h2, parseFloat64_reader]
  refine ⟨h1, h2, c1, c2, ?_, ?_, ?_, ?_, ?_⟩
  · intro z p
    obtain ⟨res, hres, hp⟩ := parseNumber_float_path E 49 [101] z p (by decide)
    have hb : bytes "1e" = [49, 101] := by decide
    rw [hb] at c1 ⊢
    rw [c1] at hres
    cases hres
    exact hp
  · intro z p
    obtain ⟨res, hres, hp⟩ := parseNumber_float_path E 49 [101, 43] z p (by decide)
    have hb : bytes "1e+" = [49, 101, 43] := by decide
    rw [hb] at c2 ⊢
    rw [c2] at hres
    cases hres
    exact hp
  · simp [parseFloat64_custom, h3]
  · simp [parseFloat64_custom, h4]
  · simp [parseFloat64_custom, h5]

/-- C5. For every non-empty token of ASCII digits whose value `v` is at most `2^64 - 1`:
without `preferSignedInt`, `parseNumber` returns no error and the unsigned value `v`
tagged `valueTypeUint`; with `preferSignedInt` it returns the signed value `v` tagged
`valueTypeInt` when `v < 2^63`, and the `ParseInt` syntax error when `v >= 2^63`. -/
theorem parseNumber_digit_token (E : FloatOps) (b : List Nat) (z : fauxUnion E.T)
    (hb : b ≠ []) (hd : allDigits b) (hv : decVal b ≤ 2 ^ 64 - 1) :
    parseNumber E b z false =
      some ({ z with v := valueType.valueTypeUint, u := decVal b }, none) ∧
    (decVal b < 2 ^ 63 → parseNumber E b z true =
      some ({ z with v := valueType.valueTypeInt, i := (decVal b : Int) }, none)) ∧
    (decVal b ≥ 2 ^ 63 → parseNumber E b z true =
      some ({ z with v := valueType.valueTypeInt }, some (strconvParseErr b "ParseInt"))) := by
  have hv2 : decVal b < uint64Size := by
    simp only [uint64Size]; norm_num at hv; omega
  refine ⟨?_, ?_, ?_⟩
  · rw [parseNumber_digits E b z false hb hd hv2]; rfl
  · intro hlt
    norm_num at hlt
    have hw : wrap64 (decVal b : Int) = (decVal b : Int) := by unfold wrap64; omega
    have hu : Uint2Int (decVal b) false = false := by
      simp only [Uint2Int]; simp; omega
    rw [parseNumber_digits E b z true hb hd hv2]
    simp [hu, hw]
  · intro hge
    norm_num at hge
    have hu : Uint2Int (decVal b) false = true := by
      simp only [Uint2Int]; simp; omega
    rw [parseNumber_digits E b z true hb hd hv2]
    simp [hu]

/-- C5 at `"123"` and at `"9223372036854775808"` (`2^63`), whatever the floating-point
environment and the prior content of `z`. -/
theorem parseNumber_digit_token_witness :
    (bytes "123" ≠ [] ∧ allDigits (bytes "123") ∧ decVal (bytes "123") ≤ 2 ^ 64 - 1) ∧
    (∀ (E : FloatOps) (z : fauxUnion E.T),
      parseNumber E (bytes "123") z false =
        some ({ z with v := valueType.valueTypeUint, u := 123 }, none) ∧
      parseNumber E (bytes "123") z true =
        some ({ z with v := valueType.valueTypeInt, i := 123 }, none) ∧
      parseNumber E (bytes "9223372036854775808") z true =
        some ({ z with v := valueType.valueTypeInt },
          some (strconvParseErr (bytes "9223372036854775808") "ParseInt"))) := by
  have hv : decVal (bytes "123") = 123 := by decide
  refine ⟨⟨by decide, by decide, by decide⟩, fun E z => ?_⟩
  have h := parseNumber_digit_token E (bytes "123") z (by decide) (by decide) (by decide)
  have h2 := parseNumber_digit_token E (bytes "9223372036854775808") z
    (by decide) (by decide) (by decide)
  rw [hv] at h
  exact ⟨h.1, h.2.1 (by norm_num), h2.2.2 (by decide)⟩

/-- C6. For every token `'-'` followed by one or more ASCII digits of magnitude `v` at most
`2^64 - 1`, whatever `preferSignedInt` is: `parseNumber` returns the signed value `-v`
tagged `valueTypeInt` when `v <= 2^63`, and the `ParseInt` error when `v > 2^63`; the
integer returned is never a wrapped one. -/
theorem parseNumber_minus_token (E : FloatOps) (d : List Nat) (z : fauxUnion E.T) (p : Bool)
    (_hne : d ≠ []) (hd : allDigits d) (hv : decVal d ≤ 2 ^ 64 - 1) :
    (decVal d ≤ 2 ^ 63 → parseNumber E (chMinus :: d) z p =
      some ({ z with v := valueType.valueTypeInt, i := -(decVal d : Int) }, none)) ∧
    (decVal d > 2 ^ 63 → parseNumber E (chMinus :: d) z p =
      some ({ z with v := valueType.valueTypeInt },
        some (strconvParseErr (chMinus :: d) "ParseInt"))) := by
  have hv2 : decVal d < uint64Size := by
    simp only [uint64Size]; norm_num at hv; omega
  refine ⟨?_, ?_⟩
  · intro hle
    norm_num at hle
    have hw : wrap64 (-wrap64 (decVal d : Int)) = -(decVal d : Int) := by
      unfold wrap64; omega
    have hu : Uint2Int (decVal d) true = false := by
      simp only [Uint2Int]; simp; omega
    rw [parseNumber_minus_digits E d z p hd hv2]
    simp [hu, hw]
  · intro hgt
    norm_num at hgt
    have hu : Uint2Int (decVal d) true = true := by
      simp only [Uint2Int]; simp; omega
    rw [parseNumber_minus_digits E d z p hd hv2]
    simp [hu]

/-- C6 at the two boundary tokens: `"-9223372036854775808"` gives the minimum `int64`, and
`"-9223372036854775809"` the `ParseInt` error. -/
theorem parseNumber_minus_token_witness :
    (bytes "9223372036854775808" ≠ [] ∧ allDigits (bytes "9223372036854775808") ∧
      decVal (bytes "9223372036854775808") ≤ 2 ^ 64 - 1) ∧
    (∀ (E : FloatOps) (z : fauxUnion E.T) (p : Bool),
      parseNumber E (bytes "-9223372036854775808") z p =
        some ({ z with v := valueType.valueTypeInt, i := -9223372036854775808 }, none) ∧
      parseNumber E (bytes "-9223372036854775809") z p =
        some ({ z with v := valueType.valueTypeInt },
          some (strconvParseErr (bytes "-9223372036854775809") "ParseInt"))) := by
  have hv : decVal (bytes "9223372036854775808") = 9223372036854775808 := by decide
  have hb1 : bytes "-9223372036854775808" = chMinus :: bytes "9223372036854775808" := by
    decide
  have hb2 : bytes "-9223372036854775809" = chMinus :: bytes "9223372036854775809" := by
    decide
  refine ⟨⟨by decide, by decide, by decide⟩, fun E z p => ?_⟩
  have h := parseNumber_minus_token E (bytes "9223372036854775808") z p
    (by decide) (by decide) (by decide)
  have h2 := parseNumber_minus_token E (bytes "9223372036854775809") z p
    (by decide) (by decide) (by decide)
  rw [hv] at h
  rw [hb1, hb2]
  exact ⟨h.1 (by norm_num), h2.2 (by decide)⟩

/-- C7. For every token of ASCII digits, with or without one leading `'-'`, whose magnitude
exceeds `2^64 - 1`, `parseNumber` gives no integer result and no integer-path error: the
result is tagged `valueTypeFloat`, and its value and error are those of
`parseFloat64_custom` on the whole token. On `"18446744073709551616"` the scanner reports
`trunc` (neither `ok` nor `bad`), so the fast path hands back the library parser's
answer. -/
theorem parseNumber_beyond_uint64 (E : FloatOps) (d : List Nat) (z : fauxUnion E.T) (p : Bool)
    (hd : allDigits d) (hv : decVal d > 2 ^ 64 - 1) :
    (∀ b, (b = d ∨ b = chMinus :: d) →
      ∃ res, parseFloat64_custom E b = some res ∧
        parseNumber E b z p =
          some ({ z with v := valueType.valueTypeFloat, f := res.1 }, res.2)) ∧
    ((readFloat (bytes "18446744073709551616") fi64).trunc = true ∧
      (readFloat (bytes "18446744073709551616") fi64).ok = false ∧
      (readFloat (bytes "18446744073709551616") fi64).bad = false) ∧
    parseFloat64_custom E (bytes "18446744073709551616") =
      some (E.strconv (bytes "18446744073709551616")) := by
  have hv2 : uint64Size ≤ decVal d := by
    simp only [uint64Size]; norm_num at hv; omega
  have hr : readFloat (bytes "18446744073709551616") fi64 =
      ⟨18446744073709551, 0, false, false, false, true, false, false⟩ := by decide
  refine ⟨fun b hb => parseNumber_overflow_float E d z p hd hv2 b hb, ?_, ?_⟩
  · rw [hr]; exact ⟨rfl, rfl, rfl⟩
  · simp [parseFloat64_custom, hr]

/-- C7 at `"18446744073709551616"` (`2^64`) and `"-18446744073709551616"`: both are tagged
float and carry the library parser's value and error. -/
theorem parseNumber_beyond_uint64_witness :
    (allDigits (bytes "18446744073709551616") ∧
      decVal (bytes "18446744073709551616") > 2 ^ 64 - 1) ∧
    (∀ (E : FloatOps) (z : fauxUnion E.T) (p : Bool),
      parseNumber E (bytes "18446744073709551616") z p =
        some ({ z with v := valueType.valueTypeFloat,
                       f := (E.strconv (bytes "18446744073709551616")).1 },
          (E.strconv (bytes "18446744073709551616")).2) ∧
      ∃ res : E.T × Option NumError, parseNumber E (bytes "-18446744073709551616") z p =
        some ({ z with v := valueType.valueTypeFloat, f := res.1 }, res.2)) := by
  refine ⟨⟨by decide, by decide⟩, fun E z p => ?_⟩
  have h := parseNumber_beyond_uint64 E (bytes "18446744073709551616") z p
    (by decide) (by decide)
  have hb : bytes "-18446744073709551616" = chMinus :: bytes "18446744073709551616" := by
    decide
  obtain ⟨res, hres, hp⟩ := h.1 _ (Or.inl rfl)
  obtain ⟨res2, _, hp2⟩ := h.1 _ (Or.inr rfl)
  rw [h.2.2] at hres
  cases hres
  exact ⟨hp, res2, by rw [hb]; exact hp2⟩

/-- C8 as stated fails: on `"18446744073709551616"`, whose unsigned accumulation exceeds
`2^64 - 1`, no floating-point environment makes `parseNumber` give anything but the
library parser's value and error under the tag `valueTypeFloat`; the integer path raises
no error of its own there. -/
theorem parseNumber_overflow_not_hard_error :
    ¬ ∃ (E : FloatOps) (z : fauxUnion E.T) (p : Bool),
      parseNumber E (bytes "18446744073709551616") z p ≠
        some ({ z with v := valueType.valueTypeFloat,
                       f := (E.strconv (bytes "18446744073709551616")).1 },
          (E.strconv (bytes "18446744073709551616")).2) := by
  rintro ⟨E, z, p, h⟩
  apply h
  have hr : readFloat (bytes "18446744073709551616") fi64 =
      ⟨18446744073709551, 0, false, false, false, true, false, false⟩ := by decide
  have hc : parseFloat64_custom E (bytes "18446744073709551616") =
      some (E.strconv (bytes "18446744073709551616")) := by
    simp [parseFloat64_custom, hr]
  obtain ⟨res, hres, hp⟩ := parseNumber_overflow_float E (bytes "18446744073709551616") z p
    (by decide) (by decide) _ (Or.inl rfl)
  rw [hc] at hres
  cases hres
  exact hp

/-- C8, amended. For every token `[-]?[0-9]+`: when the digits fit `uint64` but the signed
conversion does not fit `int64` (a negated magnitude above `2^63`, or with
`preferSignedInt` a magnitude of `2^63` or more), `parseNumber` returns the `ParseInt`
parse error under the tag `valueTypeInt`, never a float; when the digits are worth more
than `2^64 - 1` the token is no integer-path error: it is tagged `valueTypeFloat` with the
value and error of `parseFloat64_custom`. -/
theorem parseNumber_integer_overflow (E : FloatOps) (d : List Nat) (z : fauxUnion E.T)
    (p : Bool) (hne : d ≠ []) (hd : allDigits d) :
    (decVal d ≤ 2 ^ 64 - 1 → decVal d > 2 ^ 63 → parseNumber E (chMinus :: d) z p =
      some ({ z with v := valueType.valueTypeInt },
        some (strconvParseErr (chMinus :: d) "ParseInt"))) ∧
    (decVal d ≤ 2 ^ 64 - 1 → decVal d ≥ 2 ^ 63 → parseNumber E d z true =
      some ({ z with v := valueType.valueTypeInt }, some (strconvParseErr d "ParseInt"))) ∧
    (decVal d > 2 ^ 64 - 1 → ∀ b, (b = d ∨ b = chMinus :: d) →
      ∃ res, parseFloat64_custom E b = some res ∧
        parseNumber E b z p =
          some ({ z with v := valueType.valueTypeFloat, f := res.1 }, res.2)) := by
  refine ⟨?_, ?_, ?_⟩
  · intro hv hgt
    have hv2 : decVal d < uint64Size := by
      simp only [uint64Size]; norm_num at hv; omega
    norm_num at hgt
    have hu : Uint2Int (decVal d) true = true := by
      simp only [Uint2Int]; simp; omega
    rw [parseNumber_minus_digits E d z p hd hv2]
    simp [hu]
  · intro hv hge
    have hv2 : decVal d < uint64Size := by
      simp only [uint64Size]; norm_num at hv; omega
    norm_num at hge
    have hu : Uint2Int (decVal d) false = true := by
      simp only [Uint2Int]; simp; omega
    rw [parseNumber_digits E d z true hne hd hv2]
    simp [hu]
  · intro hv b hb
    have hv2 : uint64Size ≤ decVal d := by
      simp only [uint64Size]; norm_num at hv; omega
    exact parseNumber_overflow_float E d z p hd hv2 b hb

/-- C8, amended, at `"9223372036854775809"`: negated it is a `ParseInt` error, and so it
is unsigned with `preferSignedInt`. -/
theorem parseNumber_integer_overflow_witness :
    (bytes "9223372036854775809" ≠ [] ∧ allDigits (bytes "9223372036854775809")) ∧
    (∀ (E : FloatOps) (z : fauxUnion E.T) (p : Bool),
      parseNumber E (chMinus :: bytes "9223372036854775809") z p =
        some ({ z with v := valueType.valueTypeInt },
          some (strconvParseErr (chMinus :: bytes "9223372036854775809") "ParseInt")) ∧
      parseNumber E (bytes "9223372036854775809") z true =
        some ({ z with v := valueType.valueTypeInt },
          some (strconvParseErr (bytes "9223372036854775809") "ParseInt"))) := by
  refine ⟨⟨by decide, by decide⟩, fun E z p => ?_⟩
  have h := parseNumber_integer_overflow E (bytes "9223372036854775809") z p
    (by decide) (by decide)
  exact ⟨h.1 (by decide) (by decide), h.2.1 (by decide) (by decide)⟩

/-- C9, where the code departs from the claim. The token `"-"` is not of the form
`[-]?[0-9]+`, yet `parseNumber` gives it the signed-integer result `0` with no error: the
empty digit run after the sign is accepted by `parseUint64_simple`, so the float path is
never tried. -/
theorem parseNumber_lone_minus (E : FloatOps) (z : fauxUnion E.T) (p : Bool) :
    parseNumber E (bytes "-") z p =
      some ({ z with v := valueType.valueTypeInt, i := 0 }, none) := by
  have hb : bytes "-" = chMinus :: [] := by decide
  rw [hb, parseNumber_minus_digits E [] z p (by decide) (by decide)]
  rfl

/-- C10. Table lookups stay in bounds. A lookup outside a table is the result `none`; the
tables have 23, 11 and 20 entries. For every byte sequence `s`: if `readFloat s fi64` is
`ok` its exponent lies in `-22 .. 37` and `parseFloat64_reader` completes every lookup in
`float64pow10`; if `readFloat s fi32` is `ok` its exponent lies in `-10 .. 17` and
`parseFloat32_reader` completes every lookup in `float32pow10`; if `readFloat s fi64u` or
`readFloat s fi64i` is `ok` its exponent lies in `-19 .. 19` and `parseUint64_reader` and
`parseInt64_reader` (whatever sign is set) complete every lookup in `uint64pow10`. -/
theorem table_lookups_in_bounds (E64 E32 : FloatOps) (s : List Nat) :
    ((float64pow10 E64).length = 23 ∧ (float32pow10 E32).length = 11 ∧
      uint64pow10.length = 20) ∧
    ((readFloat s fi64).ok = true →
      (-22 ≤ (readFloat s fi64).exp ∧ (readFloat s fi64).exp ≤ 37) ∧
      (parseFloat64_reader E64 (readFloat s fi64)).isSome = true) ∧
    ((readFloat s fi32).ok = true →
      (-10 ≤ (readFloat s fi32).exp ∧ (readFloat s fi32).exp ≤ 17) ∧
      (parseFloat32_reader E32 (readFloat s fi32)).isSome = true) ∧
    ((readFloat s fi64u).ok = true →
      (-19 ≤ (readFloat s fi64u).exp ∧ (readFloat s fi64u).exp ≤ 19) ∧
      (parseUint64_reader (readFloat s fi64u)).isSome = true ∧
      ∀ n : Bool, (parseInt64_reader { readFloat s fi64u with neg := n }).isSome = true) ∧
    ((readFloat s fi64i).ok = true →
      (-19 ≤ (readFloat s fi64i).exp ∧ (readFloat s fi64i).exp ≤ 19) ∧
      (parseUint64_reader (readFloat s fi64i)).isSome = true ∧
      ∀ n : Bool, (parseInt64_reader { readFloat s fi64i with neg := n }).isSome = true) := by
  refine ⟨⟨by simp [float64pow10], by simp [float32pow10], rfl⟩, ?_, ?_, ?_, ?_⟩
  · intro h
    have hr := readFloat_ok_range s fi64 h (by decide) (by decide) (by decide)
    have h1 : -22 ≤ (readFloat s fi64).exp := by simpa [fi64] using hr.1
    have h2 : (readFloat s fi64).exp ≤ 37 := by simpa [fi64] using hr.2
    exact ⟨⟨h1, h2⟩, parseFloat64_reader_isSome E64 _ h1 h2⟩
  · intro h
    have hr := readFloat_ok_range s fi32 h (by decide) (by decide) (by decide)
    have h1 : -10 ≤ (readFloat s fi32).exp := by simpa [fi32] using hr.1
    have h2 : (readFloat s fi32).exp ≤ 17 := by simpa [fi32] using hr.2
    exact ⟨⟨h1, h2⟩, parseFloat32_reader_isSome E32 _ h1 h2⟩
  · intro h
    have hr := readFloat_ok_range s fi64u h (by decide) (by decide) (by decide)
    have h1 : -19 ≤ (readFloat s fi64u).exp := by simpa [fi64u] using hr.1
    have h2 : (readFloat s fi64u).exp ≤ 19 := by simpa [fi64u] using hr.2
    exact ⟨⟨h1, h2⟩, parseUint64_reader_isSome _ h1 h2,
      fun n => parseInt64_reader_isSome _ h1 h2⟩
  · intro h
    have hr := readFloat_ok_range s fi64i h (by decide) (by decide) (by decide)
    have h1 : -19 ≤ (readFloat s fi64i).exp := by simpa [fi64i] using hr.1
    have h2 : (readFloat s fi64i).exp ≤ 19 := by simpa [fi64i] using hr.2
    exact ⟨⟨h1, h2⟩, parseUint64_reader_isSome _ h1 h2,
      fun n => parseInt64_reader_isSome _ h1 h2⟩

/-- C10 at `"-12.5e-3"`, accepted under all four profiles with exponent `-4`, and at
`"1.5e30"`, accepted under `fi64` with exponent `29`: every reader completes its
lookups. -/
theorem table_lookups_in_bounds_witness :
    ((readFloat (bytes "-12.5e-3") fi64).ok = true ∧
      (readFloat (bytes "-12.5e-3") fi32).ok = true ∧
      (readFloat (bytes "-12.5e-3") fi64u).ok = true ∧
      (readFloat (bytes "-12.5e-3") fi64i).ok = true ∧
      (readFloat (bytes "1.5e30") fi64).ok = true) ∧
    ((readFloat (bytes "-12.5e-3") fi64).exp = -4 ∧ (readFloat (bytes "1.5e30") fi64).exp = 29) ∧
    (∀ (E64 E32 : FloatOps),
      (parseFloat64_reader E64 (readFloat (bytes "-12.5e-3") fi64)).isSome = true ∧
      (parseFloat32_reader E32 (readFloat (bytes "-12.5e-3") fi32)).isSome = true ∧
      (parseUint64_reader (readFloat (bytes "-12.5e-3") fi64u)).isSome = true ∧
      (parseInt64_reader (readFloat (bytes "-12.5e-3") fi64i)).isSome = true ∧
      (parseFloat64_reader E64 (readFloat (bytes "1.5e30") fi64)).isSome = true) := by
  refine ⟨⟨by decide, by decide, by decide, by decide, by decide⟩,
    ⟨by decide, by decide⟩, fun E64 E32 => ?_⟩
  have h := table_lookups_in_bounds E64 E32 (bytes "-12.5e-3")
  have h2 := table_lookups_in_bounds E64 E32 (bytes "1.5e30")
  exact ⟨(h.2.1 (by decide)).2, (h.2.2.1 (by decide)).2, (h.2.2.2.1 (by decide)).2.1,
    (h.2.2.2.2 (by decide)).2.2 true, (h2.2.1 (by decide)).2⟩

/-- C11 (truncation safety). For every token of the input grammar whose digits, read from
the first non-zero one through the last non-zero one, number at least 17, `readFloat`
under `fi64` returns with `ok = false` and `bad = false`, and `parseFloat64_custom` returns
exactly the result of the library parser, never a fast-path value, whatever the
floating-point arithmetic is. -/
theorem truncation_safety (E : FloatOps) (L : Literal) (hwf : L.wf)
    (h17 : 17 ≤ (significand L.digits).length) :
    (readFloat L.bytes fi64).ok = false ∧ (readFloat L.bytes fi64).bad = false ∧
    parseFloat64_custom E L.bytes = some (E.strconv L.bytes) := by
  have hok := readFloat_tooLong L hwf h17
  have hbad := readFloat_literal_bad L hwf fi64
  refine ⟨hok, hbad, ?_⟩
  simp [parseFloat64_custom, hok, hbad]

/-- C11 at the token `12345678901234567`, of seventeen significant digits. -/
theorem truncation_safety_witness :
    (longLiteral.wf ∧ 17 ≤ (significand longLiteral.digits).length ∧
      longLiteral.bytes = bytes "12345678901234567") ∧
    ∀ E : FloatOps,
      (readFloat (bytes "12345678901234567") fi64).ok = false ∧
      (readFloat (bytes "12345678901234567") fi64).bad = false ∧
      parseFloat64_custom E (bytes "12345678901234567") =
        some (E.strconv (bytes "12345678901234567")) := by
  refine ⟨⟨longLiteral_wf, by decide, by decide⟩, fun E => ?_⟩
  have h := truncation_safety E longLiteral longLiteral_wf (by decide)
  have hb : longLiteral.bytes = bytes "12345678901234567" := by decide
  rw [hb] at h
  exact h

/-- C12. For every profile `y` and every input `pre ++ mk :: (sgn ++ ds)` where `pre`, the
mantissa part, holds no exponent marker and is scanned without a malformed or truncated
exit, `mk` is `'e'` or `'E'`, `sgn` is the optional sign (so `ds` does not start with a sign
when `sgn` is empty) and `ds` has three bytes or more: `readFloat` returns with `ok = false`
and `bad = false`. -/
theorem readFloat_long_exponent (y : floatinfo) (pre : List Nat) (mk : Nat)
    (sgn ds : List Nat)
    (hpre : ∀ c ∈ pre, c ≠ chLowerE ∧ c ≠ chUpperE)
    (hmk : mk = chLowerE ∨ mk = chUpperE)
    (hbad : (readFloat pre y).bad = false) (htrunc : (readFloat pre y).trunc = false)
    (hsgn : sgn = [] ∨ sgn = [chPlus] ∨ sgn = [chMinus])
    (hfirst : sgn = [] → ∀ c ∈ ds.head?, c ≠ chPlus ∧ c ≠ chMinus)
    (hds : 3 ≤ ds.length) :
    (readFloat (pre ++ mk :: (sgn ++ ds)) y).ok = false ∧
    (readFloat (pre ++ mk :: (sgn ++ ds)) y).bad = false := by
  have hmk' : mk ≠ chMinus := by
    rcases hmk with h | h <;> rw [h] <;> decide
  -- the body of the token and of its mantissa part
  have hbody : tokenBody (pre ++ mk :: (sgn ++ ds)) = tokenBody pre ++ mk :: (sgn ++ ds) := by
    cases pre with
    | nil => simp [tokenBody, hmk']
    | cons c0 cs =>
      simp only [tokenBody, List.cons_append]
      split_ifs <;> rfl
  have hstart : scanStart (pre ++ mk :: (sgn ++ ds)) = scanStart pre ∨ pre = [] := by
    cases pre with
    | nil => right; rfl
    | cons c0 cs => left; simp [scanStart]
  have hstart0 : (scanStart (pre ++ mk :: (sgn ++ ds))).r.bad = false ∧
      (scanStart (pre ++ mk :: (sgn ++ ds))).r.ok = false := by
    unfold scanStart
    split_ifs <;> exact ⟨rfl, rfl⟩
  have hbp : ∀ c ∈ tokenBody pre, c ≠ chLowerE ∧ c ≠ chUpperE := by
    intro c hc
    apply hpre
    cases pre with
    | nil => simp [tokenBody] at hc
    | cons c0 cs =>
      simp only [tokenBody] at hc
      split_ifs at hc
      · exact List.mem_cons_of_mem _ hc
      · exact hc
  -- the mantissa loop runs through `pre`
  have hloop : ∃ v', scanLoop (mantCutoffIsUint64CutoffOf y) (mantCutoffOf y) (tokenBody pre)
      (scanStart (pre ++ mk :: (sgn ++ ds))) = .next v' [] ∧ v'.r.bad = false ∧
      v'.r.ok = false := by
    rcases scanLoop_no_marker (mantCutoffIsUint64CutoffOf y) (mantCutoffOf y) (tokenBody pre)
      (scanStart (pre ++ mk :: (sgn ++ ds))) hbp with ⟨r, hr, hflag⟩ | ⟨v', hv', h1, _, h3, _⟩
    · exfalso
      rcases hstart with hst | hnil
      · have hne : pre ≠ [] := by
          intro h; subst h
          simp [tokenBody, scanLoop] at hr
        rw [readFloat_eq_scan pre y hne, ← hst, hr] at hbad htrunc
        simp only [scanAfterLoop] at hbad htrunc
        rcases hflag with h | h
        · rw [h] at hbad; cases hbad
        · rw [h] at htrunc; cases htrunc
      · subst hnil
        simp [tokenBody, scanLoop] at hr
    · exact ⟨v', hv', by rw [h1]; exact hstart0.1, by rw [h3]; exact hstart0.2⟩
  obtain ⟨v', hv', hb', hok'⟩ := hloop
  rw [readFloat_eq_scan _ y (by simp), hbody, scanLoop_append _ _ _ _ _ hbp, hv']
  simp only [scanFlow.andThen]
  rw [scanLoop]
  have hnd : mk ≠ chDot := by
    rcases hmk with h | h <;> rw [h] <;> decide
  rw [if_neg hnd, if_pos hmk]
  simp only [scanAfterLoop]
  -- the exponent part returns at once
  have hexp : ∀ v : scanVars, v.r.sawexp = true →
      scanExponent (mk :: (sgn ++ ds)) v = .ret v.r := by
    intro v hv
    obtain ⟨d1, d2, d3, dt, rfl⟩ : ∃ d1 d2 d3 dt, ds = d1 :: d2 :: d3 :: dt := by
      match ds, hds with
      | d1 :: d2 :: d3 :: dt, _ => exact ⟨d1, d2, d3, dt, rfl⟩
    unfold scanExponent
    rw [if_pos hv]
    rcases hsgn with h | h | h
    · subst h
      have hf := hfirst rfl d1 (by simp)
      simp [expSign, hf.1, hf.2]
    · subst h
      simp [expSign]
    · subst h
      simp [expSign, chPlus, chMinus]
  have hsaw : ∀ b : Bool, (if b = true then
      ({ v' with r := { v'.r with sawexp := true } } : scanVars)
      else { ({ v' with r := { v'.r with sawexp := true } } : scanVars) with
        dp := ({ v' with r := { v'.r with sawexp := true } } : scanVars).nd }).r =
        { v'.r with sawexp := true } := by
    intro b; cases b <;> rfl
  rw [hexp _ (by rw [hsaw])]
  simp only [hsaw]
  exact ⟨hok', hb'⟩

/-- C12 at the token `1.5e-123` under `fi64`. -/
theorem readFloat_long_exponent_witness :
    ((∀ c ∈ bytes "1.5", c ≠ chLowerE ∧ c ≠ chUpperE) ∧
      (readFloat (bytes "1.5") fi64).bad = false ∧ (readFloat (bytes "1.5") fi64).trunc = false ∧
      3 ≤ (bytes "123").length ∧
      bytes "1.5" ++ chLowerE :: ([chMinus] ++ bytes "123") = bytes "1.5e-123") ∧
    (readFloat (bytes "1.5e-123") fi64).ok = false ∧
    (readFloat (bytes "1.5e-123") fi64).bad = false := by
  have h := readFloat_long_exponent fi64 (bytes "1.5") chLowerE [chMinus] (bytes "123")
    (by decide) (Or.inl rfl) (by decide) (by decide) (Or.inr (Or.inr rfl))
    (fun h => by cases h) (by decide)
  have hb : bytes "1.5" ++ chLowerE :: ([chMinus] ++ bytes "123") = bytes "1.5e-123" := by
    decide
  rw [hb] at h
  exact ⟨⟨by decide, by decide, by decide, by decide, hb⟩, h⟩

/-- C13 (integer round trip). For every `n < 2^64`, `parseNumber` on the canonical decimal
string of `n` with `preferSignedInt = false` returns no error and the unsigned value `n`;
for every `v` with `-2^63 <= v < 2^63`, `parseNumber` on the canonical decimal string of `v`
with `preferSignedInt = true` returns no error and the signed value `v`. -/
theorem integer_round_trip (E : FloatOps) (z : fauxUnion E.T) :
    (∀ n : Nat, n < 2 ^ 64 → parseNumber E (decimalBytes n) z false =
      some ({ z with v := valueType.valueTypeUint, u := n }, none)) ∧
    (∀ v : Int, -2 ^ 63 ≤ v → v < 2 ^ 63 → parseNumber E (decimalBytesInt v) z true =
      some ({ z with v := valueType.valueTypeInt, i := v }, none)) := by
  constructor
  · intro n hn
    obtain ⟨hne, hd, hv⟩ := decimalBytes_spec n
    have hv2 : decVal (decimalBytes n) < uint64Size := by
      rw [hv]; simp only [uint64Size]; norm_num at hn; omega
    rw [parseNumber_digits E _ z false hne hd hv2, hv]
    rfl
  · intro v hlo hhi
    norm_num at hlo hhi
    obtain ⟨hne, hd, hv⟩ := decimalBytes_spec v.natAbs
    have hv2 : decVal (decimalBytes v.natAbs) < uint64Size := by
      rw [hv]; simp only [uint64Size]; omega
    unfold decimalBytesInt
    split_ifs with hneg
    · have hu : Uint2Int v.natAbs true = false := by
        simp only [Uint2Int]; simp; omega
      have hw : wrap64 (-wrap64 (v.natAbs : Int)) = v := by unfold wrap64; omega
      rw [parseNumber_minus_digits E _ z true hd hv2, hv]
      simp only [hu, hw]
      rfl
    · have hu : Uint2Int v.natAbs false = false := by
        simp only [Uint2Int]; simp; omega
      have hw : wrap64 (v.natAbs : Int) = v := by unfold wrap64; omega
      rw [parseNumber_digits E _ z true hne hd hv2, hv]
      simp only [hu, hw]
      rfl

/-- C13 at the largest unsigned value `2^64 - 1` and at the least signed value `-2^63`. -/
theorem integer_round_trip_witness :
    ((18446744073709551615 : Nat) < 2 ^ 64 ∧ -2 ^ 63 ≤ (-9223372036854775808 : Int) ∧
      (-9223372036854775808 : Int) < 2 ^ 63 ∧
      decimalBytes 18446744073709551615 = bytes "18446744073709551615" ∧
      decimalBytesInt (-9223372036854775808) = bytes "-9223372036854775808") ∧
    ∀ (E : FloatOps) (z : fauxUnion E.T),
      parseNumber E (bytes "18446744073709551615") z false =
        some ({ z with v := valueType.valueTypeUint, u := 18446744073709551615 }, none) ∧
      parseNumber E (bytes "-9223372036854775808") z true =
        some ({ z with v := valueType.valueTypeInt, i := -9223372036854775808 }, none) := by
  have h1 : decimalBytes 18446744073709551615 = bytes "18446744073709551615" := by
    norm_num [decimalBytes, ch0]; decide
  have h2 : decimalBytesInt (-9223372036854775808) = bytes "-9223372036854775808" := by
    norm_num [decimalBytesInt, decimalBytes, ch0, chMinus]; decide
  refine ⟨⟨by norm_num, by norm_num, by norm_num, h1, h2⟩, fun E z => ?_⟩
  have h := integer_round_trip E z
  have ha := h.1 18446744073709551615 (by norm_num)
  have hb := h.2 (-9223372036854775808) (by norm_num) (by norm_num)
  rw [h1] at ha
  rw [h2] at hb
  exact ⟨ha, hb⟩

/-- C14. For every `k`, every profile `y` and every byte sequence `s` that does not begin
with `'-'`, `k` zeros in front of `s` change neither the result of `parseUint64_simple` nor
any field of the result of `readFloat`. -/
theorem leading_zeros_ignored (k : Nat) (y : floatinfo) (s : List Nat)
    (hs : s.head? ≠ some chMinus) :
    parseUint64_simple (List.replicate k ch0 ++ s) = parseUint64_simple s ∧
    readFloat (List.replicate k ch0 ++ s) y = readFloat s y := by
  refine ⟨parseUint64_loop_zeros k s, ?_⟩
  cases k with
  | zero => rfl
  | succ k =>
    have hne : List.replicate (k + 1) ch0 ++ s ≠ [] := by simp [List.replicate_succ]
    have hbody : tokenBody (List.replicate (k + 1) ch0 ++ s) =
        List.replicate (k + 1) ch0 ++ s := by
      simp [List.replicate_succ, tokenBody, ch0, chMinus]
    have hstart : scanStart (List.replicate (k + 1) ch0 ++ s) =
        ⟨readFloatResult.zero, 0, 0, 0⟩ := by
      simp [List.replicate_succ, scanStart, ch0, chMinus]
    rw [readFloat_eq_scan _ y hne, hbody, hstart,
      scanLoop_leading_zeros _ _ s (k + 1) _ rfl (by decide) (by decide)]
    have hdp := scanAfterLoop_dp y (mantCutoffIsUint64CutoffOf y) (mantCutoffOf y) s
      readFloatResult.zero 0 0 (wrap8 (0 - ((k + 1 : ℕ) : ℤ))) 0 (fun h => by cases h)
    rw [hdp]
    cases s with
    | nil =>
      simp [scanLoop, scanAfterLoop, scanExponent, scanFinish, readFloat, readFloatResult.zero]
    | cons c0 cs =>
      have hc : c0 ≠ chMinus := by simpa using hs
      have hb2 : tokenBody (c0 :: cs) = c0 :: cs := by simp [tokenBody, hc]
      have hs2 : scanStart (c0 :: cs) = ⟨readFloatResult.zero, 0, 0, 0⟩ := by
        simp [scanStart, hc]
      rw [readFloat_eq_scan _ y (by simp), hb2, hs2]

/-- C14 at the token `007`: it accumulates to `7`, and scans as `7` does. -/
theorem leading_zeros_ignored_witness :
    ((bytes "7").head? ≠ some chMinus ∧ List.replicate 2 ch0 ++ bytes "7" = bytes "007") ∧
    parseUint64_simple (bytes "007") = parseUint64_simple (bytes "7") ∧
    parseUint64_simple (bytes "007") = (7, true) ∧
    readFloat (bytes "007") fi64 = readFloat (bytes "7") fi64 := by
  have h := leading_zeros_ignored 2 fi64 (bytes "7") (by decide)
  have hb : List.replicate 2 ch0 ++ bytes "7" = bytes "007" := by decide
  rw [hb] at h
  exact ⟨⟨by decide, hb⟩, h.1, by decide, h.2⟩

/-- C15. For every profile `y`, `readFloat` on the empty byte sequence returns `ok = true`
with mantissa `0`, exponent `0` and every other flag unset; `parseFloat64_custom` on the
empty byte sequence returns the conversion of `0` with no error whatever the library
parser is, and under binary64 arithmetic that value is `0`. -/
theorem readFloat_empty (y : floatinfo) (E : FloatOps) :
    readFloat [] y = ⟨0, 0, false, false, false, false, false, true⟩ ∧
    (∀ sc : List Nat → E.T × Option NumError,
      parseFloat64_custom { E with strconv := sc } [] = some (E.ofUint64 0, none)) ∧
    (∀ sc : List Nat → ℚ × Option NumError,
      parseFloat64_custom (binary64 sc) [] = some (0, none)) := by
  refine ⟨rfl, ?_, ?_⟩
  · intro sc
    simp [parseFloat64_custom, readFloat, readFloatResult.zero, parseFloat64_reader]
  · intro sc
    have h0 : (binary64 sc).ofUint64 0 = 0 := by
      simp [binary64, binaryOps, roundBinary]
    simp [parseFloat64_custom, readFloat, readFloatResult.zero, parseFloat64_reader, h0, roundBinary]

/-- C16, where the code departs from the claim. The token `0.` followed by 256 zeros and a
`5` matches the input grammar and `readFloat` is `ok` on it under `fi64`; the fast path of
`parseFloat64_custom` succeeds on it, under binary64 arithmetic and whatever the library
parser is, with the value `1/2`; the binary64 number nearest to the literal, which is what
`strconv.ParseFloat` returns, is at most `1/4`. -/
theorem fast_path_differs_from_nearest :
    matchesGrammar (smallLiteral 256).bytes ∧
    (readFloat (smallLiteral 256).bytes fi64).ok = true ∧
    (∀ sc : List Nat → ℚ × Option NumError,
      parseFloat64_custom (binary64 sc) (smallLiteral 256).bytes = some (1 / 2, none)) ∧
    roundBinary 53 (smallLiteral 256).value ≤ 1 / 4 := by
  refine ⟨⟨smallLiteral 256, smallLiteral_wf 256, rfl⟩, ?_, ?_, ?_⟩
  · rw [readFloat_smallLiteral_256]
  · intro sc
    rw [parseFloat64_custom_smallLiteral_256]
    have := binaryOps_five_tenths 53 (by norm_num) sc
    exact congrArg (fun x => some (x, (none : Option NumError))) this
  · rw [smallLiteral_value]
    have hpos : (0 : ℚ) < 5 / (10 : ℚ) ^ (256 + 1) := by positivity
    have hlt : (5 : ℚ) / (10 : ℚ) ^ (256 + 1) < (2 : ℚ) ^ (-2 : ℤ) := by
      rw [div_lt_iff₀ (by positivity)]
      have h10 : (10 : ℚ) ^ 1 ≤ (10 : ℚ) ^ (256 + 1) :=
        pow_le_pow_right₀ (by norm_num) (by norm_num)
      have : (2 : ℚ) ^ (-2 : ℤ) = 1 / 4 := by norm_num
      rw [this]
      linarith
    generalize (5 : ℚ) / (10 : ℚ) ^ (256 + 1) = x at hpos hlt ⊢
    have hlog : Int.log 2 x < -2 :=
      (Int.lt_zpow_iff_log_lt (R := ℚ) (b := 2) (by norm_num) hpos).mp (by exact_mod_cast hlt)
    have hr := roundBinary_le 53 x hpos
    have h2 : (2 : ℚ) ^ (Int.log 2 x + 1) ≤ (2 : ℚ) ^ (-2 : ℤ) :=
      zpow_le_zpow_right₀ (by norm_num) (by omega)
    have h3 : (2 : ℚ) ^ (-2 : ℤ) = 1 / 4 := by norm_num
    exact le_trans hr (le_trans h2 (le_of_eq h3))

/-- C17, where the code departs from the claim. On the token `2e19` the scan under `fi64u`
(and `fi64i`) is `ok` with mantissa `2` and exponent `19`; `parseUint64_reader` and
`parseInt64_reader` return `1553255926290448384` without failure, which is `2 * 10^19`
reduced modulo `2^64` and not the exact value `2 * 10^19`. -/
theorem integer_readers_wrap :
    readFloat (bytes "2e19") fi64u = ⟨2, 19, false, false, true, false, false, true⟩ ∧
    parseUint64_reader (readFloat (bytes "2e19") fi64u) = some (1553255926290448384, false) ∧
    parseInt64_reader (readFloat (bytes "2e19") fi64i) = some (1553255926290448384, false) ∧
    2 * 10 ^ 19 ≠ 1553255926290448384 := by
  decide

/-- C18. Under binary64 arithmetic, for every scan record with `0 < mantissa < 2^52` and
`-22 <= exp <= 37`, `parseFloat64_reader` returns, and it signals failure exactly when
`exp > 22` and `mantissa * 10^(exp-22) > 10^15`; when the product does not exceed `10^15`
the product computed in floating point is that integer. Likewise under binary32
arithmetic for `0 < mantissa < 2^23`, `-10 <= exp <= 17`, `exp > 10` and the ceiling
`10^7`. -/
theorem reader_failure_condition (sc64 sc32 : List Nat → ℚ × Option NumError)
    (r : readFloatResult) :
    (0 < r.mantissa → r.mantissa < 2 ^ 52 → -22 ≤ r.exp → r.exp ≤ 37 →
      (∃ f fail, parseFloat64_reader (binary64 sc64) r = some (f, fail) ∧
        (fail = true ↔ (22 < r.exp ∧ 10 ^ 15 < r.mantissa * 10 ^ (r.exp - 22).toNat))) ∧
      (22 < r.exp → r.mantissa * 10 ^ (r.exp - 22).toNat ≤ 10 ^ 15 →
        (binary64 sc64).mul ((binary64 sc64).ofUint64 r.mantissa)
          ((binary64 sc64).pow10 (r.exp - 22).toNat) =
            ((r.mantissa * 10 ^ (r.exp - 22).toNat : ℕ) : ℚ))) ∧
    (0 < r.mantissa → r.mantissa < 2 ^ 23 → -10 ≤ r.exp → r.exp ≤ 17 →
      (∃ f fail, parseFloat32_reader (binary32 sc32) r = some (f, fail) ∧
        (fail = true ↔ (10 < r.exp ∧ 10 ^ 7 < r.mantissa * 10 ^ (r.exp - 10).toNat))) ∧
      (10 < r.exp → r.mantissa * 10 ^ (r.exp - 10).toNat ≤ 10 ^ 7 →
        (binary32 sc32).mul ((binary32 sc32).ofUint64 r.mantissa)
          ((binary32 sc32).pow10 (r.exp - 10).toNat) =
            ((r.mantissa * 10 ^ (r.exp - 10).toNat : ℕ) : ℚ))) := by
  constructor
  · intro hm0 hm h1 h2
    have hmain : 22 < r.exp →
        ((binary64 sc64).gt ((binary64 sc64).mul ((binary64 sc64).ofUint64 r.mantissa)
          ((binary64 sc64).pow10 (r.exp - 22).toNat)) ((binary64 sc64).pow10 15) = true ↔
          10 ^ 15 < r.mantissa * 10 ^ (r.exp - 22).toNat) ∧
        (r.mantissa * 10 ^ (r.exp - 22).toNat ≤ 10 ^ 15 →
          (binary64 sc64).mul ((binary64 sc64).ofUint64 r.mantissa)
            ((binary64 sc64).pow10 (r.exp - 22).toNat) =
              ((r.mantissa * 10 ^ (r.exp - 22).toNat : ℕ) : ℚ)) := by
      intro hc
      have hk : (r.exp - 22).toNat ≤ 15 := by omega
      exact binaryOps_scaled 53 (by norm_num) sc64 r.mantissa (r.exp - 22).toNat 15 hm0
        (lt_trans hm (by norm_num))
        (lt_of_le_of_lt (Nat.pow_le_pow_right (by norm_num) hk) (by norm_num)) (by norm_num)
    obtain ⟨f, fail, hr, hf⟩ := parseFloat64_reader_fail (binary64 sc64) r h1 h2
    refine ⟨⟨f, fail, hr, ?_⟩, fun hc => (hmain hc).2⟩
    rw [hf]
    constructor
    · intro h; exact ⟨h.1, (hmain h.1).1.mp h.2⟩
    · intro h; exact ⟨h.1, (hmain h.1).1.mpr h.2⟩
  · intro hm0 hm h1 h2
    have hmain : 10 < r.exp →
        ((binary32 sc32).gt ((binary32 sc32).mul ((binary32 sc32).ofUint64 r.mantissa)
          ((binary32 sc32).pow10 (r.exp - 10).toNat)) ((binary32 sc32).pow10 7) = true ↔
          10 ^ 7 < r.mantissa * 10 ^ (r.exp - 10).toNat) ∧
        (r.mantissa * 10 ^ (r.exp - 10).toNat ≤ 10 ^ 7 →
          (binary32 sc32).mul ((binary32 sc32).ofUint64 r.mantissa)
            ((binary32 sc32).pow10 (r.exp - 10).toNat) =
              ((r.mantissa * 10 ^ (r.exp - 10).toNat : ℕ) : ℚ)) := by
      intro hc
      have hk : (r.exp - 10).toNat ≤ 7 := by omega
      exact binaryOps_scaled 24 (by norm_num) sc32 r.mantissa (r.exp - 10).toNat 7 hm0
        (lt_trans hm (by norm_num))
        (lt_of_le_of_lt (Nat.pow_le_pow_right (by norm_num) hk) (by norm_num)) (by norm_num)
    obtain ⟨f, fail, hr, hf⟩ := parseFloat32_reader_fail (binary32 sc32) r h1 h2
    refine ⟨⟨f, fail, hr, ?_⟩, fun hc => (hmain hc).2⟩
    rw [hf]
    constructor
    · intro h; exact ⟨h.1, (hmain h.1).1.mp h.2⟩
    · intro h; exact ⟨h.1, (hmain h.1).1.mpr h.2⟩

/-- C18 at mantissa `5` with exponent `30` (no failure: `5 * 10^8 <= 10^15`), at mantissa
`2^52 - 1` with exponent `23` (failure) and, for `float32`, at mantissa `5` with exponent
`12` (no failure). -/
theorem reader_failure_condition_witness :
    ((0 < 5 ∧ 5 < 2 ^ 52 ∧ (-22 : Int) ≤ 30 ∧ (30 : Int) ≤ 37) ∧
      (0 < 4503599627370495 ∧ 4503599627370495 < 2 ^ 52 ∧ (-22 : Int) ≤ 23 ∧ (23 : Int) ≤ 37) ∧
      (0 < 5 ∧ 5 < 2 ^ 23 ∧ (-10 : Int) ≤ 12 ∧ (12 : Int) ≤ 17)) ∧
    ∀ sc64 sc32 : List Nat → ℚ × Option NumError,
      (∃ f, parseFloat64_reader (binary64 sc64)
        ⟨5, 30, false, false, false, false, false, true⟩ = some (f, false)) ∧
      (∃ f, parseFloat64_reader (binary64 sc64)
        ⟨4503599627370495, 23, false, false, false, false, false, true⟩ = some (f, true)) ∧
      (∃ f, parseFloat32_reader (binary32 sc32)
        ⟨5, 12, false, false, false, false, false, true⟩ = some (f, false)) := by
  refine ⟨⟨⟨by norm_num, by norm_num, by norm_num, by norm_num⟩,
    ⟨by norm_num, by norm_num, by norm_num, by norm_num⟩,
    ⟨by norm_num, by norm_num, by norm_num, by norm_num⟩⟩, fun sc64 sc32 => ?_⟩
  have ha := (reader_failure_condition sc64 sc32
    ⟨5, 30, false, false, false, false, false, true⟩).1
    (by decide) (by norm_num) (by decide) (by decide)
  have hb := (reader_failure_condition sc64 sc32
    ⟨4503599627370495, 23, false, false, false, false, false, true⟩).1
    (by decide) (by norm_num) (by decide) (by decide)
  have hc := (reader_failure_condition sc64 sc32
    ⟨5, 12, false, false, false, false, false, true⟩).2
    (by decide) (by norm_num) (by decide) (by decide)
  obtain ⟨fa, faila, hfa, hia⟩ := ha.1
  obtain ⟨fb, failb, hfb, hib⟩ := hb.1
  obtain ⟨fc, failc, hfc, hic⟩ := hc.1
  refine ⟨⟨fa, ?_⟩, ⟨fb, ?_⟩, ⟨fc, ?_⟩⟩
  · cases faila with
    | false => exact hfa
    | true => exact absurd (hia.mp rfl).2 (by decide)
  · have : failb = true := hib.mpr ⟨by decide, by decide⟩
    rw [this] at hfb
    exact hfb
  · cases failc with
    | false => exact hfc
    | true => exact absurd (hic.mp rfl).2 (by decide)

/-- C19 (bounded scanner exactness). For every token of the input grammar of at most 28
bytes and each of the four profiles `fi32`, `fi64`, `fi64u`, `fi64i`: the scan with a record
of wraparound gives the result of `readFloat` and its record is unset, so none of `nd`,
`ndMant`, `dp`, `e`, `exp` wraps around; and if `readFloat` is `ok`, then
`(-1)^neg * mantissa * 10^exp` is the exact rational value of the token. -/
theorem bounded_scan_exact (L : Literal) (hwf : L.wf) (hlen : L.bytes.length ≤ 28)
    (y : floatinfo) (hy : y = fi32 ∨ y = fi64 ∨ y = fi64u ∨ y = fi64i) :
    (readFloatW L.bytes y).1 = readFloat L.bytes y ∧ (readFloatW L.bytes y).2 = false ∧
    ((readFloat L.bytes y).ok = true → scanValue (readFloat L.bytes y) = L.value) := by
  have h := readFloatW_exact L hwf hlen y (cutoffSafe_profile y hy)
  rw [readFloatW_fst] at h
  exact ⟨readFloatW_fst _ _, h.1, h.2⟩

/-- C19 at the token `-12.50e3` under `fi64`: it scans as `-1250 * 10^1`. -/
theorem bounded_scan_exact_witness :
    (sampleLiteral.wf ∧ sampleLiteral.bytes.length ≤ 28 ∧
      sampleLiteral.bytes = bytes "-12.50e3") ∧
    (readFloatW (bytes "-12.50e3") fi64).2 = false ∧
    readFloat (bytes "-12.50e3") fi64 = ⟨1250, 1, true, true, true, false, false, true⟩ ∧
    scanValue (readFloat (bytes "-12.50e3") fi64) = sampleLiteral.value := by
  have h := bounded_scan_exact sampleLiteral sampleLiteral_wf (by decide) fi64
    (Or.inr (Or.inl rfl))
  have hb : sampleLiteral.bytes = bytes "-12.50e3" := by decide
  rw [hb] at h
  exact ⟨⟨sampleLiteral_wf, by decide, hb⟩, h.2.1, by decide, h.2.2 (by decide)⟩

/-- C20 (no false rejection). For every token `s` of the input grammar, `readFloat` sets
`bad` under no profile, and `parseFloat64_custom` returns either exactly the result of the
library parser or the value of `parseFloat64_reader` with no error: never its own syntax
error. -/
theorem no_false_rejection (E : FloatOps) (s : List Nat) (hs : matchesGrammar s) :
    (∀ y : floatinfo, (readFloat s y).bad = false) ∧
    (parseFloat64_custom E s = some (E.strconv s) ∨
      ∃ f, parseFloat64_reader E (readFloat s fi64) = some (f, false) ∧
        parseFloat64_custom E s = some (f, none)) := by
  obtain ⟨L, hwf, rfl⟩ := hs
  have hbad := readFloat_literal_bad L hwf
  refine ⟨hbad, ?_⟩
  unfold parseFloat64_custom
  simp only [hbad fi64]
  by_cases hok : (readFloat L.bytes fi64).ok = true
  · have hr := readFloat_ok_range L.bytes fi64 hok (by decide) (by decide) (by decide)
    have hsome := parseFloat64_reader_isSome E (readFloat L.bytes fi64)
      (by simpa [fi64] using hr.1) (by simpa [fi64] using hr.2)
    obtain ⟨⟨f, fail⟩, hx⟩ := Option.isSome_iff_exists.mp hsome
    cases fail with
    | true => left; simp [hok, hx]
    | false => right; exact ⟨f, hx, by simp [hok, hx]⟩
  · left
    simp [hok]

/-- C20 at the token `-12.50e3`. -/
theorem no_false_rejection_witness :
    matchesGrammar (bytes "-12.50e3") ∧
    ∀ E : FloatOps,
      (∀ y : floatinfo, (readFloat (bytes "-12.50e3") y).bad = false) ∧
      (parseFloat64_custom E (bytes "-12.50e3") = some (E.strconv (bytes "-12.50e3")) ∨
        ∃ f, parseFloat64_reader E (readFloat (bytes "-12.50e3") fi64) = some (f, false) ∧
          parseFloat64_custom E (bytes "-12.50e3") = some (f, none)) :=
  ⟨⟨sampleLiteral, sampleLiteral_wf, by decide⟩,
    fun E => no_false_rejection E (bytes "-12.50e3") ⟨sampleLiteral, sampleLiteral_wf, by decide⟩⟩

end Codec
